import Mathlib

/-!
Verification of the structural clone detector in `drace/darkian/z200/z202.py`.

The development shallowly embeds the Python source: a fragment of the Python
AST as Lean inductives, the `Canonicalizer` tree transformer as an explicit
state-passing function, `canonical_block_dump` (with a real SHA-256), the
`BodyWalker` window extractor behind `collect_sequences`, the triviality
filter and the greedy overlap-aware selector of `check`.  Theorems at the
bottom settle the specification claims.
-/

set_option maxHeartbeats 1000000

namespace Z202

/-! ## Python integer repr (decimal rendering) -/

/-- Character for a decimal digit `d` (`0 ↦ '0'`, …, `9 ↦ '9'`). -/
def digitChar (d : Nat) : Char := Char.ofNat (48 + d)

/-- Decimal digits of `n`, least significant first, driven by fuel
(the fuel `n+1` is always enough). -/
def decRev : Nat → Nat → List Nat
  | 0, _ => []
  | f+1, n => if n < 10 then [n] else n % 10 :: decRev f (n / 10)

/-- Value of a least-significant-first digit list. -/
def fromRev : List Nat → Nat
  | [] => 0
  | d :: ds => d + 10 * fromRev ds

/-- Decimal rendering of a natural number, as Python's `repr`/f-strings do. -/
def natDecimal (n : Nat) : String :=
  String.mk (((decRev (n+1) n).reverse).map digitChar)

/-- Decimal rendering of an integer, as Python's `repr` does. -/
def intDecimal (i : Int) : String :=
  if i < 0 then "-" ++ natDecimal (-i).toNat else natDecimal i.toNat

/-! ## Python constant values and their repr

The embedding models the constant values that occur as Python literals in
the analyzed fragment: integers, strings (without characters that Python's
`repr` would escape), booleans and `None`.  `pyRepr` is Python's `repr` on
these values; note that `repr(True) = "True"` while `repr(1) = "1"`, so the
boolean constants never collide with the integer ones. -/

inductive PyVal where
  | int (i : Int)
  | str (s : String)
  | bool (b : Bool)
  | none
deriving DecidableEq, Repr

/-- Python `repr` of a modeled constant value. -/
def pyRepr : PyVal → String
  | .int i => intDecimal i
  | .str s => "'" ++ s ++ "'"
  | .bool true => "True"
  | .bool false => "False"
  | .none => "None"

/-! ## The Python AST fragment

A closed fragment of the Python `ast` node kinds that the analyzed source
manipulates.  Expression contexts (`Load`/`Store`) are carried on names and
attributes, as in `ast.Name(id, ctx)`.  Statements carry the optional
source-position attributes `lineno`/`end_lineno` that `collect_sequences`
reads; `ast.dump(..., include_attributes=False)` ignores them. -/

inductive Ctx where
  | load
  | store
deriving DecidableEq, Repr

mutual
inductive Expr where
  | name (id : String) (ctx : Ctx)
  | attribute (value : Expr) (attr : String) (ctx : Ctx)
  | const (value : PyVal)
  | call (func : Expr) (args : ExprList) (keywords : KwList)
  | binOp (left : Expr) (op : String) (right : Expr)
deriving DecidableEq, Repr
inductive ExprList where
  | nil
  | cons (e : Expr) (es : ExprList)
deriving DecidableEq, Repr
inductive KwList where
  | nil
  | cons (arg : Option String) (value : Expr) (ks : KwList)
deriving DecidableEq, Repr
end

mutual
inductive Stmt where
  | mk (lineno : Option Int) (end_lineno : Option Int) (kind : SKind)
deriving DecidableEq, Repr
inductive SKind where
  | assign (target : Expr) (value : Expr)
  | augAssign (target : Expr) (op : String) (value : Expr)
  | exprStmt (value : Expr)
  | ret (value : Option Expr)
  | ifS (test : Expr) (body : StmtList) (orelse : StmtList)
  | whileS (test : Expr) (body : StmtList) (orelse : StmtList)
  | forS (target : Expr) (iter : Expr) (body : StmtList) (orelse : StmtList)
  | withS (item : Expr) (body : StmtList)
  | funcDef (name : String) (args : List String) (body : StmtList)
      (decorators : ExprList) (returns : Option Expr)
  | asyncFuncDef (name : String) (args : List String) (body : StmtList)
      (decorators : ExprList) (returns : Option Expr)
  | classDef (name : String) (bases : ExprList) (body : StmtList)
      (decorators : ExprList)
  | tryS (body : StmtList) (handlers : HandlerList) (orelse : StmtList)
      (finalbody : StmtList)
  | pass
  | breakS
  | continueS
deriving DecidableEq, Repr
inductive StmtList where
  | nil
  | cons (s : Stmt) (ss : StmtList)
deriving DecidableEq, Repr
inductive HandlerList where
  | nil
  | cons (body : StmtList) (hs : HandlerList)
deriving DecidableEq, Repr
end

/-- Conversion from a Lean list of statements to the embedded statement list. -/
def StmtList.ofList : List Stmt → StmtList
  | [] => .nil
  | s :: ss => .cons s (StmtList.ofList ss)

/-- Conversion from the embedded statement list to a Lean list. -/
def StmtList.toList : StmtList → List Stmt
  | .nil => []
  | .cons s ss => s :: StmtList.toList ss

/-! ## The Canonicalizer

State and visitor methods of `class Canonicalizer(ast.NodeTransformer)`.
The two dictionaries are insertion-ordered association lists, as Python
dicts are; `_n_name` is the counter shared by names and attributes and
`_n_const` the independent constant counter, exactly as in `__init__`. -/

structure CState where
  name_map : List (String × String)
  const_map : List (String × String)
  n_name : Nat
  n_const : Nat
deriving DecidableEq, Repr

/-- The freshly-initialized canonicalizer state (`Canonicalizer.__init__`). -/
def initState : CState := ⟨[], [], 0, 0⟩

/-- Python dict lookup on an insertion-ordered association list. -/
def alookup : List (String × String) → String → Option String
  | [], _ => Option.none
  | (k, v) :: rest, key => if k = key then some v else alookup rest key

/-- Embeds `Canonicalizer._map_name`. -/
def map_name (st : CState) (name : String) : String × CState :=
  match alookup st.name_map name with
  | some p => (p, st)
  | Option.none =>
    let p := "_N" ++ natDecimal st.n_name
    (p, { st with name_map := st.name_map ++ [(name, p)], n_name := st.n_name + 1 })

/-- Embeds `Canonicalizer._map_const`; the key is the constant's `repr`. -/
def map_const (st : CState) (value : PyVal) : String × CState :=
  match alookup st.const_map (pyRepr value) with
  | some p => (p, st)
  | Option.none =>
    ("_C" ++ natDecimal st.n_const,
      { st with const_map := st.const_map ++ [(pyRepr value, "_C" ++ natDecimal st.n_const)], n_const := st.n_const + 1 })

/-- Embeds the attribute-mapping step inlined in `Canonicalizer.visit_Attribute`:
the key is `"attr::" + attr` in the shared `name_map`, and the placeholder is
`_A{self._n_name}` drawn from the shared name counter. -/
def map_attr (st : CState) (attr : String) : String × CState :=
  match alookup st.name_map ("attr::" ++ attr) with
  | some p => (p, st)
  | Option.none =>
    ("_A" ++ natDecimal st.n_name,
      { st with name_map := st.name_map ++ [("attr::" ++ attr, "_A" ++ natDecimal st.n_name)], n_name := st.n_name + 1 })

mutual
/-- Canonicalization of one expression.  Dispatch follows `NodeTransformer`:
`visit_Name`, `visit_Attribute`, `visit_Constant` are overridden; `Call` and
`BinOp` fall through to `generic_visit`, which rewrites children in field
order.  `visit_Attribute` first runs `generic_visit` (canonicalizing the
value) and then maps the attribute name. -/
def canonExpr : Expr → CState → Expr × CState
  | .name id ctx, st =>
    let r := map_name st id
    (.name r.1 ctx, r.2)
  | .attribute value attr ctx, st =>
    let r := canonExpr value st
    let r2 := map_attr r.2 attr
    (.attribute r.1 r2.1 ctx, r2.2)
  | .const v, st =>
    let r := map_const st v
    (.const (.str r.1), r.2)
  | .call f args kws, st =>
    let r := canonExpr f st
    let r2 := canonExprList args r.2
    let r3 := canonKwList kws r2.2
    (.call r.1 r2.1 r3.1, r3.2)
  | .binOp l op r, st =>
    let r1 := canonExpr l st
    let r2 := canonExpr r r1.2
    (.binOp r1.1 op r2.1, r2.2)
/-- Canonicalization of an expression list, left to right. -/
def canonExprList : ExprList → CState → ExprList × CState
  | .nil, st => (.nil, st)
  | .cons e es, st =>
    let r := canonExpr e st
    let r2 := canonExprList es r.2
    (.cons r.1 r2.1, r2.2)
/-- Canonicalization of a keyword list.  `ast.keyword` has no visitor, so
`generic_visit` rewrites only the value; the keyword argument name (a plain
string field, not a node) is left untouched. -/
def canonKwList : KwList → CState → KwList × CState
  | .nil, st => (.nil, st)
  | .cons arg v ks, st =>
    let r := canonExpr v st
    let r2 := canonKwList ks r.2
    (.cons arg r.1 r2.1, r2.2)
end

/-- Canonicalization of an optional expression (an absent field is kept). -/
def canonOptExpr : Option Expr → CState → Option Expr × CState
  | Option.none, st => (Option.none, st)
  | some e, st =>
    let r := canonExpr e st
    (some r.1, r.2)

/-- Canonicalization of the formal parameter names of a function: each
`ast.arg` node goes through `visit_arg`, which maps the parameter name with
`_map_name` and drops its annotation. -/
def canonArgs : List String → CState → List String × CState
  | [], st => ([], st)
  | a :: as, st =>
    let r := map_name st a
    let r2 := canonArgs as r.2
    (r.1 :: r2.1, r2.2)

mutual
/-- Canonicalization of one statement (positions are copied unchanged, as
`ast.copy_location` does; `ast.dump(..., include_attributes=False)` never
shows them). -/
def canonStmt : Stmt → CState → Stmt × CState
  | .mk l e k, st =>
    let r := canonSKind k st
    (.mk l e r.1, r.2)
/-- Canonicalization of a statement kind.  `visit_FunctionDef` and
`visit_ClassDef` run `generic_visit` first (so decorators, annotations and
bases are canonicalized, consuming placeholder numbers) and only then rename
to the `_fn`/`_cls` sentinel and drop decorators/returns/bases.
`AsyncFunctionDef` has no visitor: `generic_visit` rewrites its children but
keeps its name, decorators and returns. -/
def canonSKind : SKind → CState → SKind × CState
  | .assign t v, st =>
    let r := canonExpr t st
    let r2 := canonExpr v r.2
    (.assign r.1 r2.1, r2.2)
  | .augAssign t op v, st =>
    let r := canonExpr t st
    let r2 := canonExpr v r.2
    (.augAssign r.1 op r2.1, r2.2)
  | .exprStmt v, st =>
    let r := canonExpr v st
    (.exprStmt r.1, r.2)
  | .ret v, st =>
    let r := canonOptExpr v st
    (.ret r.1, r.2)
  | .ifS t b o, st =>
    let r := canonExpr t st
    let rb := canonStmtList b r.2
    let ro := canonStmtList o rb.2
    (.ifS r.1 rb.1 ro.1, ro.2)
  | .whileS t b o, st =>
    let r := canonExpr t st
    let rb := canonStmtList b r.2
    let ro := canonStmtList o rb.2
    (.whileS r.1 rb.1 ro.1, ro.2)
  | .forS t it b o, st =>
    let r := canonExpr t st
    let ri := canonExpr it r.2
    let rb := canonStmtList b ri.2
    let ro := canonStmtList o rb.2
    (.forS r.1 ri.1 rb.1 ro.1, ro.2)
  | .withS item b, st =>
    let r := canonExpr item st
    let rb := canonStmtList b r.2
    (.withS r.1 rb.1, rb.2)
  | .funcDef _name args body decs retu, st =>
    let ra := canonArgs args st
    let rb := canonStmtList body ra.2
    let rd := canonExprList decs rb.2
    let rr := canonOptExpr retu rd.2
    (.funcDef "_fn" ra.1 rb.1 .nil Option.none, rr.2)
  | .asyncFuncDef name args body decs retu, st =>
    let ra := canonArgs args st
    let rb := canonStmtList body ra.2
    let rd := canonExprList decs rb.2
    let rr := canonOptExpr retu rd.2
    (.asyncFuncDef name ra.1 rb.1 rd.1 rr.1, rr.2)
  | .classDef _name bases body decs, st =>
    let rbs := canonExprList bases st
    let rb := canonStmtList body rbs.2
    let rd := canonExprList decs rb.2
    (.classDef "_cls" .nil rb.1 .nil, rd.2)
  | .tryS b hs o f, st =>
    let rb := canonStmtList b st
    let rh := canonHandlers hs rb.2
    let ro := canonStmtList o rh.2
    let rf := canonStmtList f ro.2
    (.tryS rb.1 rh.1 ro.1 rf.1, rf.2)
  | .pass, st => (.pass, st)
  | .breakS, st => (.breakS, st)
  | .continueS, st => (.continueS, st)
/-- Canonicalization of a statement list, left to right. -/
def canonStmtList : StmtList → CState → StmtList × CState
  | .nil, st => (.nil, st)
  | .cons s ss, st =>
    let r := canonStmt s st
    let r2 := canonStmtList ss r.2
    (.cons r.1 r2.1, r2.2)
/-- Canonicalization of exception handlers (body only in this fragment). -/
def canonHandlers : HandlerList → CState → HandlerList × CState
  | .nil, st => (.nil, st)
  | .cons b hs, st =>
    let r := canonStmtList b st
    let r2 := canonHandlers hs r.2
    (.cons r.1 r2.1, r2.2)
end

/-! ## Deterministic dump (`ast.dump(..., annotate_fields=False,
include_attributes=False)`) -/

/-- Python `repr` of an identifier string inside a dump. -/
def reprStr (s : String) : String := "'" ++ s ++ "'"

/-- Dump of an expression context node. -/
def dumpCtx : Ctx → String
  | .load => "Load()"
  | .store => "Store()"

mutual
/-- Dump of one expression, in the positional `ast.dump` format. -/
def dumpExpr : Expr → String
  | .name id ctx => "Name(" ++ reprStr id ++ ", " ++ dumpCtx ctx ++ ")"
  | .attribute v a ctx =>
    "Attribute(" ++ dumpExpr v ++ ", " ++ reprStr a ++ ", " ++ dumpCtx ctx ++ ")"
  | .const v => "Constant(" ++ pyRepr v ++ ")"
  | .call f args kws =>
    "Call(" ++ dumpExpr f ++ ", [" ++ dumpExprList args ++ "], [" ++
      dumpKwList kws ++ "])"
  | .binOp l op r =>
    "BinOp(" ++ dumpExpr l ++ ", " ++ op ++ "(), " ++ dumpExpr r ++ ")"
/-- Comma-separated dump of an expression list. -/
def dumpExprList : ExprList → String
  | .nil => ""
  | .cons e .nil => dumpExpr e
  | .cons e es => dumpExpr e ++ ", " ++ dumpExprList es
/-- Comma-separated dump of a keyword list. -/
def dumpKwList : KwList → String
  | .nil => ""
  | .cons a v .nil => "keyword(" ++ dumpOptArg a ++ ", " ++ dumpExpr v ++ ")"
  | .cons a v ks =>
    "keyword(" ++ dumpOptArg a ++ ", " ++ dumpExpr v ++ ")" ++ ", " ++
      dumpKwList ks
/-- Dump of an optional keyword-argument name. -/
def dumpOptArg : Option String → String
  | Option.none => "None"
  | some a => reprStr a
end

/-- Dump of an optional expression field. -/
def dumpOptExpr : Option Expr → String
  | Option.none => "None"
  | some e => dumpExpr e

/-- Comma-separated dump of formal parameters (`arg` nodes). -/
def dumpArgs : List String → String
  | [] => ""
  | [a] => "arg(" ++ reprStr a ++ ")"
  | a :: as => "arg(" ++ reprStr a ++ ")" ++ ", " ++ dumpArgs as

mutual
/-- Dump of one statement; source positions are attributes and are excluded. -/
def dumpStmt : Stmt → String
  | .mk _ _ k => dumpSKind k
/-- Dump of a statement kind. -/
def dumpSKind : SKind → String
  | .assign t v => "Assign([" ++ dumpExpr t ++ "], " ++ dumpExpr v ++ ")"
  | .augAssign t op v =>
    "AugAssign(" ++ dumpExpr t ++ ", " ++ op ++ "(), " ++ dumpExpr v ++ ")"
  | .exprStmt v => "Expr(" ++ dumpExpr v ++ ")"
  | .ret v => "Return(" ++ dumpOptExpr v ++ ")"
  | .ifS t b o =>
    "If(" ++ dumpExpr t ++ ", [" ++ dumpStmtList b ++ "], [" ++
      dumpStmtList o ++ "])"
  | .whileS t b o =>
    "While(" ++ dumpExpr t ++ ", [" ++ dumpStmtList b ++ "], [" ++
      dumpStmtList o ++ "])"
  | .forS t it b o =>
    "For(" ++ dumpExpr t ++ ", " ++ dumpExpr it ++ ", [" ++
      dumpStmtList b ++ "], [" ++ dumpStmtList o ++ "])"
  | .withS item b =>
    "With([withitem(" ++ dumpExpr item ++ ")], [" ++ dumpStmtList b ++ "])"
  | .funcDef n args b d r =>
    "FunctionDef(" ++ reprStr n ++ ", arguments([" ++ dumpArgs args ++
      "]), [" ++ dumpStmtList b ++ "], [" ++ dumpExprList d ++ "], " ++
      dumpOptExpr r ++ ")"
  | .asyncFuncDef n args b d r =>
    "AsyncFunctionDef(" ++ reprStr n ++ ", arguments([" ++ dumpArgs args ++
      "]), [" ++ dumpStmtList b ++ "], [" ++ dumpExprList d ++ "], " ++
      dumpOptExpr r ++ ")"
  | .classDef n bases b d =>
    "ClassDef(" ++ reprStr n ++ ", [" ++ dumpExprList bases ++ "], [" ++
      dumpStmtList b ++ "], [" ++ dumpExprList d ++ "])"
  | .tryS b hs o f =>
    "Try([" ++ dumpStmtList b ++ "], [" ++ dumpHandlers hs ++ "], [" ++
      dumpStmtList o ++ "], [" ++ dumpStmtList f ++ "])"
  | .pass => "Pass()"
  | .breakS => "Break()"
  | .continueS => "Continue()"
/-- Comma-separated dump of a statement list. -/
def dumpStmtList : StmtList → String
  | .nil => ""
  | .cons s .nil => dumpStmt s
  | .cons s ss => dumpStmt s ++ ", " ++ dumpStmtList ss
/-- Comma-separated dump of exception handlers. -/
def dumpHandlers : HandlerList → String
  | .nil => ""
  | .cons b .nil => "ExceptHandler([" ++ dumpStmtList b ++ "])"
  | .cons b hs =>
    "ExceptHandler([" ++ dumpStmtList b ++ "])" ++ ", " ++ dumpHandlers hs
end

/-- Dump of the synthetic `ast.Module(body=stmts, type_ignores=[])` wrapper
built by `canonical_block_dump`. -/
def dumpModule (body : StmtList) : String :=
  "Module([" ++ dumpStmtList body ++ "], [])"

/-! ## SHA-256 (`hashlib.sha256(...).hexdigest()`)

A real SHA-256 over the UTF-8 bytes of the dump, on `Nat` with explicit
wrap-around `% 2^32`.  The digest is only a grouping key; theorems use it
through congruence. -/

/-- Truncation to a 32-bit word. -/
def w32 (n : Nat) : Nat := n % 4294967296

/-- Right rotation of a 32-bit word. -/
def rotr32 (x n : Nat) : Nat := w32 ((x >>> n) ||| (x <<< (32 - n)))

/-- SHA-256 big sigma-0. -/
def bSig0 (x : Nat) : Nat := (rotr32 x 2) ^^^ (rotr32 x 13) ^^^ (rotr32 x 22)

/-- SHA-256 big sigma-1. -/
def bSig1 (x : Nat) : Nat := (rotr32 x 6) ^^^ (rotr32 x 11) ^^^ (rotr32 x 25)

/-- SHA-256 small sigma-0. -/
def sSig0 (x : Nat) : Nat := (rotr32 x 7) ^^^ (rotr32 x 18) ^^^ (x >>> 3)

/-- SHA-256 small sigma-1. -/
def sSig1 (x : Nat) : Nat := (rotr32 x 17) ^^^ (rotr32 x 19) ^^^ (x >>> 10)

/-- SHA-256 choose function. -/
def chFun (x y z : Nat) : Nat := (x &&& y) ^^^ ((x ^^^ 4294967295) &&& z)

/-- SHA-256 majority function. -/
def majFun (x y z : Nat) : Nat := (x &&& y) ^^^ (x &&& z) ^^^ (y &&& z)

/-- The 64 SHA-256 round constants. -/
def k256 : List Nat :=
  [1116352408, 1899447441, 3049323471, 3921009573, 961987163,
   1508970993, 2453635748, 2870763221, 3624381080, 310598401,
   607225278, 1426881987, 1925078388, 2162078206, 2614888103,
   3248222580, 3835390401, 4022224774, 264347078, 604807628,
   770255983, 1249150122, 1555081692, 1996064986, 2554220882,
   2821834349, 2952996808, 3210313671, 3336571891, 3584528711,
   113926993, 338241895, 666307205, 773529912, 1294757372,
   1396182291, 1695183700, 1986661051, 2177026350, 2456956037,
   2730485921, 2820302411, 3259730800, 3345764771, 3516065817,
   3600352804, 4094571909, 275423344, 430227734, 506948616,
   659060556, 883997877, 958139571, 1322822218, 1537002063,
   1747873779, 1955562222, 2024104815, 2227730452, 2361852424,
   2428436474, 2756734187, 3204031479, 3329325298]

/-- Big-endian bytes of a 64-bit length field. -/
def beBytes8 (n : Nat) : List Nat :=
  [(n >>> 56) % 256, (n >>> 48) % 256, (n >>> 40) % 256, (n >>> 32) % 256,
   (n >>> 24) % 256, (n >>> 16) % 256, (n >>> 8) % 256, n % 256]

/-- Big-endian bytes of one 32-bit word. -/
def beBytes4 (n : Nat) : List Nat :=
  [(n >>> 24) % 256, (n >>> 16) % 256, (n >>> 8) % 256, n % 256]

/-- SHA-256 message padding. -/
def padMsg (msg : List Nat) : List Nat :=
  msg ++ [128] ++ List.replicate ((64 - ((msg.length + 9) % 64)) % 64) 0 ++
    beBytes8 (8 * msg.length)

/-- Big-endian 32-bit words of a byte list. -/
def beWords : List Nat → List Nat
  | a :: b :: c :: d :: rest => ((a <<< 24) + (b <<< 16) + (c <<< 8) + d) :: beWords rest
  | _ => []

/-- Message-schedule extension: appends `k` further words. -/
def extendW : Nat → List Nat → List Nat
  | 0, ws => ws
  | k+1, ws =>
    let n := ws.length
    let w := w32 (sSig1 (ws.getD (n - 2) 0) + ws.getD (n - 7) 0 +
      sSig0 (ws.getD (n - 15) 0) + ws.getD (n - 16) 0)
    extendW k (ws ++ [w])

/-- The eight SHA-256 working variables. -/
structure H8 where
  a : Nat
  b : Nat
  c : Nat
  d : Nat
  e : Nat
  f : Nat
  g : Nat
  h : Nat
deriving DecidableEq, Repr

/-- Initial SHA-256 hash values. -/
def initH : H8 :=
  ⟨1779033703, 3144134277, 1013904242, 2773480762,
   1359893119, 2600822924, 528734635, 1541459225⟩

/-- One SHA-256 round on the working variables, for one `(k, w)` pair. -/
def roundStep (st : H8) (kw : Nat × Nat) : H8 :=
  let t1 := w32 (st.h + bSig1 st.e + chFun st.e st.f st.g + kw.1 + kw.2)
  let t2 := w32 (bSig0 st.a + majFun st.a st.b st.c)
  ⟨w32 (t1 + t2), st.a, st.b, st.c, w32 (st.d + t1), st.e, st.f, st.g⟩

/-- Compression of one 64-byte block. -/
def compressBlock (h : H8) (block : List Nat) : H8 :=
  let ws := extendW 48 (beWords block)
  let st := (k256.zip ws).foldl roundStep h
  ⟨w32 (h.a + st.a), w32 (h.b + st.b), w32 (h.c + st.c), w32 (h.d + st.d),
   w32 (h.e + st.e), w32 (h.f + st.f), w32 (h.g + st.g), w32 (h.h + st.h)⟩

/-- Partition into 64-byte blocks. -/
def chunk64 : List Nat → List (List Nat)
  | [] => []
  | x :: rest => ((x :: rest).take 64) :: chunk64 ((x :: rest).drop 64)
termination_by l => l.length
decreasing_by simp; omega

/-- SHA-256 of a byte list, as a list of 32 digest bytes. -/
def sha256Bytes (msg : List Nat) : List Nat :=
  let hh := (chunk64 (padMsg msg)).foldl compressBlock initH
  ([hh.a, hh.b, hh.c, hh.d, hh.e, hh.f, hh.g, hh.h].map beBytes4).flatten

/-- UTF-8 bytes of one character. -/
def utf8Char (c : Char) : List Nat :=
  let n := c.toNat
  if n < 128 then [n]
  else if n < 2048 then [192 ||| (n >>> 6), 128 ||| (n &&& 63)]
  else if n < 65536 then
    [224 ||| (n >>> 12), 128 ||| ((n >>> 6) &&& 63), 128 ||| (n &&& 63)]
  else
    [240 ||| (n >>> 18), 128 ||| ((n >>> 12) &&& 63),
     128 ||| ((n >>> 6) &&& 63), 128 ||| (n &&& 63)]

/-- UTF-8 encoding of a string (`str.encode("utf-8")`). -/
def utf8Bytes (s : String) : List Nat := (s.data.map utf8Char).flatten

/-- Hex character for a value below 16. -/
def hexChar (n : Nat) : Char := if n < 10 then digitChar n else Char.ofNat (87 + n)

/-- Two-character lowercase hex rendering of one byte. -/
def hexByte (b : Nat) : String := String.mk [hexChar (b / 16), hexChar (b % 16)]

/-- Lowercase hex digest of a byte list. -/
def hexDigest (bytes : List Nat) : String := String.join (bytes.map hexByte)

/-- Embeds `hashlib.sha256(s.encode("utf-8")).hexdigest()`. -/
def sha256hex (s : String) : String := hexDigest (sha256Bytes (utf8Bytes s))

/-! ## `canonical_block_dump` -/

/-- Embeds `canonical_block_dump`: wrap the statements in a synthetic
`Module`, canonicalize it with a fresh `Canonicalizer` (a `Module` has no
visitor, so `generic_visit` rewrites the body statements in order), dump it
deterministically, and return `(sha256-hex, dump)`.  The source also calls
`ast.fix_missing_locations`, which only fills position attributes; the dump
excludes attributes, so it has no observable effect here. -/
def canonical_block_dump (stmts : List Stmt) : String × String :=
  let r := canonStmtList (StmtList.ofList stmts) initState
  let dumped := dumpModule r.1
  (sha256hex dumped, dumped)

/-! ## `collect_sequences` and the `BodyWalker` -/

/-- A module node (`ast.Module`). -/
inductive Module where
  | mk (body : StmtList)
deriving DecidableEq, Repr

/-- Hash-to-occurrences mapping, insertion ordered as a Python dict is. -/
abbrev SeqMap := List (String × List (Int × Int × String))

/-- Embeds `sequences.setdefault(h, []).append((start, end, dumped))`. -/
def insertSeq (m : SeqMap) (h : String) (rec : Int × Int × String) : SeqMap :=
  match m with
  | [] => [(h, [rec])]
  | (k, l) :: rest =>
    if k = h then (k, l ++ [rec]) :: rest else (k, l) :: insertSeq rest h rec

/-- Fuel-driven `range(start, stop)` over integers (step 1). -/
def pyRangeUpFuel : Nat → Int → Int → List Int
  | 0, _, _ => []
  | f+1, start, stop =>
    if stop ≤ start then [] else start :: pyRangeUpFuel f (start + 1) stop

/-- Python `range(start, stop)` with step `1`. -/
def pyRangeUp (start stop : Int) : List Int :=
  pyRangeUpFuel (stop - start).toNat start stop

/-- Fuel-driven `range(start, stop, -1)` over integers. -/
def pyRangeDownFuel : Nat → Int → Int → List Int
  | 0, _, _ => []
  | f+1, start, stop =>
    if start ≤ stop then [] else start :: pyRangeDownFuel f (start - 1) stop

/-- Python `range(start, stop, -1)`. -/
def pyRangeDown (start stop : Int) : List Int :=
  pyRangeDownFuel (start - stop).toNat start stop

/-- Python slice `l[i : i + len]` for a non-negative start index. -/
def pySlice (l : List Stmt) (i len : Int) : List Stmt :=
  (l.drop i.toNat).take len.toNat

/-- Emission of one window: skip silently when the first statement lacks a
`lineno`; otherwise canonicalize and record `(start, end, dump)`, where the
end falls back from `end_lineno` to the last statement's `lineno` — note
that Python evaluates the `getattr` default eagerly, so a last statement
without `lineno` raises `AttributeError`, and `block[0]` on an empty slice
raises `IndexError`. -/
def emitWindow (m : SeqMap) (block : List Stmt) : Except String SeqMap :=
  match block with
  | [] => .error "IndexError"
  | (Stmt.mk lin _ _) :: _ =>
    match lin with
    | Option.none => .ok m
    | some start =>
      let hd := canonical_block_dump block
      match block.getLast? with
      | Option.none => .error "IndexError"
      | some (Stmt.mk llin lend _) =>
        match llin with
        | Option.none => .error "AttributeError"
        | some llv =>
          let endv := match lend with
            | some e => e
            | Option.none => llv
          .ok (insertSeq m hd.1 (start, endv, hd.2))

/-- Inner loop of `_walk_body`: all offsets for one window length. -/
def walkOffsets (stmts : List Stmt) (len : Int) :
    List Int → SeqMap → Except String SeqMap
  | [], m => .ok m
  | i :: rest, m => do
    let m1 ← emitWindow m (pySlice stmts i len)
    walkOffsets stmts len rest m1

/-- Outer loop of `_walk_body`: window lengths, longest first. -/
def walkLens (stmts : List Stmt) : List Int → SeqMap → Except String SeqMap
  | [], m => .ok m
  | len :: rest, m => do
    let n : Int := stmts.length
    let m1 ←
      if n < len then pure m
      else walkOffsets stmts len (pyRangeUp 0 (n - len + 1)) m
    walkLens stmts rest m1

/-- Embeds `BodyWalker._walk_body`: sliding windows of sizes
`max_len .. min_len` (longer first) over one statement list. -/
def walk_body (minl maxl : Int) (stmts : List Stmt) (m : SeqMap) :
    Except String SeqMap :=
  walkLens stmts (pyRangeDown maxl (minl - 1)) m

mutual
/-- Visit of one statement by the `BodyWalker`. -/
def visitStmt (minl maxl : Int) : Stmt → SeqMap → Except String SeqMap
  | .mk _ _ k, m => visitSKind minl maxl k m
/-- Dispatch on the statement kind.  `visit_FunctionDef`, `visit_If`,
`visit_For`, `visit_While`, `visit_With`, `visit_Try` walk the attached
bodies and then `generic_visit` their children; every other kind (notably
`AsyncFunctionDef` and `ClassDef`, which have no visitors) falls through to
`generic_visit`, which visits child statements without windowing the
surrounding body list. -/
def visitSKind (minl maxl : Int) : SKind → SeqMap → Except String SeqMap
  | .assign _ _, m => .ok m
  | .augAssign _ _ _, m => .ok m
  | .exprStmt _, m => .ok m
  | .ret _, m => .ok m
  | .ifS _ b o, m => do
    let m1 ← walk_body minl maxl b.toList m
    let m2 ← walk_body minl maxl o.toList m1
    let m3 ← visitStmts minl maxl b m2
    visitStmts minl maxl o m3
  | .whileS _ b o, m => do
    let m1 ← walk_body minl maxl b.toList m
    let m2 ← walk_body minl maxl o.toList m1
    let m3 ← visitStmts minl maxl b m2
    visitStmts minl maxl o m3
  | .forS _ _ b o, m => do
    let m1 ← walk_body minl maxl b.toList m
    let m2 ← walk_body minl maxl o.toList m1
    let m3 ← visitStmts minl maxl b m2
    visitStmts minl maxl o m3
  | .withS _ b, m => do
    let m1 ← walk_body minl maxl b.toList m
    visitStmts minl maxl b m1
  | .funcDef _ _ b _ _, m => do
    let m1 ← walk_body minl maxl b.toList m
    visitStmts minl maxl b m1
  | .asyncFuncDef _ _ b _ _, m => visitStmts minl maxl b m
  | .classDef _ _ b _, m => visitStmts minl maxl b m
  | .tryS b hs o f, m => do
    let m1 ← walk_body minl maxl b.toList m
    let m2 ← walk_body minl maxl o.toList m1
    let m3 ← walk_body minl maxl f.toList m2
    let m4 ← walkHandlers minl maxl hs m3
    let m5 ← visitStmts minl maxl b m4
    let m6 ← visitHandlers minl maxl hs m5
    let m7 ← visitStmts minl maxl o m6
    visitStmts minl maxl f m7
  | .pass, m => .ok m
  | .breakS, m => .ok m
  | .continueS, m => .ok m
/-- Visit of each statement of a list in order (`generic_visit` children). -/
def visitStmts (minl maxl : Int) : StmtList → SeqMap → Except String SeqMap
  | .nil, m => .ok m
  | .cons s ss, m => do
    let m1 ← visitStmt minl maxl s m
    visitStmts minl maxl ss m1
/-- The `for h in node.handlers: self._walk_body(h.body)` loop of
`visit_Try`. -/
def walkHandlers (minl maxl : Int) : HandlerList → SeqMap → Except String SeqMap
  | .nil, m => .ok m
  | .cons b hs, m => do
    let m1 ← walk_body minl maxl b.toList m
    walkHandlers minl maxl hs m1
/-- Generic visit into exception handlers' child statements. -/
def visitHandlers (minl maxl : Int) : HandlerList → SeqMap → Except String SeqMap
  | .nil, m => .ok m
  | .cons b hs, m => do
    let m1 ← visitStmts minl maxl b m
    visitHandlers minl maxl hs m1
end

/-- Visit of the module root: `visit_Module` walks the module body then
`generic_visit`s the children. -/
def visitModule (minl maxl : Int) : Module → SeqMap → Except String SeqMap
  | .mk body, m => do
    let m1 ← walk_body minl maxl body.toList m
    visitStmts minl maxl body m1

/-- Embeds `collect_sequences(tree, min_len=2, max_len=6)`. -/
def collect_sequences (tree : Module) (min_len : Int := 2)
    (max_len : Int := 6) : Except String SeqMap :=
  visitModule min_len max_len tree []

/-! ## Triviality filter -/

/-- Python's lexicographic tuple order on `(start, end)` pairs, used by
`sorted(matches)`. -/
def pairLe (a b : Int × Int) : Prop := a.1 < b.1 ∨ (a.1 = b.1 ∧ a.2 ≤ b.2)

instance : DecidableRel pairLe := fun a b =>
  inferInstanceAs (Decidable (a.1 < b.1 ∨ (a.1 = b.1 ∧ a.2 ≤ b.2)))

instance : IsTotal (Int × Int) pairLe :=
  ⟨fun a b => by unfold pairLe; omega⟩

instance : IsTrans (Int × Int) pairLe :=
  ⟨fun a b c hab hbc => by unfold pairLe at *; omega⟩

/-- The scan loop of `_is_trivial_by_line_ranges` over the sorted matches:
reject on any span with `end - start == 1`, or when the next start falls in
`range(start, end + 1)`; the final `IndexError` is caught and ignored. -/
def trivLoop : List (Int × Int) → Bool
  | [] => false
  | [(s, e)] => if e - s = 1 then true else false
  | (s, e) :: (s2, e2) :: rest =>
    if e - s = 1 then true
    else if s ≤ s2 ∧ s2 ≤ e then true
    else trivLoop ((s2, e2) :: rest)

/-- Embeds `_is_trivial_by_line_ranges`. -/
def is_trivial_by_line_ranges (ms : List (Int × Int)) : Bool :=
  if ms.length < 2 then false
  else trivLoop (List.insertionSort pairLe ms)

/-- Fuel-driven scan for Python's non-overlapping `str.count`. -/
def countSubFuel (pat : List Char) : Nat → List Char → Nat
  | 0, _ => 0
  | _+1, [] => 0
  | f+1, c :: rest =>
    if pat ≠ [] ∧ pat.isPrefixOf (c :: rest) then
      1 + countSubFuel pat f (rest.drop (pat.length - 1))
    else countSubFuel pat f rest

/-- Python `haystack.count(pat)` for a non-empty pattern. -/
def countSub (pat l : List Char) : Nat := countSubFuel pat l.length l

/-- Substring containment, Python's `pat in haystack`. -/
def containsSub (pat : List Char) : List Char → Bool
  | [] => pat.isEmpty
  | c :: rest => pat.isPrefixOf (c :: rest) || containsSub pat rest

/-- Modelled from the spec: `drace.utils.any_in` is not among the provided
sources; per the specification's description of the argparse heuristic
("at least one keyword-argument or literal-constant node"), it tests
whether at least one of the two given fragments occurs in `eq`. -/
def any_in (a b : String) (eq : String) : Bool :=
  containsSub a.data eq.data || containsSub b.data eq.data

/-- Embeds `_is_argparse_like`. -/
def is_argparse_like (dumped : String) : Bool :=
  decide (2 ≤ countSub "Call(Attribute(Name(".data dumped.data) &&
    any_in "keyword(" "Constant(" dumped

/-- Embeds `is_trivial_dump`. -/
def is_trivial_dump (dumped : String) (ranges : List (Int × Int)) : Bool :=
  if dumped.length < 50 then true
  else if containsSub "Return(".data dumped.data then true
  else if is_argparse_like dumped then true
  else if is_trivial_by_line_ranges ranges then true
  else false

/-! ## Candidate construction, ranking and greedy selection (`check`) -/

/-- Candidate-group metadata built inside `check`. -/
structure Cand where
  hash : String
  occurrences : List (Int × Int × String)
  count : Nat
  length : Int
  sample_dump : String
deriving DecidableEq, Repr

/-- One accepted finding of the greedy selector. -/
structure Sel where
  hash : String
  primary : Int × Int
  matches_ : List (Int × Int)
  count : Nat
  length : Int
deriving DecidableEq, Repr

/-- One reported issue record. -/
structure Issue where
  file : String
  line : Int
  col : Int
  code : String
  msg : String
deriving DecidableEq, Repr

/-- One `seen[key] = dumped` update of the dedup dict in `check`: later
dumps overwrite, keys keep first-insertion order. -/
def upsertSeen (acc : List ((Int × Int) × String)) (k : Int × Int)
    (d : String) : List ((Int × Int) × String) :=
  if acc.any (fun p => p.1 = k) then
    acc.map (fun p => if p.1 = k then (p.1, d) else p)
  else acc ++ [(k, d)]

/-- Embeds the `seen`-dict collapse of duplicate `(start, end)` occurrences. -/
def dedupOcc (occ : List (Int × Int × String)) : List (Int × Int × String) :=
  (occ.foldl (fun acc r => upsertSeen acc (r.1, r.2.1) r.2.2) []).map
    (fun p => (p.1.1, p.1.2, p.2))

/-- Python `min` on a list of integers (callers guarantee nonemptiness). -/
def listMinI : List Int → Int
  | [] => 0
  | [x] => x
  | x :: rest => min x (listMinI rest)

/-- Python `max` on a list of integers (callers guarantee nonemptiness). -/
def listMaxI : List Int → Int
  | [] => 0
  | [x] => x
  | x :: rest => max x (listMaxI rest)

/-- Embeds the candidate-building loop of `check`: dedup occurrences, drop
groups with fewer than 3 distinct locations, drop trivial groups, and attach
`(count, bounding-span length)` metadata. -/
def buildCandidates : SeqMap → List Cand
  | [] => []
  | (h, occ) :: rest =>
    if (dedupOcc occ).length < 3 then buildCandidates rest
    else if is_trivial_dump ((dedupOcc occ).headD (0, 0, "")).2.2
        ((dedupOcc occ).map (fun r => (r.1, r.2.1))) then buildCandidates rest
    else
      { hash := h, occurrences := dedupOcc occ, count := (dedupOcc occ).length,
        length := listMaxI ((dedupOcc occ).map (fun r => r.2.1)) -
          listMinI ((dedupOcc occ).map (fun r => r.1)) + 1,
        sample_dump := ((dedupOcc occ).headD (0, 0, "")).2.2 } :: buildCandidates rest

/-- Descending-rank relation of
`candidates.sort(key=lambda c: (c["count"], c["length"]), reverse=True)`:
`c` may precede `d` when `d`'s key is lexicographically at most `c`'s. -/
def candGe (c d : Cand) : Prop :=
  d.count < c.count ∨ (d.count = c.count ∧ d.length ≤ c.length)

instance : DecidableRel candGe := fun c d =>
  inferInstanceAs (Decidable (d.count < c.count ∨ (d.count = c.count ∧ d.length ≤ c.length)))

instance : IsTotal Cand candGe :=
  ⟨fun a b => by unfold candGe; omega⟩

instance : IsTrans Cand candGe :=
  ⟨fun a b c hab hbc => by unfold candGe at *; omega⟩

/-- Embeds the stable descending sort of the candidate list. -/
def sortCandidates (cands : List Cand) : List Cand :=
  List.insertionSort candGe cands

/-- Inclusive line range `range(start, end + 1)` of one occurrence. -/
def linesOf (s e : Int) : List Int := pyRangeUp s (e + 1)

/-- Embeds `range_overlaps_with_occupied`. -/
def range_overlaps_with_occupied (occupied : List Int) (s e : Int) : Bool :=
  (linesOf s e).any (fun ln => occupied.contains ln)

/-- Order by start line, `sorted(..., key=lambda t: t[0])`. -/
def byStart (a b : Int × Int) : Prop := a.1 ≤ b.1

instance : DecidableRel byStart := fun a b =>
  inferInstanceAs (Decidable (a.1 ≤ b.1))

instance : IsTotal (Int × Int) byStart :=
  ⟨fun a b => by unfold byStart; omega⟩

instance : IsTrans (Int × Int) byStart :=
  ⟨fun a b c hab hbc => by unfold byStart at *; omega⟩

/-- First-seen deduplication, the `{(s, e) for ...}` set build. -/
def dedupPairsAux (seen : List (Int × Int)) : List (Int × Int) → List (Int × Int)
  | [] => []
  | x :: rest =>
    if seen.contains x then dedupPairsAux seen rest
    else x :: dedupPairsAux (x :: seen) rest

/-- Distinct `(start, end)` pairs, first-seen order. -/
def dedupPairs (l : List (Int × Int)) : List (Int × Int) := dedupPairsAux [] l

/-- The distinct occurrences of a candidate sorted by start line, as built
at the top of the selection loop. -/
def occsOf (c : Cand) : List (Int × Int) :=
  List.insertionSort byStart (dedupPairs (c.occurrences.map (fun r => (r.1, r.2.1))))

/-- The `non_overlapping_occs` list of one selection-loop iteration: the
candidate's distinct sorted occurrences free of already-occupied lines. -/
def nonOverlappingOccs (occupied : List Int) (cand : Cand) : List (Int × Int) :=
  (occsOf cand).filter (fun p => !range_overlaps_with_occupied occupied p.1 p.2)

/-- One iteration of the greedy selection loop: keep the occurrences free of
occupied lines, require at least 2, then claim their lines. -/
def selectStep (acc : List Sel × List Int) (cand : Cand) : List Sel × List Int :=
  if (nonOverlappingOccs acc.2 cand).length < 2 then acc
  else
    ⟨acc.1 ++ [Sel.mk cand.hash ((nonOverlappingOccs acc.2 cand).headD (0, 0))
        (nonOverlappingOccs acc.2 cand) (nonOverlappingOccs acc.2 cand).length
        cand.length],
      (nonOverlappingOccs acc.2 cand).foldl (fun ls p => ls ++ linesOf p.1 p.2) acc.2⟩

/-- Embeds the greedy, overlap-aware selection over the ranked candidates. -/
def selectCandidates (cands : List Cand) : List Sel :=
  (cands.foldl selectStep ([], [])).1

/-- The selection stage of `check` on one hash-to-occurrences map. -/
def checkSelected (seqs : SeqMap) : List Sel :=
  selectCandidates (sortCandidates (buildCandidates seqs))

/-- Comma-and-space join, as Python renders list elements. -/
def joinComma : List String → String
  | [] => ""
  | [x] => x
  | x :: xs => x ++ ", " ++ joinComma xs

/-- Python `repr` of an `(int, int)` tuple. -/
def reprPair (p : Int × Int) : String :=
  "(" ++ intDecimal p.1 ++ ", " ++ intDecimal p.2 ++ ")"

/-- Python `repr` of a list of `(int, int)` tuples. -/
def reprPairList (l : List (Int × Int)) : String :=
  "[" ++ joinComma (l.map reprPair) ++ "]"

/-- Formatting of one selected candidate into an issue record, with the
display limit of 8 occurrences. -/
def formatResult (file : String) (s : Sel) : Issue :=
  let display_matches := if s.matches_.length ≤ 8 then s.matches_ else s.matches_.take 8
  let message := "repeated block detected (" ++ natDecimal s.count ++
    " occurrences). Consider extracting a function for the block at lines " ++
    reprPairList display_matches
  let message := if s.matches_.length > 8 then
      message ++ " (and " ++ natDecimal (s.matches_.length - 8) ++ " more occurrences)"
    else message
  { file := file, line := s.primary.1, col := 1, code := "Z202", msg := message }

/-- Embeds `check(tree, file)`: collect sequences with the default window
bounds, build/filter/rank candidate groups, select greedily, format. -/
def check (tree : Module) (file : String) : Except String (List Issue) :=
  (collect_sequences tree).map (fun seqs => (checkSelected seqs).map (formatResult file))

/-! ## Specification-side predicates (for refinement comparisons) -/

/-- Rejection condition of the trivially-sequential test as the code
realizes it: after sorting the matches, some occurrence spans exactly two
lines (`end - start == 1`), or some next occurrence starts within the
previous occurrence's inclusive line range. -/
def trivialRangesSpec (ms : List (Int × Int)) : Prop :=
  2 ≤ ms.length ∧
    ((∃ p ∈ List.insertionSort pairLe ms, p.2 - p.1 = 1) ∨
      ∃ q ∈ (List.insertionSort pairLe ms).zip (List.insertionSort pairLe ms).tail,
        q.1.1 ≤ q.2.1 ∧ q.2.1 ≤ q.1.2)

/-- The statement kinds of the fragment, for talking about "statement kind"
differences; these are the head constructor names `ast.dump` prints. -/
inductive KTag where
  | assign
  | augAssign
  | exprStmt
  | ret
  | ifS
  | whileS
  | forS
  | withS
  | funcDef
  | asyncFuncDef
  | classDef
  | tryS
  | pass
  | breakS
  | continueS
deriving DecidableEq, Fintype, Repr

/-- The kind of a statement. -/
def ktag : SKind → KTag
  | .assign _ _ => .assign
  | .augAssign _ _ _ => .augAssign
  | .exprStmt _ => .exprStmt
  | .ret _ => .ret
  | .ifS _ _ _ => .ifS
  | .whileS _ _ _ => .whileS
  | .forS _ _ _ _ => .forS
  | .withS _ _ => .withS
  | .funcDef _ _ _ _ _ => .funcDef
  | .asyncFuncDef _ _ _ _ _ => .asyncFuncDef
  | .classDef _ _ _ _ => .classDef
  | .tryS _ _ _ _ => .tryS
  | .pass => .pass
  | .breakS => .breakS
  | .continueS => .continueS

/-- The node-type name `ast.dump` prints for each statement kind. -/
def tagStr : KTag → String
  | .assign => "Assign"
  | .augAssign => "AugAssign"
  | .exprStmt => "Expr"
  | .ret => "Return"
  | .ifS => "If"
  | .whileS => "While"
  | .forS => "For"
  | .withS => "With"
  | .funcDef => "FunctionDef"
  | .asyncFuncDef => "AsyncFunctionDef"
  | .classDef => "ClassDef"
  | .tryS => "Try"
  | .pass => "Pass"
  | .breakS => "Break"
  | .continueS => "Continue"

/-- Shape invariant of the per-pass constant dictionary: its keys (constant
reprs) are distinct and its values are exactly `_C0, _C1, …` in insertion
order. -/
def ConstInv (st : CState) : Prop :=
  (st.const_map.map Prod.fst).Nodup ∧
  st.const_map.map Prod.snd =
    (List.range st.n_const).map (fun i => "_C" ++ natDecimal i)

/-- Two inclusive line ranges share a source line. -/
def Overlaps (a b : Int × Int) : Prop :=
  ∃ ln, a.1 ≤ ln ∧ ln ≤ a.2 ∧ b.1 ≤ ln ∧ ln ≤ b.2

/-- Invariant of the greedy selection loop: the line ranges of all matches
accepted so far are pairwise disjoint, and every line of every accepted
match is recorded in the occupied-lines set. -/
def SelInv (acc : List Sel × List Int) : Prop :=
  List.Pairwise (fun a b => ¬ Overlaps a b) ((acc.1.map Sel.matches_).flatten) ∧
  ∀ sel ∈ acc.1, ∀ p ∈ sel.matches_, ∀ ln : Int, p.1 ≤ ln → ln ≤ p.2 → ln ∈ acc.2

/-! ## Concrete scenario data -/

/-- Representative dump of a 4-statement pattern (long enough to pass the
length threshold, no return statement, not argparse-like). -/
def d4C8 : String :=
  "Module([Assign([Name('_N0', Store())], Constant('_C0')), Pass(), Pass(), Pass()], [])"

/-- Representative dump of a 2-statement pattern. -/
def d2C8 : String :=
  "Module([Assign([Name('_N1', Store())], Constant('_C1')), Pass()], [])"

/-- A hash-to-occurrences map with a 2-statement pattern at lines
`(10,12), (20,22), (30,32)` and a 4-statement pattern at overlapping lines
`(10,13), (20,23), (30,33)`, each occurring 3 times; the 2-statement group
is listed first, so any reordering is due to the ranking sort. -/
def seqsC8 : SeqMap :=
  [("hash2", [(10, 12, d2C8), (20, 22, d2C8), (30, 32, d2C8)]),
   ("hash4", [(10, 13, d4C8), (20, 23, d4C8), (30, 33, d4C8)])]

/-- A hash-to-occurrences map with a single non-trivial pattern occurring at
3 distinct, non-overlapping locations. -/
def seqsC2 : SeqMap :=
  [("habc", [(1, 3, d4C8), (10, 12, d4C8), (20, 22, d4C8)])]

/-- The candidate record `check` builds for the `habc` group of `seqsC2b`. -/
def cC2 : Cand :=
  ⟨"habc", [(1, 3, d4C8), (10, 12, d4C8), (20, 22, d4C8)], 3, 22, d4C8⟩

/-- A higher-ranked competitor group occurring 4 times on lines disjoint
from the `habc` group's lines. -/
def cBig : Cand :=
  ⟨"hbig", [(100, 103, d4C8), (110, 113, d4C8), (120, 123, d4C8), (130, 133, d4C8)],
    4, 34, d4C8⟩

/-- A hash-to-occurrences map with two surviving groups: the 3-occurrence
`habc` pattern and a higher-ranked 4-occurrence `hbig` pattern on disjoint
lines. -/
def seqsC2b : SeqMap :=
  [("habc", [(1, 3, d4C8), (10, 12, d4C8), (20, 22, d4C8)]),
   ("hbig", [(100, 103, d4C8), (110, 113, d4C8), (120, 123, d4C8), (130, 133, d4C8)])]

/-- A consistent renaming: one map for variable/parameter names, one for
attribute names, one for literal constant values. -/
structure Renaming where
  n : String → String
  a : String → String
  c : PyVal → PyVal

mutual
/-- Application of a renaming to an expression.  Keyword-argument names are
plain string fields (not `Name` nodes) and stay fixed, as does everything
the claim's renaming does not cover. -/
def renameExpr (ρ : Renaming) : Expr → Expr
  | .name id ctx => .name (ρ.n id) ctx
  | .attribute v a ctx => .attribute (renameExpr ρ v) (ρ.a a) ctx
  | .const v => .const (ρ.c v)
  | .call f args kws =>
    .call (renameExpr ρ f) (renameExprList ρ args) (renameKwList ρ kws)
  | .binOp l op r => .binOp (renameExpr ρ l) op (renameExpr ρ r)
/-- Renaming over an expression list. -/
def renameExprList (ρ : Renaming) : ExprList → ExprList
  | .nil => .nil
  | .cons e es => .cons (renameExpr ρ e) (renameExprList ρ es)
/-- Renaming over a keyword list (values only). -/
def renameKwList (ρ : Renaming) : KwList → KwList
  | .nil => .nil
  | .cons a v ks => .cons a (renameExpr ρ v) (renameKwList ρ ks)
end

/-- Renaming over an optional expression. -/
def renameOptExpr (ρ : Renaming) : Option Expr → Option Expr
  | Option.none => Option.none
  | some e => some (renameExpr ρ e)

mutual
/-- Application of a renaming to a statement (positions kept). -/
def renameStmt (ρ : Renaming) : Stmt → Stmt
  | .mk l e k => .mk l e (renameSKind ρ k)
/-- Application of a renaming to a statement kind.  Function and class
names are not part of the renaming (the canonicalizer replaces them with
fixed sentinels anyway); parameter names go through the name map. -/
def renameSKind (ρ : Renaming) : SKind → SKind
  | .assign t v => .assign (renameExpr ρ t) (renameExpr ρ v)
  | .augAssign t op v => .augAssign (renameExpr ρ t) op (renameExpr ρ v)
  | .exprStmt v => .exprStmt (renameExpr ρ v)
  | .ret v => .ret (renameOptExpr ρ v)
  | .ifS t b o => .ifS (renameExpr ρ t) (renameStmtList ρ b) (renameStmtList ρ o)
  | .whileS t b o => .whileS (renameExpr ρ t) (renameStmtList ρ b) (renameStmtList ρ o)
  | .forS t it b o =>
    .forS (renameExpr ρ t) (renameExpr ρ it) (renameStmtList ρ b) (renameStmtList ρ o)
  | .withS item b => .withS (renameExpr ρ item) (renameStmtList ρ b)
  | .funcDef nm args b d r =>
    .funcDef nm (args.map ρ.n) (renameStmtList ρ b) (renameExprList ρ d)
      (renameOptExpr ρ r)
  | .asyncFuncDef nm args b d r =>
    .asyncFuncDef nm (args.map ρ.n) (renameStmtList ρ b) (renameExprList ρ d)
      (renameOptExpr ρ r)
  | .classDef nm bases b d =>
    .classDef nm (renameExprList ρ bases) (renameStmtList ρ b) (renameExprList ρ d)
  | .tryS b hs o f =>
    .tryS (renameStmtList ρ b) (renameHandlers ρ hs) (renameStmtList ρ o)
      (renameStmtList ρ f)
  | .pass => .pass
  | .breakS => .breakS
  | .continueS => .continueS
/-- Renaming over a statement list. -/
def renameStmtList (ρ : Renaming) : StmtList → StmtList
  | .nil => .nil
  | .cons s ss => .cons (renameStmt ρ s) (renameStmtList ρ ss)
/-- Renaming over exception handlers. -/
def renameHandlers (ρ : Renaming) : HandlerList → HandlerList
  | .nil => .nil
  | .cons b hs => .cons (renameStmtList ρ b) (renameHandlers ρ hs)
end

/-- A string that is not of the reserved `"attr::" + _` key shape; every
legal Python identifier satisfies this (identifiers cannot contain `:`). -/
def NotAttrKey (x : String) : Prop := ∀ a, x ≠ "attr::" ++ a

/-- Decidable sufficient check for `NotAttrKey`. -/
def okName (x : String) : Bool := decide (x.data.take 6 ≠ "attr::".data)

mutual
/-- All variable names in an expression are legal identifiers (never of the
reserved `attr::` key shape). -/
def validExpr : Expr → Bool
  | .name id _ => okName id
  | .attribute v _ _ => validExpr v
  | .const _ => true
  | .call f args kws => validExpr f && validExprList args && validKwList kws
  | .binOp l _ r => validExpr l && validExpr r
/-- Validity over an expression list. -/
def validExprList : ExprList → Bool
  | .nil => true
  | .cons e es => validExpr e && validExprList es
/-- Validity over a keyword list (values only). -/
def validKwList : KwList → Bool
  | .nil => true
  | .cons _ v ks => validExpr v && validKwList ks
end

/-- Validity over an optional expression. -/
def validOptExpr : Option Expr → Bool
  | Option.none => true
  | some e => validExpr e

mutual
/-- Validity over a statement. -/
def validStmt : Stmt → Bool
  | .mk _ _ k => validSKind k
/-- Validity over a statement kind: all names and parameter names are legal
identifiers. -/
def validSKind : SKind → Bool
  | .assign t v => validExpr t && validExpr v
  | .augAssign t _ v => validExpr t && validExpr v
  | .exprStmt v => validExpr v
  | .ret v => validOptExpr v
  | .ifS t b o => validExpr t && validStmtList b && validStmtList o
  | .whileS t b o => validExpr t && validStmtList b && validStmtList o
  | .forS t it b o =>
    validExpr t && validExpr it && validStmtList b && validStmtList o
  | .withS item b => validExpr item && validStmtList b
  | .funcDef _ args b d r =>
    args.all okName && validStmtList b && validExprList d && validOptExpr r
  | .asyncFuncDef _ args b d r =>
    args.all okName && validStmtList b && validExprList d && validOptExpr r
  | .classDef _ bases b d =>
    validExprList bases && validStmtList b && validExprList d
  | .tryS b hs o f =>
    validStmtList b && validHandlers hs && validStmtList o && validStmtList f
  | .pass => true
  | .breakS => true
  | .continueS => true
/-- Validity over a statement list. -/
def validStmtList : StmtList → Bool
  | .nil => true
  | .cons s ss => validStmt s && validStmtList ss
/-- Validity over exception handlers. -/
def validHandlers : HandlerList → Bool
  | .nil => true
  | .cons b hs => validStmtList b && validHandlers hs
end

/-- Alignment of two canonicalizer states along a renaming: equal counters,
and the three kinds of dictionary lookups answer the same on renamed keys
as the original lookups do on original keys. -/
def Aligned (ρ : Renaming) (s1 s2 : CState) : Prop :=
  s2.n_name = s1.n_name ∧ s2.n_const = s1.n_const ∧
  (∀ x, NotAttrKey x → NotAttrKey (ρ.n x) →
    alookup s2.name_map (ρ.n x) = alookup s1.name_map x) ∧
  (∀ a, alookup s2.name_map ("attr::" ++ ρ.a a) = alookup s1.name_map ("attr::" ++ a)) ∧
  (∀ v, alookup s2.const_map (pyRepr (ρ.c v)) = alookup s1.const_map (pyRepr v))

/-- The concrete renaming of the C3 witness: prefix every variable name
with `v`, every attribute name with `w`, leave constant values unchanged. -/
def renC3 : Renaming := ⟨fun x => "v" ++ x, fun a => "w" ++ a, fun v => v⟩

/-- Statement kinds that carry no nested statement list. -/
def simpleKind : SKind → Bool
  | .assign _ _ => true
  | .augAssign _ _ _ => true
  | .exprStmt _ => true
  | .ret _ => true
  | .pass => true
  | .breakS => true
  | .continueS => true
  | _ => false

/-- A statement list made only of simple (block-free) statements. -/
def allSimple : StmtList → Bool
  | .nil => true
  | .cons (Stmt.mk _ _ k) ss => simpleKind k && allSimple ss

/-- The statement `x = 1` (line 1). -/
def sC4a : Stmt := .mk (some 1) (some 1) (.assign (.name "x" .store) (.const (.int 1)))

/-- The statement `y = 2` (line 2). -/
def sC4b : Stmt := .mk (some 2) (some 2) (.assign (.name "y" .store) (.const (.int 2)))

/-! ## Statement-kind skeletons and the token structure of dumps -/

mutual
/-- The statement-kind skeleton of a statement kind: the constructor
together with the skeletons of every nested statement block (expressions
and identifiers erased). -/
inductive SkelK where
  | assign
  | augAssign
  | exprStmt
  | ret
  | ifS (b o : SkelList)
  | whileS (b o : SkelList)
  | forS (b o : SkelList)
  | withS (b : SkelList)
  | funcDef (b : SkelList)
  | asyncFuncDef (b : SkelList)
  | classDef (b : SkelList)
  | tryS (b : SkelList) (hs : SkelHandlers) (o f : SkelList)
  | pass
  | breakS
  | continueS
deriving DecidableEq
/-- Skeleton of a statement list. -/
inductive SkelList where
  | nil
  | cons (k : SkelK) (rest : SkelList)
deriving DecidableEq
/-- Skeleton of an exception-handler list. -/
inductive SkelHandlers where
  | nil
  | cons (b : SkelList) (rest : SkelHandlers)
deriving DecidableEq
end

mutual
/-- Skeleton of a statement kind. -/
def skelSKind : SKind → SkelK
  | .assign _ _ => .assign
  | .augAssign _ _ _ => .augAssign
  | .exprStmt _ => .exprStmt
  | .ret _ => .ret
  | .ifS _ b o => .ifS (skelStmts b) (skelStmts o)
  | .whileS _ b o => .whileS (skelStmts b) (skelStmts o)
  | .forS _ _ b o => .forS (skelStmts b) (skelStmts o)
  | .withS _ b => .withS (skelStmts b)
  | .funcDef _ _ b _ _ => .funcDef (skelStmts b)
  | .asyncFuncDef _ _ b _ _ => .asyncFuncDef (skelStmts b)
  | .classDef _ _ b _ => .classDef (skelStmts b)
  | .tryS b hs o f => .tryS (skelStmts b) (skelHandlers hs) (skelStmts o) (skelStmts f)
  | .pass => .pass
  | .breakS => .breakS
  | .continueS => .continueS
/-- Skeleton of one statement (positions erased). -/
def skelStmt : Stmt → SkelK
  | .mk _ _ k => skelSKind k
/-- Skeleton of a statement list. -/
def skelStmts : StmtList → SkelList
  | .nil => .nil
  | .cons s ss => .cons (skelStmt s) (skelStmts ss)
/-- Skeleton of an exception-handler list. -/
def skelHandlers : HandlerList → SkelHandlers
  | .nil => .nil
  | .cons b hs => .cons (skelStmts b) (skelHandlers hs)
end

/-- Parenthesis-tracking scanner inside a node dump, `d` parentheses open
beyond the node's own: succeeds exactly when the list ends at the `)`
matching the node's opening parenthesis. -/
def tokB : Nat → List Char → Bool
  | _, [] => false
  | d, c :: cs =>
    if c = '(' then tokB (d + 1) cs
    else if c = ')' then
      match d with
      | 0 => cs.isEmpty
      | e + 1 => tokB e cs
    else tokB d cs

/-- A node-dump token: a parenthesis-free head up to an opening `(`, then a
balanced interior, ending exactly at the matching `)`. -/
def tokA : List Char → Bool
  | [] => false
  | c :: cs => if c = '(' then tokB 0 cs else if c = ')' then false else tokA cs

/-- Characters free of parentheses. -/
def pfree : List Char → Bool
  | [] => true
  | c :: cs => !(c = '(') && (!(c = ')') && pfree cs)

/-- A character that keeps the dump's token structure intact: not a
parenthesis and not a quote. -/
def cleanChar (c : Char) : Bool := !(c = '(') && (!(c = ')') && !(c = '\''))

/-- A string whose characters keep the dump's token structure intact;
every legal Python identifier and operator class name qualifies. -/
def cleanStr (s : String) : Bool := s.data.all cleanChar

/-- Cleanness of an optional keyword-argument name. -/
def cleanOptArg : Option String → Bool
  | Option.none => true
  | some a => cleanStr a

/-- Cleanness of a constant value as rendered inside `Constant(...)`. -/
def cleanVal : PyVal → Bool
  | .str s => cleanStr s
  | _ => true

mutual
/-- Every string rendered into the dump of this expression is clean. -/
def dcExpr : Expr → Bool
  | .name id _ => cleanStr id
  | .attribute v a _ => dcExpr v && cleanStr a
  | .const v => cleanVal v
  | .call f args kws => dcExpr f && (dcExprList args && dcKwList kws)
  | .binOp l op r => dcExpr l && (cleanStr op && dcExpr r)
/-- Dump-cleanness over an expression list. -/
def dcExprList : ExprList → Bool
  | .nil => true
  | .cons e es => dcExpr e && dcExprList es
/-- Dump-cleanness over a keyword list. -/
def dcKwList : KwList → Bool
  | .nil => true
  | .cons a v ks => cleanOptArg a && (dcExpr v && dcKwList ks)
end

/-- Dump-cleanness over an optional expression. -/
def dcOptExpr : Option Expr → Bool
  | Option.none => true
  | some e => dcExpr e

mutual
/-- Dump-cleanness over a statement. -/
def dcStmt : Stmt → Bool
  | .mk _ _ k => dcSKind k
/-- Every string rendered into the dump of this statement kind is clean. -/
def dcSKind : SKind → Bool
  | .assign t v => dcExpr t && dcExpr v
  | .augAssign t op v => dcExpr t && (cleanStr op && dcExpr v)
  | .exprStmt v => dcExpr v
  | .ret v => dcOptExpr v
  | .ifS t b o => dcExpr t && (dcStmts b && dcStmts o)
  | .whileS t b o => dcExpr t && (dcStmts b && dcStmts o)
  | .forS t it b o => dcExpr t && (dcExpr it && (dcStmts b && dcStmts o))
  | .withS item b => dcExpr item && dcStmts b
  | .funcDef n args b d r =>
    cleanStr n && (args.all cleanStr && (dcStmts b && (dcExprList d && dcOptExpr r)))
  | .asyncFuncDef n args b d r =>
    cleanStr n && (args.all cleanStr && (dcStmts b && (dcExprList d && dcOptExpr r)))
  | .classDef n bases b d =>
    cleanStr n && (dcExprList bases && (dcStmts b && dcExprList d))
  | .tryS b hs o f => dcStmts b && (dcHandlers hs && (dcStmts o && dcStmts f))
  | .pass => true
  | .breakS => true
  | .continueS => true
/-- Dump-cleanness over a statement list. -/
def dcStmts : StmtList → Bool
  | .nil => true
  | .cons s ss => dcStmt s && dcStmts ss
/-- Dump-cleanness over an exception-handler list. -/
def dcHandlers : HandlerList → Bool
  | .nil => true
  | .cons b hs => dcStmts b && dcHandlers hs
end

mutual
/-- Input-side validity for claim C4: the strings that survive
canonicalization into the dump — operator class names and keyword-argument
names — are clean.  Variable names, attribute names, constant values and
`def`/`class` names are replaced by placeholders, so they are
unconstrained. -/
def opkwExpr : Expr → Bool
  | .name _ _ => true
  | .attribute v _ _ => opkwExpr v
  | .const _ => true
  | .call f args kws => opkwExpr f && (opkwExprList args && opkwKwList kws)
  | .binOp l op r => opkwExpr l && (cleanStr op && opkwExpr r)
/-- Input-side validity over an expression list. -/
def opkwExprList : ExprList → Bool
  | .nil => true
  | .cons e es => opkwExpr e && opkwExprList es
/-- Input-side validity over a keyword list (the argument names stay in the
dump, so they must be clean). -/
def opkwKwList : KwList → Bool
  | .nil => true
  | .cons a v ks => cleanOptArg a && (opkwExpr v && opkwKwList ks)
end

/-- Input-side validity over an optional expression. -/
def opkwOptExpr : Option Expr → Bool
  | Option.none => true
  | some e => opkwExpr e

mutual
/-- Input-side validity over a statement. -/
def opkwStmt : Stmt → Bool
  | .mk _ _ k => opkwSKind k
/-- Input-side validity over a statement kind: `async def` names survive
into the dump (no visitor renames them), so they must be clean. -/
def opkwSKind : SKind → Bool
  | .assign t v => opkwExpr t && opkwExpr v
  | .augAssign t op v => opkwExpr t && (cleanStr op && opkwExpr v)
  | .exprStmt v => opkwExpr v
  | .ret v => opkwOptExpr v
  | .ifS t b o => opkwExpr t && (opkwStmts b && opkwStmts o)
  | .whileS t b o => opkwExpr t && (opkwStmts b && opkwStmts o)
  | .forS t it b o => opkwExpr t && (opkwExpr it && (opkwStmts b && opkwStmts o))
  | .withS item b => opkwExpr item && opkwStmts b
  | .funcDef _ _ b d r => opkwStmts b && (opkwExprList d && opkwOptExpr r)
  | .asyncFuncDef n _ b d r =>
    cleanStr n && (opkwStmts b && (opkwExprList d && opkwOptExpr r))
  | .classDef _ bases b d => opkwExprList bases && (opkwStmts b && opkwExprList d)
  | .tryS b hs o f => opkwStmts b && (opkwHandlers hs && (opkwStmts o && opkwStmts f))
  | .pass => true
  | .breakS => true
  | .continueS => true
/-- Input-side validity over a statement list. -/
def opkwStmts : StmtList → Bool
  | .nil => true
  | .cons s ss => opkwStmt s && opkwStmts ss
/-- Input-side validity over an exception-handler list. -/
def opkwHandlers : HandlerList → Bool
  | .nil => true
  | .cons b hs => opkwStmts b && opkwHandlers hs
end

/-- State invariant: every placeholder value stored in the canonicalizer's
dictionaries is clean. -/
def cleanVals (st : CState) : Prop :=
  (∀ p ∈ st.name_map, cleanStr p.2 = true) ∧
  (∀ p ∈ st.const_map, cleanStr p.2 = true)

/-!
# Theorems

General lemmas about the embedded definitions first, then one theorem per
specification claim (with witnesses and counterexamples as needed).
-/

/-! ## Decimal rendering is injective -/

theorem decRev_fromRev (n : Nat) : ∀ f, n ≤ f → fromRev (decRev (f+1) n) = n := by
  induction n using Nat.strong_induction_on with
  | _ n ih =>
    intro f hf
    rw [decRev]
    split
    · simp [fromRev]
    · rename_i h10
      have hf1 : f - 1 + 1 = f := by omega
      rw [← hf1]
      have hlt : n / 10 < n := Nat.div_lt_self (by omega) (by omega)
      have hrec : fromRev (decRev (f - 1 + 1) (n / 10)) = n / 10 :=
        ih (n / 10) hlt (f - 1) (by omega)
      simp [fromRev, hrec]
      omega

theorem decRev_lt_ten : ∀ f n d, d ∈ decRev f n → d < 10 := by
  intro f
  induction f with
  | zero => simp [decRev]
  | succ f ih =>
    intro n d hd
    rw [decRev] at hd
    split at hd
    · rename_i h
      simp at hd
      omega
    · simp at hd
      rcases hd with h | h
      · omega
      · exact ih _ _ h

theorem digitChar_inj {a b : Nat} (ha : a < 10) (hb : b < 10)
    (h : digitChar a = digitChar b) : a = b := by
  interval_cases a <;> interval_cases b <;> revert h <;> decide

theorem map_digitChar_inj : ∀ (l1 l2 : List Nat), (∀ d ∈ l1, d < 10) →
    (∀ d ∈ l2, d < 10) → l1.map digitChar = l2.map digitChar → l1 = l2 := by
  intro l1
  induction l1 with
  | nil => intro l2 _ _ h; cases l2 <;> simp_all
  | cons d ds ih =>
    intro l2 h1 h2 h
    cases l2 with
    | nil => simp_all
    | cons e es =>
      simp at h
      have hd : d = e := digitChar_inj (h1 d (by simp)) (h2 e (by simp)) h.1
      have : ds = es := ih es (fun x hx => h1 x (by simp [hx]))
        (fun x hx => h2 x (by simp [hx])) h.2
      simp [hd, this]

theorem natDecimal_inj {a b : Nat} (h : natDecimal a = natDecimal b) : a = b := by
  unfold natDecimal at h
  injection h with h
  have ha : ∀ d ∈ (decRev (a+1) a).reverse, d < 10 := by
    intro d hd
    exact decRev_lt_ten _ _ _ (List.mem_reverse.mp hd)
  have hb : ∀ d ∈ (decRev (b+1) b).reverse, d < 10 := by
    intro d hd
    exact decRev_lt_ten _ _ _ (List.mem_reverse.mp hd)
  have hrev := map_digitChar_inj _ _ ha hb h
  have hlists : decRev (a+1) a = decRev (b+1) b := by
    have := congrArg List.reverse hrev
    simpa using this
  calc a = fromRev (decRev (a+1) a) := (decRev_fromRev a a le_rfl).symm
    _ = fromRev (decRev (b+1) b) := by rw [hlists]
    _ = b := decRev_fromRev b b le_rfl

theorem decRev_ne_nil (n : Nat) : decRev (n+1) n ≠ [] := by
  rw [decRev]
  split <;> simp

theorem digitChar_toNat {d : Nat} (hd : d < 10) :
    (digitChar d).toNat = 48 + d := by
  interval_cases d <;> decide

theorem natDecimal_head (n : Nat) : ∃ c rest, (natDecimal n).data = c :: rest ∧
    48 ≤ c.toNat ∧ c.toNat ≤ 57 := by
  unfold natDecimal
  have hne : (decRev (n+1) n).reverse.map digitChar ≠ [] := by
    simp [decRev_ne_nil n]
  obtain ⟨c, rest, hcr⟩ := List.exists_cons_of_ne_nil hne
  refine ⟨c, rest, hcr, ?_⟩
  have hcmem : c ∈ (decRev (n+1) n).reverse.map digitChar := by
    rw [hcr]; simp
  obtain ⟨d, hdmem, hdc⟩ := List.mem_map.mp hcmem
  have hd10 : d < 10 := decRev_lt_ten _ _ _ (List.mem_reverse.mp hdmem)
  have := digitChar_toNat hd10
  subst hdc
  omega

theorem intDecimal_head (i : Int) : ∃ c rest, (intDecimal i).data = c :: rest ∧
    (c.toNat = 45 ∨ (48 ≤ c.toNat ∧ c.toNat ≤ 57)) := by
  unfold intDecimal
  split
  · obtain ⟨c, rest, hcr, _, _⟩ := natDecimal_head (-i).toNat
    refine ⟨'-', (natDecimal (-i).toNat).data, ?_, Or.inl rfl⟩
    rw [String.data_append]
    rfl
  · obtain ⟨c, rest, hcr, h1, h2⟩ := natDecimal_head i.toNat
    exact ⟨c, rest, hcr, Or.inr ⟨h1, h2⟩⟩

theorem string_data_inj {s t : String} (h : s.data = t.data) : s = t := by
  cases s with
  | _ d1 =>
    cases t with
    | _ d2 => exact congrArg String.mk (by simpa using h)

theorem intDecimal_inj {a b : Int} (h : intDecimal a = intDecimal b) : a = b := by
  unfold intDecimal at h
  split at h <;> split at h
  · rename_i ha hb
    have hdata := congrArg String.data h
    rw [String.data_append, String.data_append] at hdata
    have hdd : (natDecimal (-a).toNat).data = (natDecimal (-b).toNat).data := by
      simpa using hdata
    have hnat : (-a).toNat = (-b).toNat := natDecimal_inj (string_data_inj hdd)
    omega
  · rename_i ha hb
    exfalso
    have hdata := congrArg String.data h
    rw [String.data_append] at hdata
    obtain ⟨c, rest, hcr, h1, h2⟩ := natDecimal_head b.toNat
    rw [hcr] at hdata
    have : ('-' : Char) = c := by
      have : ('-' :: (natDecimal (-a).toNat).data : List Char) = c :: rest := by
        simpa using hdata
      exact (List.cons.injEq _ _ _ _ ▸ this).1
    have : ('-' : Char).toNat = c.toNat := by rw [this]
    simp at this
    omega
  · rename_i ha hb
    exfalso
    have hdata := congrArg String.data h
    rw [String.data_append] at hdata
    obtain ⟨c, rest, hcr, h1, h2⟩ := natDecimal_head a.toNat
    rw [hcr] at hdata
    have : c = '-' := by
      have : (c :: rest : List Char) = '-' :: (natDecimal (-b).toNat).data := by
        simpa using hdata
      exact (List.cons.injEq _ _ _ _ ▸ this).1
    have : c.toNat = ('-' : Char).toNat := by rw [this]
    simp at this
    omega
  · rename_i ha hb
    have : a.toNat = b.toNat := natDecimal_inj h
    omega

theorem str_wrap_inj {s t : String}
    (h : "'" ++ s ++ "'" = "'" ++ t ++ "'") : s = t := by
  have hdata := congrArg String.data h
  simp only [String.data_append, List.append_assoc] at hdata
  have h1 : s.data ++ "'".data = t.data ++ "'".data :=
    List.append_cancel_left hdata
  exact string_data_inj (List.append_cancel_right h1)

theorem intDecimal_ne_of_head (c0 : Char) (rest : List Char)
    (hc0 : c0.toNat ≠ 45 ∧ (c0.toNat < 48 ∨ 57 < c0.toNat)) (i : Int) :
    intDecimal i ≠ String.mk (c0 :: rest) := by
  intro h
  obtain ⟨c, crest, hcr, hc⟩ := intDecimal_head i
  rw [h] at hcr
  simp at hcr
  have : c0.toNat = c.toNat := by rw [hcr.1]
  omega

theorem intDecimal_ne_quote (i : Int) (s : String) :
    intDecimal i ≠ "'" ++ s ++ "'" := by
  intro h
  obtain ⟨c, crest, hcr, hc⟩ := intDecimal_head i
  rw [h] at hcr
  simp only [String.data_append] at hcr
  have hhd : ('\'' : Char) = c := by
    have : ('\'' :: (s.data ++ "'".data) : List Char) = c :: crest := by
      simpa using hcr
    exact (List.cons.injEq _ _ _ _ ▸ this).1
  have : ('\'' : Char).toNat = c.toNat := by rw [hhd]
  simp at this
  omega

theorem quote_ne_of_head {s : String} (c0 : Char) (rest : List Char)
    (hc0 : c0 ≠ '\'') : "'" ++ s ++ "'" ≠ String.mk (c0 :: rest) := by
  intro h
  have hdata := congrArg String.data h
  simp only [String.data_append] at hdata
  have : ('\'' :: (s.data ++ "'".data) : List Char) = c0 :: rest := by
    simpa using hdata
  exact hc0 ((List.cons.injEq _ _ _ _ ▸ this).1.symm)

theorem pyRepr_inj : ∀ v w : PyVal, pyRepr v = pyRepr w → v = w := by
  intro v w h
  cases v with
  | int a =>
    cases w with
    | int b => simp only [pyRepr] at h; rw [intDecimal_inj h]
    | str t => exact absurd h (by simpa [pyRepr] using intDecimal_ne_quote a t)
    | bool c =>
      cases c <;> simp only [pyRepr] at h
      · exact absurd h (intDecimal_ne_of_head 'F' ['a', 'l', 's', 'e'] (by decide) a)
      · exact absurd h (intDecimal_ne_of_head 'T' ['r', 'u', 'e'] (by decide) a)
    | none =>
      simp only [pyRepr] at h
      exact absurd h (intDecimal_ne_of_head 'N' ['o', 'n', 'e'] (by decide) a)
  | str s =>
    cases w with
    | int b =>
      simp only [pyRepr] at h
      exact absurd h.symm (intDecimal_ne_quote b s)
    | str t => simp only [pyRepr] at h; rw [str_wrap_inj h]
    | bool c =>
      cases c <;> simp only [pyRepr] at h
      · exact absurd h (quote_ne_of_head 'F' ['a', 'l', 's', 'e'] (by decide))
      · exact absurd h (quote_ne_of_head 'T' ['r', 'u', 'e'] (by decide))
    | none =>
      simp only [pyRepr] at h
      exact absurd h (quote_ne_of_head 'N' ['o', 'n', 'e'] (by decide))
  | bool b =>
    cases w with
    | int c =>
      cases b <;> simp only [pyRepr] at h
      · exact absurd h.symm (intDecimal_ne_of_head 'F' ['a', 'l', 's', 'e'] (by decide) c)
      · exact absurd h.symm (intDecimal_ne_of_head 'T' ['r', 'u', 'e'] (by decide) c)
    | str t =>
      cases b <;> simp only [pyRepr] at h
      · exact absurd h.symm (quote_ne_of_head 'F' ['a', 'l', 's', 'e'] (by decide))
      · exact absurd h.symm (quote_ne_of_head 'T' ['r', 'u', 'e'] (by decide))
    | bool c => cases b <;> cases c <;> simp_all [pyRepr]
    | none => cases b <;> simp_all [pyRepr]
  | none =>
    cases w with
    | int c =>
      simp only [pyRepr] at h
      exact absurd h.symm (intDecimal_ne_of_head 'N' ['o', 'n', 'e'] (by decide) c)
    | str t =>
      simp only [pyRepr] at h
      exact absurd h.symm (quote_ne_of_head 'N' ['o', 'n', 'e'] (by decide))
    | bool c => cases c <;> simp_all [pyRepr]
    | none => rfl

/-! ## Claim C5: the trivially-sequential line-range test -/

theorem trivLoop_iff (l : List (Int × Int)) : trivLoop l = true ↔
    ((∃ p ∈ l, p.2 - p.1 = 1) ∨
      ∃ q ∈ l.zip l.tail, q.1.1 ≤ q.2.1 ∧ q.2.1 ≤ q.1.2) := by
  induction l with
  | nil => simp [trivLoop]
  | cons hd rest ih =>
    obtain ⟨s, e⟩ := hd
    cases rest with
    | nil =>
      rw [trivLoop]
      by_cases h1 : e - s = 1 <;> simp [h1]
    | cons hd2 rest2 =>
      obtain ⟨s2, e2⟩ := hd2
      rw [trivLoop]
      by_cases h1 : e - s = 1
      · simp only [h1, if_pos rfl]
        constructor
        · intro _
          exact Or.inl ⟨(s, e), by simp, h1⟩
        · intro _
          rfl
      · rw [if_neg h1]
        by_cases h2 : s ≤ s2 ∧ s2 ≤ e
        · rw [if_pos h2]
          constructor
          · intro _
            exact Or.inr ⟨((s, e), (s2, e2)), by simp, h2.1, h2.2⟩
          · intro _
            rfl
        · rw [if_neg h2]
          rw [ih]
          constructor
          · rintro (⟨p, hp, hpe⟩ | ⟨q, hq, hqe⟩)
            · exact Or.inl ⟨p, List.mem_cons_of_mem _ hp, hpe⟩
            · refine Or.inr ⟨q, ?_, hqe⟩
              simp only [List.tail_cons] at hq ⊢
              exact List.mem_cons_of_mem _ hq
          · rintro (⟨p, hp, hpe⟩ | ⟨q, hq, hqe⟩)
            · rcases List.mem_cons.mp hp with hp | hp
              · exact absurd (by rw [hp] at hpe; simpa using hpe) h1
              · exact Or.inl ⟨p, hp, hpe⟩
            · simp only [List.tail_cons] at hq
              rcases List.mem_cons.mp hq with hq | hq
              · exfalso
                apply h2
                rw [hq] at hqe
                exact hqe
              · exact Or.inr ⟨q, by simpa using hq, hqe⟩

/-- Claim C5, counterexample: the group with occurrence line ranges
`[(10, 10), (11, 11), (12, 12)]` (three consecutive one-line blocks) is NOT
rejected: each span has `end - start = 0`
(the code tests `end - start == 1`), and no next start falls within the
previous inclusive range (`11 ∉ [10, 10]`, `12 ∉ [11, 11]`). -/
theorem C5_counterexample :
    is_trivial_by_line_ranges [(10, 10), (11, 11), (12, 12)] = false := by
  decide

/-- Claim C5 as amended: `_is_trivial_by_line_ranges` rejects a group iff it
has at least 2 occurrences and, after sorting the occurrences, either some
single occurrence spans exactly two lines (`end - start == 1` — not a
one-line span as claimed) or some next occurrence's start line falls within
the previous occurrence's inclusive line range; in particular
`[(10,10),(11,11),(12,12)]` is not rejected, while three consecutive
two-line spans would be. -/
theorem C5_theorem (ms : List (Int × Int)) :
    is_trivial_by_line_ranges ms = true ↔ trivialRangesSpec ms := by
  unfold is_trivial_by_line_ranges trivialRangesSpec
  split
  · rename_i hlen
    simp only [Bool.false_eq_true, false_iff]
    intro hc
    omega
  · rename_i hlen
    rw [trivLoop_iff]
    constructor
    · intro h
      exact ⟨by omega, h⟩
    · intro h
      exact h.2

/-! ## Claim C8: ranking of candidate groups -/

/-- Claim C8: the greedy selector processes surviving candidate groups in
descending lexicographic order of `(occurrence count, length in lines)`,
where a group's length is the line span the code computes for it; in the
concrete scenario of a 4-statement pattern occurring 3 times at
`(10,13), (20,23), (30,33)` and a 2-statement pattern occurring 3 times at
the overlapping lines `(10,12), (20,22), (30,32)`, the 4-statement group is
ranked first even though it was discovered second, its lines are claimed
first, and the 2-statement group's occurrences (all overlapping the claimed
lines) are dropped. -/
theorem C8_theorem :
    (∀ seqs : SeqMap, List.Sorted candGe (sortCandidates (buildCandidates seqs))) ∧
    (sortCandidates (buildCandidates seqsC8)).map Cand.hash = ["hash4", "hash2"] ∧
    checkSelected seqsC8 =
      [Sel.mk "hash4" (10, 13) [(10, 13), (20, 23), (30, 33)] 3 24] := by
  refine ⟨fun seqs => List.sorted_insertionSort candGe _, ?_, ?_⟩ <;> decide

/-! ## Claim C1: selected occurrences never share a source line -/

theorem Overlaps_symm {a b : Int × Int} (h : Overlaps a b) : Overlaps b a := by
  obtain ⟨ln, h1, h2, h3, h4⟩ := h
  exact ⟨ln, h3, h4, h1, h2⟩

theorem pyRangeUpFuel_mem (f : Nat) : ∀ (a b ln : Int), (b - a).toNat ≤ f →
    (ln ∈ pyRangeUpFuel f a b ↔ a ≤ ln ∧ ln < b) := by
  induction f with
  | zero =>
    intro a b ln h
    rw [pyRangeUpFuel]
    simp
    omega
  | succ f ih =>
    intro a b ln h
    rw [pyRangeUpFuel]
    split
    · rename_i hba
      simp
      omega
    · rename_i hba
      simp only [List.mem_cons]
      rw [ih (a + 1) b ln (by omega)]
      constructor
      · rintro (rfl | h2) <;> omega
      · intro h2
        by_cases hla : ln = a
        · exact Or.inl hla
        · exact Or.inr (by omega)

theorem pyRangeUp_mem {a b ln : Int} : ln ∈ pyRangeUp a b ↔ a ≤ ln ∧ ln < b :=
  pyRangeUpFuel_mem _ a b ln le_rfl

theorem linesOf_mem {s e ln : Int} : ln ∈ linesOf s e ↔ s ≤ ln ∧ ln ≤ e := by
  unfold linesOf
  rw [pyRangeUp_mem]
  omega

theorem overlaps_occupied_false {occ : List Int} {s e : Int}
    (h : range_overlaps_with_occupied occ s e = false) :
    ∀ ln, s ≤ ln → ln ≤ e → ln ∉ occ := by
  intro ln h1 h2 hmem
  unfold range_overlaps_with_occupied at h
  rw [List.any_eq_false] at h
  have := h ln (linesOf_mem.mpr ⟨h1, h2⟩)
  simp at this
  exact this hmem

theorem sorted_noTouch_pairwise : ∀ l : List (Int × Int), List.Sorted pairLe l →
    (∀ q ∈ l.zip l.tail, ¬(q.1.1 ≤ q.2.1 ∧ q.2.1 ≤ q.1.2)) →
    List.Pairwise (fun a b => ¬ Overlaps a b) l := by
  intro l
  induction l with
  | nil => intro _ _; exact List.Pairwise.nil
  | cons hd rest ih =>
    obtain ⟨s, e⟩ := hd
    intro hsorted hzip
    have hsrest : List.Sorted pairLe rest := hsorted.of_cons
    have hhead := List.rel_of_sorted_cons hsorted
    cases rest with
    | nil => simp
    | cons hd2 rest2 =>
      obtain ⟨s2, e2⟩ := hd2
      have hq0 : ¬(s ≤ s2 ∧ s2 ≤ e) := by simpa using hzip ((s, e), (s2, e2)) (by simp)
      have hs2 : s ≤ s2 := by
        have := hhead (s2, e2) (by simp)
        unfold pairLe at this
        omega
      have he : e < s2 := by omega
      constructor
      · intro b hb hov
        obtain ⟨ln, o1, o2, o3, o4⟩ := hov
        have hsb : pairLe (s2, e2) b ∨ b = (s2, e2) := by
          rcases List.mem_cons.mp hb with rfl | hb2
          · exact Or.inr rfl
          · exact Or.inl (List.rel_of_sorted_cons hsrest b hb2)
        have hs2b : s2 ≤ b.1 := by
          rcases hsb with hsb | rfl
          · unfold pairLe at hsb
            omega
          · omega
        omega
      · exact ih hsrest (fun q hq => hzip q (by simpa using List.mem_cons_of_mem _ hq))

theorem trivial_ranges_false_pairwise {ms : List (Int × Int)}
    (h : is_trivial_by_line_ranges ms = false) :
    List.Pairwise (fun a b => ¬ Overlaps a b) ms := by
  unfold is_trivial_by_line_ranges at h
  split at h
  · rename_i hlen
    cases ms with
    | nil => exact List.Pairwise.nil
    | cons a t =>
      cases t with
      | nil => simp
      | cons b t2 => simp only [List.length_cons] at hlen; omega
  · rename_i hlen
    have hperm : (List.insertionSort pairLe ms).Perm ms := List.perm_insertionSort _ _
    have hsorted : List.Sorted pairLe (List.insertionSort pairLe ms) :=
      List.sorted_insertionSort _ _
    have hloop : trivLoop (List.insertionSort pairLe ms) = false := h
    have hnot : ¬ (trivLoop (List.insertionSort pairLe ms) = true) := by
      simp [hloop]
    rw [trivLoop_iff] at hnot
    push_neg at hnot
    have hzip := hnot.2
    have hp : List.Pairwise (fun a b => ¬ Overlaps a b) (List.insertionSort pairLe ms) :=
      sorted_noTouch_pairwise _ hsorted (fun q hq => by
        intro hc
        have := hzip q hq
        omega)
    exact (hperm.pairwise_iff (fun h => fun hc => h (Overlaps_symm hc))).mp hp

theorem dedupPairsAux_sublist : ∀ (l : List (Int × Int)) (seen : List (Int × Int)),
    (dedupPairsAux seen l).Sublist l := by
  intro l
  induction l with
  | nil => intro seen; simp [dedupPairsAux]
  | cons x rest ih =>
    intro seen
    rw [dedupPairsAux]
    split
    · exact (ih seen).cons x
    · exact (ih (x :: seen)).cons₂ x

theorem occsOf_pairwise {c : Cand}
    (h : is_trivial_by_line_ranges (c.occurrences.map (fun r => (r.1, r.2.1))) = false) :
    List.Pairwise (fun a b => ¬ Overlaps a b) (occsOf c) := by
  have h1 := trivial_ranges_false_pairwise h
  have h2 := h1.sublist (dedupPairsAux_sublist _ [])
  unfold occsOf
  have hperm : (List.insertionSort byStart
      (dedupPairs (c.occurrences.map (fun r => (r.1, r.2.1))))).Perm
      (dedupPairs (c.occurrences.map (fun r => (r.1, r.2.1)))) :=
    List.perm_insertionSort _ _
  exact (hperm.pairwise_iff (fun h => fun hc => h (Overlaps_symm hc))).mpr h2

theorem is_trivial_dump_false_ranges {d : String} {ranges : List (Int × Int)}
    (h : is_trivial_dump d ranges = false) :
    is_trivial_by_line_ranges ranges = false := by
  cases hb : is_trivial_by_line_ranges ranges with
  | false => rfl
  | true =>
    exfalso
    have : is_trivial_dump d ranges = true := by
      unfold is_trivial_dump
      split
      · rfl
      · split
        · rfl
        · split
          · rfl
          · simp [hb]
    rw [this] at h
    exact Bool.true_eq_false.mp h

theorem buildCandidates_mem : ∀ (seqs : SeqMap) (c : Cand), c ∈ buildCandidates seqs →
    ∃ occ, (c.hash, occ) ∈ seqs ∧ c.occurrences = dedupOcc occ ∧
      3 ≤ c.occurrences.length ∧ c.count = c.occurrences.length ∧
      is_trivial_dump c.sample_dump (c.occurrences.map (fun r => (r.1, r.2.1))) = false := by
  intro seqs
  induction seqs with
  | nil => simp [buildCandidates]
  | cons hd rest ih =>
    obtain ⟨h, occ⟩ := hd
    intro c hc
    rw [buildCandidates] at hc
    split at hc
    · obtain ⟨occ', hmem, he, hlen, hcount, htriv⟩ := ih c hc
      exact ⟨occ', List.mem_cons_of_mem _ hmem, he, hlen, hcount, htriv⟩
    · rename_i hlen3
      split at hc
      · obtain ⟨occ', hmem, he, hlen, hcount, htriv⟩ := ih c hc
        exact ⟨occ', List.mem_cons_of_mem _ hmem, he, hlen, hcount, htriv⟩
      · rename_i htriv
        rcases List.mem_cons.mp hc with rfl | hc2
        · refine ⟨occ, by simp, rfl, ?_, rfl, ?_⟩
          · show 3 ≤ (dedupOcc occ).length
            omega
          · show is_trivial_dump ((dedupOcc occ).headD (0, 0, "")).2.2
              ((dedupOcc occ).map (fun r => (r.1, r.2.1))) = false
            simpa using htriv
        · obtain ⟨occ', hmem, he, hlen, hcount, htriv'⟩ := ih _ hc2
          exact ⟨occ', List.mem_cons_of_mem _ hmem, he, hlen, hcount, htriv'⟩

theorem foldl_lines_eq (l : List (Int × Int)) : ∀ a : List Int,
    l.foldl (fun ls p => ls ++ linesOf p.1 p.2) a =
      a ++ (l.map (fun p => linesOf p.1 p.2)).flatten := by
  induction l with
  | nil => intro a; simp
  | cons x rest ih =>
    intro a
    rw [List.foldl_cons, ih]
    simp

theorem selectStep_inv {acc : List Sel × List Int} {cand : Cand}
    (hinv : SelInv acc)
    (hc : List.Pairwise (fun a b => ¬ Overlaps a b) (occsOf cand)) :
    SelInv (selectStep acc cand) := by
  unfold selectStep
  split
  · exact hinv
  · rename_i hlen
    have hfiltp : List.Pairwise (fun a b => ¬ Overlaps a b)
        (nonOverlappingOccs acc.2 cand) := hc.filter _
    constructor
    · simp only [List.map_append, List.map_cons, List.map_nil, List.flatten_append]
      rw [List.pairwise_append]
      refine ⟨hinv.1, by simpa using hfiltp, ?_⟩
      intro a ha b hb hov
      simp only [List.mem_flatten, List.mem_map] at ha
      obtain ⟨la, ⟨sela, hsela, rfl⟩, hamem⟩ := ha
      simp only [List.flatten_cons, List.flatten_nil, List.append_nil] at hb
      have hbf := List.mem_filter.mp hb
      have hbpred : range_overlaps_with_occupied acc.2 b.1 b.2 = false := by
        have := hbf.2
        simp at this
        exact this
      obtain ⟨ln, o1, o2, o3, o4⟩ := hov
      have hln : ln ∈ acc.2 := hinv.2 sela hsela a hamem ln o1 o2
      exact overlaps_occupied_false hbpred ln o3 o4 hln
    · intro sel hsel p hp ln h1 h2
      rw [foldl_lines_eq]
      rcases List.mem_append.mp hsel with hold | hnew
      · exact List.mem_append.mpr (Or.inl (hinv.2 sel hold p hp ln h1 h2))
      · simp only [List.mem_singleton] at hnew
        subst hnew
        simp only [Sel.matches_] at hp
        refine List.mem_append.mpr (Or.inr ?_)
        rw [List.mem_flatten]
        exact ⟨linesOf p.1 p.2, List.mem_map.mpr ⟨p, hp, rfl⟩, linesOf_mem.mpr ⟨h1, h2⟩⟩

theorem selectLoop_inv : ∀ (cands : List Cand) (acc : List Sel × List Int),
    SelInv acc →
    (∀ c ∈ cands, List.Pairwise (fun a b => ¬ Overlaps a b) (occsOf c)) →
    SelInv (cands.foldl selectStep acc) := by
  intro cands
  induction cands with
  | nil => intro acc h _; exact h
  | cons c rest ih =>
    intro acc h hall
    rw [List.foldl_cons]
    exact ih _ (selectStep_inv h (hall c (by simp)))
      (fun c' hc' => hall c' (List.mem_cons_of_mem _ hc'))

theorem checkSelected_pairwise (seqs : SeqMap) :
    List.Pairwise (fun a b => ¬ Overlaps a b)
      (((checkSelected seqs).map Sel.matches_).flatten) := by
  have hall : ∀ c ∈ sortCandidates (buildCandidates seqs),
      List.Pairwise (fun a b => ¬ Overlaps a b) (occsOf c) := by
    intro c hc
    have hmem : c ∈ buildCandidates seqs :=
      (List.perm_insertionSort candGe (buildCandidates seqs)).mem_iff.mp hc
    obtain ⟨occ, _, _, _, _, htriv⟩ := buildCandidates_mem _ c hmem
    exact occsOf_pairwise (is_trivial_dump_false_ranges htriv)
  have hinv := selectLoop_inv (sortCandidates (buildCandidates seqs)) ([], [])
    ⟨List.Pairwise.nil, by simp⟩ hall
  exact hinv.1

/-- Claim C1: for any syntax tree whose sequence collection succeeds, the
inclusive line ranges of all occurrences in the `matches` lists of all
selected groups of `check` — within one group or across different groups —
are pairwise disjoint. -/
theorem C1_theorem (tree : Module) (seqs : SeqMap)
    (h : collect_sequences tree = .ok seqs) :
    List.Pairwise (fun a b => ¬ Overlaps a b)
      (((checkSelected seqs).map Sel.matches_).flatten) :=
  checkSelected_pairwise seqs

/-- Witness for C1 at a concrete tree. -/
theorem C1_witness :
    List.Pairwise (fun a b => ¬ Overlaps a b)
      (((checkSelected []).map Sel.matches_).flatten) :=
  C1_theorem (Module.mk (.cons (.mk (some 1) (some 1) .pass) .nil)) [] rfl

/-! ## Claim C2: minimum repetition -/

theorem selectStep_fst_mem {acc : List Sel × List Int} {cand : Cand} {sel : Sel}
    (h : sel ∈ (selectStep acc cand).1) : sel ∈ acc.1 ∨ sel.hash = cand.hash := by
  unfold selectStep at h
  split at h
  · exact Or.inl h
  · rcases List.mem_append.mp h with h1 | h1
    · exact Or.inl h1
    · simp only [List.mem_singleton] at h1
      subst h1
      exact Or.inr rfl

theorem selectLoop_mem : ∀ (cands : List Cand) (acc : List Sel × List Int) (sel : Sel),
    sel ∈ (cands.foldl selectStep acc).1 →
    sel ∈ acc.1 ∨ ∃ c ∈ cands, sel.hash = c.hash := by
  intro cands
  induction cands with
  | nil => intro acc sel h; exact Or.inl h
  | cons c rest ih =>
    intro acc sel h
    rw [List.foldl_cons] at h
    rcases ih _ sel h with h1 | ⟨c', hc', he⟩
    · rcases selectStep_fst_mem h1 with h2 | h2
      · exact Or.inl h2
      · exact Or.inr ⟨c, by simp, h2⟩
    · exact Or.inr ⟨c', List.mem_cons_of_mem _ hc', he⟩

theorem upsertSeen_keys_nodup {acc : List ((Int × Int) × String)} {k : Int × Int}
    {d : String} (h : (acc.map Prod.fst).Nodup) :
    ((upsertSeen acc k d).map Prod.fst).Nodup := by
  unfold upsertSeen
  split
  · have heq : ((acc.map (fun p => if p.1 = k then (p.1, d) else p)).map Prod.fst) =
        acc.map Prod.fst := by
      rw [List.map_map]
      apply List.map_congr_left
      intro p _
      by_cases hp : p.1 = k <;> simp [hp]
    rw [heq]
    exact h
  · rename_i hany
    rw [List.map_append]
    have hnot : k ∉ acc.map Prod.fst := by
      intro hk
      obtain ⟨p, hp, hpk⟩ := List.mem_map.mp hk
      apply hany
      exact List.any_eq_true.mpr ⟨p, hp, by simp [hpk]⟩
    simp [List.nodup_append, h, hnot]

theorem dedupOccAux_keys_nodup : ∀ (occ : List (Int × Int × String))
    (acc : List ((Int × Int) × String)), (acc.map Prod.fst).Nodup →
    ((occ.foldl (fun acc r => upsertSeen acc (r.1, r.2.1) r.2.2) acc).map Prod.fst).Nodup := by
  intro occ
  induction occ with
  | nil => intro acc h; exact h
  | cons r rest ih =>
    intro acc h
    rw [List.foldl_cons]
    exact ih _ (upsertSeen_keys_nodup h)

theorem dedupOcc_ranges_nodup (occ : List (Int × Int × String)) :
    ((dedupOcc occ).map (fun r => (r.1, r.2.1))).Nodup := by
  unfold dedupOcc
  rw [List.map_map]
  have heq : ((fun r : Int × Int × String => (r.1, r.2.1)) ∘
      (fun p : (Int × Int) × String => (p.1.1, p.1.2, p.2))) = Prod.fst := by
    funext p
    simp
  rw [heq]
  exact dedupOccAux_keys_nodup occ [] (by simp)

theorem dedupPairsAux_of_nodup : ∀ (l : List (Int × Int)) (seen : List (Int × Int)),
    l.Nodup → (∀ x ∈ l, x ∉ seen) → dedupPairsAux seen l = l := by
  intro l
  induction l with
  | nil => intro seen _ _; rfl
  | cons x rest ih =>
    intro seen hnd hseen
    rw [dedupPairsAux]
    have hx : seen.contains x = false := by
      have := hseen x (by simp)
      simpa using this
    rw [hx]
    simp only [Bool.false_eq_true, if_false]
    rw [ih (x :: seen) hnd.of_cons]
    intro y hy
    simp only [List.mem_cons]
    push_neg
    refine ⟨?_, hseen y (List.mem_cons_of_mem _ hy)⟩
    intro hxy
    subst hxy
    exact (List.nodup_cons.mp hnd).1 hy

theorem dedupPairs_of_nodup {l : List (Int × Int)} (h : l.Nodup) : dedupPairs l = l :=
  dedupPairsAux_of_nodup l [] h (by simp)

theorem occsOf_length {c : Cand}
    (hn : (c.occurrences.map (fun r => (r.1, r.2.1))).Nodup) :
    (occsOf c).length = c.occurrences.length := by
  unfold occsOf
  rw [(List.perm_insertionSort byStart _).length_eq, dedupPairs_of_nodup hn,
    List.length_map]

theorem overlaps_empty (s e : Int) : range_overlaps_with_occupied [] s e = false := by
  unfold range_overlaps_with_occupied
  rw [List.any_eq_false]
  intro x _
  simp

theorem buildCandidates_nil : ∀ seqs : SeqMap,
    (∀ e ∈ seqs, (dedupOcc e.2).length < 3 ∨
      is_trivial_dump ((dedupOcc e.2).headD (0, 0, "")).2.2
        ((dedupOcc e.2).map (fun r => (r.1, r.2.1))) = true) →
    buildCandidates seqs = [] := by
  intro seqs
  induction seqs with
  | nil => intro _; rfl
  | cons hd rest ih =>
    obtain ⟨k, o⟩ := hd
    intro hall
    rw [buildCandidates]
    rcases hall (k, o) (by simp) with hf | hf
    · rw [if_pos hf]
      exact ih (fun e he => hall e (List.mem_cons_of_mem _ he))
    · by_cases hl : (dedupOcc o).length < 3
      · rw [if_pos hl]
        exact ih (fun e he => hall e (List.mem_cons_of_mem _ he))
      · rw [if_neg hl, if_pos hf]
        exact ih (fun e he => hall e (List.mem_cons_of_mem _ he))

theorem buildCandidates_singleton {seqs : SeqMap} {h : String}
    {occ : List (Int × Int × String)}
    (hmem : (h, occ) ∈ seqs) (hnodup : (seqs.map Prod.fst).Nodup)
    (hothers : ∀ e ∈ seqs, e.1 ≠ h → (dedupOcc e.2).length < 3 ∨
      is_trivial_dump ((dedupOcc e.2).headD (0, 0, "")).2.2
        ((dedupOcc e.2).map (fun r => (r.1, r.2.1))) = true)
    (hlen : 3 ≤ (dedupOcc occ).length)
    (htriv : is_trivial_dump ((dedupOcc occ).headD (0, 0, "")).2.2
      ((dedupOcc occ).map (fun r => (r.1, r.2.1))) = false) :
    ∃ c : Cand, buildCandidates seqs = [c] ∧ c.hash = h ∧
      c.occurrences = dedupOcc occ := by
  induction seqs with
  | nil => simp at hmem
  | cons hd rest ih =>
    obtain ⟨k, o⟩ := hd
    rcases List.mem_cons.mp hmem with hhead | hrest
    · injection hhead with h1 h2
      subst h1
      subst h2
      rw [buildCandidates, if_neg (by omega), if_neg (by simpa using htriv)]
      rw [buildCandidates_nil rest ?_]
      · exact ⟨_, rfl, rfl, rfl⟩
      · intro e he
        have hek : e.1 ≠ h := by
          intro heq
          have hmm : h ∈ rest.map Prod.fst := List.mem_map.mpr ⟨e, he, heq⟩
          rw [List.map_cons] at hnodup
          exact (List.nodup_cons.mp hnodup).1 hmm
        exact hothers e (List.mem_cons_of_mem _ he) hek
    · have hk : k ≠ h := by
        intro heq
        subst heq
        have hmm : k ∈ rest.map Prod.fst := List.mem_map.mpr ⟨(k, occ), hrest, rfl⟩
        rw [List.map_cons] at hnodup
        exact (List.nodup_cons.mp hnodup).1 hmm
      have hih := ih hrest (by
          rw [List.map_cons] at hnodup
          exact (List.nodup_cons.mp hnodup).2)
        (fun e he hne => hothers e (List.mem_cons_of_mem _ he) hne)
      rcases hothers (k, o) (by simp) hk with hf | hf
      · rw [buildCandidates, if_pos hf]
        exact hih
      · rw [buildCandidates]
        by_cases hl : (dedupOcc o).length < 3
        · rw [if_pos hl]
          exact hih
        · rw [if_neg hl, if_pos hf]
          exact hih

theorem selectStep_occ_mem {acc : List Sel × List Int} {cand : Cand} {ln : Int}
    (h : ln ∈ (selectStep acc cand).2) :
    ln ∈ acc.2 ∨ ∃ p ∈ occsOf cand, ln ∈ linesOf p.1 p.2 := by
  unfold selectStep at h
  split at h
  · exact Or.inl h
  · rw [foldl_lines_eq] at h
    rcases List.mem_append.mp h with h1 | h1
    · exact Or.inl h1
    · rw [List.mem_flatten] at h1
      obtain ⟨l, hl, hln⟩ := h1
      rw [List.mem_map] at hl
      obtain ⟨p, hp, rfl⟩ := hl
      exact Or.inr ⟨p, (List.mem_filter.mp hp).1, hln⟩

theorem selectLoop_occ_mem : ∀ (cands : List Cand) (acc : List Sel × List Int) (ln : Int),
    ln ∈ (cands.foldl selectStep acc).2 →
    ln ∈ acc.2 ∨ ∃ c ∈ cands, ∃ p ∈ occsOf c, ln ∈ linesOf p.1 p.2 := by
  intro cands
  induction cands with
  | nil => intro acc ln h; exact Or.inl h
  | cons c rest ih =>
    intro acc ln h
    rw [List.foldl_cons] at h
    rcases ih _ ln h with h1 | ⟨c', hc', p, hp, hlnp⟩
    · rcases selectStep_occ_mem h1 with h2 | ⟨p, hp, hlnp⟩
      · exact Or.inl h2
      · exact Or.inr ⟨c, by simp, p, hp, hlnp⟩
    · exact Or.inr ⟨c', List.mem_cons_of_mem _ hc', p, hp, hlnp⟩

theorem selectLoop_fst_mono : ∀ (cands : List Cand) (acc : List Sel × List Int) (sel : Sel),
    sel ∈ acc.1 → sel ∈ (cands.foldl selectStep acc).1 := by
  intro cands
  induction cands with
  | nil => intro acc sel h; exact h
  | cons c rest ih =>
    intro acc sel h
    rw [List.foldl_cons]
    apply ih
    unfold selectStep
    split
    · exact h
    · exact List.mem_append.mpr (Or.inl h)

/-- Claim C2.  Part 1: every selected group of `check` stems from a
candidate group in the sequence map with at least 3 distinct
`(start_line, end_line)` occurrences — so a pattern with exactly 2 distinct
non-overlapping locations is never reported.  Part 2: every surviving
candidate group (3+ distinct occurrences, non-trivial, hence a member of
the ranked candidate list) such that no higher-ranked group — no candidate
preceding it in the descending `(count, length)` order — touches any of its
occurrence lines, is reported, with all of its distinct occurrences as the
matches.  Other surviving groups, before or after it in the ranking, are
allowed as long as the higher-ranked ones occupy disjoint lines. -/
theorem C2_theorem :
    (∀ (seqs : SeqMap) (sel : Sel), sel ∈ checkSelected seqs →
      ∃ occ, (sel.hash, occ) ∈ seqs ∧ 3 ≤ (dedupOcc occ).length) ∧
    (∀ (seqs : SeqMap) (pre : List Cand) (c : Cand) (post : List Cand),
      sortCandidates (buildCandidates seqs) = pre ++ c :: post →
      (∀ c' ∈ pre, ∀ p ∈ occsOf c', ∀ q ∈ occsOf c,
        ∀ ln ∈ linesOf p.1 p.2, ln ∉ linesOf q.1 q.2) →
      ∃ occ, (c.hash, occ) ∈ seqs ∧ 3 ≤ (dedupOcc occ).length ∧
        Sel.mk c.hash ((occsOf c).headD (0, 0)) (occsOf c) (occsOf c).length c.length
          ∈ checkSelected seqs ∧
        3 ≤ (occsOf c).length) := by
  constructor
  · intro seqs sel hsel
    unfold checkSelected selectCandidates at hsel
    rcases selectLoop_mem _ _ _ hsel with hfalse | ⟨c, hc, he⟩
    · simp at hfalse
    · have hmem : c ∈ buildCandidates seqs :=
        (List.perm_insertionSort candGe (buildCandidates seqs)).mem_iff.mp hc
      obtain ⟨occ, hocc, he2, hlen, _, _⟩ := buildCandidates_mem _ c hmem
      refine ⟨occ, by rw [he]; exact hocc, ?_⟩
      rw [← he2]
      exact hlen
  · intro seqs pre c post hsort hdisj
    have hcmem : c ∈ buildCandidates seqs := by
      have hmem : c ∈ sortCandidates (buildCandidates seqs) := by
        rw [hsort]
        exact List.mem_append.mpr (Or.inr (by simp))
      exact (List.perm_insertionSort candGe (buildCandidates seqs)).mem_iff.mp hmem
    obtain ⟨occ, hocc, heq, hlen3, hcount, htriv⟩ := buildCandidates_mem _ c hcmem
    have hnodup : ((c.occurrences).map (fun r => (r.1, r.2.1))).Nodup := by
      rw [heq]
      exact dedupOcc_ranges_nodup occ
    have hocclen : (occsOf c).length = c.occurrences.length := occsOf_length hnodup
    have hlen : 3 ≤ (occsOf c).length := by omega
    refine ⟨occ, hocc, by rw [← heq]; exact hlen3, ?_, hlen⟩
    unfold checkSelected selectCandidates
    rw [hsort, List.foldl_append, List.foldl_cons]
    have hocc1 : ∀ ln ∈ (List.foldl selectStep ([], []) pre).2, ∀ q ∈ occsOf c,
        ln ∉ linesOf q.1 q.2 := by
      intro ln hln q hq
      rcases selectLoop_occ_mem pre ([], []) ln hln with h0 | ⟨c', hc', p, hp, hlnp⟩
      · simp at h0
      · exact hdisj c' hc' p hp q hq ln hlnp
    have hnoc : nonOverlappingOccs (List.foldl selectStep ([], []) pre).2 c = occsOf c := by
      unfold nonOverlappingOccs
      apply List.filter_eq_self.mpr
      intro q hq
      rw [Bool.not_eq_eq_eq_not, Bool.not_true]
      unfold range_overlaps_with_occupied
      rw [List.any_eq_false]
      intro ln hlnq hcont
      have hmem2 : ln ∈ (List.foldl selectStep ([], []) pre).2 := by simpa using hcont
      exact absurd hlnq (hocc1 ln hmem2 q hq)
    apply selectLoop_fst_mono
    show Sel.mk c.hash ((occsOf c).headD (0, 0)) (occsOf c) (occsOf c).length c.length ∈
      (if (nonOverlappingOccs (List.foldl selectStep ([], []) pre).2 c).length < 2
        then List.foldl selectStep ([], []) pre
        else ⟨(List.foldl selectStep ([], []) pre).1 ++
            [Sel.mk c.hash
              ((nonOverlappingOccs (List.foldl selectStep ([], []) pre).2 c).headD (0, 0))
              (nonOverlappingOccs (List.foldl selectStep ([], []) pre).2 c)
              (nonOverlappingOccs (List.foldl selectStep ([], []) pre).2 c).length c.length],
          (nonOverlappingOccs (List.foldl selectStep ([], []) pre).2 c).foldl
            (fun ls p => ls ++ linesOf p.1 p.2)
            (List.foldl selectStep ([], []) pre).2⟩).1
    rw [hnoc, if_neg (by omega)]
    exact List.mem_append.mpr (Or.inr (by simp))

/-- Witness for C2 at a concrete two-group map: the 3-occurrence `habc`
pattern is reported even though a higher-ranked 4-occurrence group exists,
because that group's lines are disjoint. -/
theorem C2_witness :
    ∃ occ, (cC2.hash, occ) ∈ seqsC2b ∧ 3 ≤ (dedupOcc occ).length ∧
      Sel.mk cC2.hash ((occsOf cC2).headD (0, 0)) (occsOf cC2) (occsOf cC2).length
        cC2.length ∈ checkSelected seqsC2b ∧
      3 ≤ (occsOf cC2).length :=
  C2_theorem.2 seqsC2b [cBig] cC2 [] (by decide) (by decide)

/-! ## Claims C6 and C7: placeholder numbering and constant mapping -/

theorem alookup_none_iff : ∀ (l : List (String × String)) (k : String),
    alookup l k = Option.none ↔ k ∉ l.map Prod.fst := by
  intro l
  induction l with
  | nil => intro k; simp [alookup]
  | cons e rest ih =>
    obtain ⟨ek, ev⟩ := e
    intro k
    rw [alookup]
    split
    · rename_i heq
      subst heq
      simp
    · rename_i hne
      rw [ih k]
      simp
      intro hk
      exact fun heq => hne heq.symm

theorem alookup_some_mem : ∀ (l : List (String × String)) (k p : String),
    alookup l k = some p → (k, p) ∈ l := by
  intro l
  induction l with
  | nil => intro k p h; simp [alookup] at h
  | cons e rest ih =>
    obtain ⟨ek, ev⟩ := e
    intro k p h
    rw [alookup] at h
    split at h
    · rename_i heq
      subst heq
      simp at h
      simp [h]
    · exact List.mem_cons_of_mem _ (ih k p h)

theorem map_name_constInv {st : CState} {x : String} (h : ConstInv st) :
    ConstInv (map_name st x).2 := by
  unfold map_name
  split
  · exact h
  · exact h

theorem map_attr_constInv {st : CState} {a : String} (h : ConstInv st) :
    ConstInv (map_attr st a).2 := by
  unfold map_attr
  split
  · exact h
  · exact h

theorem constPrefix_inj : ∀ i j : Nat, "_C" ++ natDecimal i = "_C" ++ natDecimal j →
    i = j := by
  intro i j h
  have hdata := congrArg String.data h
  simp only [String.data_append] at hdata
  exact natDecimal_inj (string_data_inj (List.append_cancel_left hdata))

theorem map_const_constInv {st : CState} {v : PyVal} (h : ConstInv st) :
    ConstInv (map_const st v).2 := by
  unfold map_const
  split
  · exact h
  · rename_i hNone
    have hnot : pyRepr v ∉ st.const_map.map Prod.fst :=
      (alookup_none_iff _ _).mp hNone
    refine ⟨?_, ?_⟩
    · show ((st.const_map ++ [(pyRepr v, "_C" ++ natDecimal st.n_const)]).map Prod.fst).Nodup
      rw [List.map_append]
      simp [List.nodup_append, h.1, hnot]
    · show (st.const_map ++ [(pyRepr v, "_C" ++ natDecimal st.n_const)]).map Prod.snd =
        (List.range (st.n_const + 1)).map (fun i => "_C" ++ natDecimal i)
      rw [List.map_append, h.2, List.range_succ, List.map_append]
      rfl

mutual
theorem canonExpr_constInv : ∀ (e : Expr) (st : CState), ConstInv st →
    ConstInv (canonExpr e st).2
  | .name id ctx, st, h => by
    simpa [canonExpr] using map_name_constInv h
  | .attribute v a ctx, st, h => by
    rw [canonExpr]
    exact map_attr_constInv (canonExpr_constInv v st h)
  | .const v, st, h => by
    simpa [canonExpr] using map_const_constInv h
  | .call f args kws, st, h => by
    rw [canonExpr]
    exact canonKwList_constInv _ _ (canonExprList_constInv _ _ (canonExpr_constInv f st h))
  | .binOp l op r, st, h => by
    rw [canonExpr]
    exact canonExpr_constInv _ _ (canonExpr_constInv l st h)
theorem canonExprList_constInv : ∀ (es : ExprList) (st : CState), ConstInv st →
    ConstInv (canonExprList es st).2
  | .nil, st, h => h
  | .cons e es, st, h => by
    rw [canonExprList]
    exact canonExprList_constInv _ _ (canonExpr_constInv e st h)
theorem canonKwList_constInv : ∀ (ks : KwList) (st : CState), ConstInv st →
    ConstInv (canonKwList ks st).2
  | .nil, st, h => h
  | .cons a v ks, st, h => by
    rw [canonKwList]
    exact canonKwList_constInv _ _ (canonExpr_constInv v st h)
end

theorem canonOptExpr_constInv : ∀ (e : Option Expr) (st : CState), ConstInv st →
    ConstInv (canonOptExpr e st).2
  | Option.none, st, h => h
  | some e, st, h => by
    rw [canonOptExpr]
    exact canonExpr_constInv e st h

theorem canonArgs_constInv : ∀ (args : List String) (st : CState), ConstInv st →
    ConstInv (canonArgs args st).2
  | [], st, h => h
  | a :: as, st, h => by
    rw [canonArgs]
    exact canonArgs_constInv _ _ (map_name_constInv h)

mutual
theorem canonStmt_constInv : ∀ (s : Stmt) (st : CState), ConstInv st →
    ConstInv (canonStmt s st).2
  | .mk l e k, st, h => by
    rw [canonStmt]
    exact canonSKind_constInv k st h
theorem canonSKind_constInv : ∀ (k : SKind) (st : CState), ConstInv st →
    ConstInv (canonSKind k st).2
  | .assign t v, st, h => by
    rw [canonSKind]
    exact canonExpr_constInv _ _ (canonExpr_constInv t st h)
  | .augAssign t op v, st, h => by
    rw [canonSKind]
    exact canonExpr_constInv _ _ (canonExpr_constInv t st h)
  | .exprStmt v, st, h => by
    rw [canonSKind]
    exact canonExpr_constInv v st h
  | .ret v, st, h => by
    rw [canonSKind]
    exact canonOptExpr_constInv v st h
  | .ifS t b o, st, h => by
    rw [canonSKind]
    exact canonStmtList_constInv _ _ (canonStmtList_constInv _ _ (canonExpr_constInv t st h))
  | .whileS t b o, st, h => by
    rw [canonSKind]
    exact canonStmtList_constInv _ _ (canonStmtList_constInv _ _ (canonExpr_constInv t st h))
  | .forS t it b o, st, h => by
    rw [canonSKind]
    exact canonStmtList_constInv _ _ (canonStmtList_constInv _ _
      (canonExpr_constInv _ _ (canonExpr_constInv t st h)))
  | .withS item b, st, h => by
    rw [canonSKind]
    exact canonStmtList_constInv _ _ (canonExpr_constInv item st h)
  | .funcDef n args b d r, st, h => by
    rw [canonSKind]
    exact canonOptExpr_constInv _ _ (canonExprList_constInv _ _
      (canonStmtList_constInv _ _ (canonArgs_constInv args st h)))
  | .asyncFuncDef n args b d r, st, h => by
    rw [canonSKind]
    exact canonOptExpr_constInv _ _ (canonExprList_constInv _ _
      (canonStmtList_constInv _ _ (canonArgs_constInv args st h)))
  | .classDef n bases b d, st, h => by
    rw [canonSKind]
    exact canonExprList_constInv _ _ (canonStmtList_constInv _ _
      (canonExprList_constInv bases st h))
  | .tryS b hs o f, st, h => by
    rw [canonSKind]
    exact canonStmtList_constInv _ _ (canonStmtList_constInv _ _
      (canonHandlers_constInv _ _ (canonStmtList_constInv b st h)))
  | .pass, st, h => h
  | .breakS, st, h => h
  | .continueS, st, h => h
theorem canonStmtList_constInv : ∀ (ss : StmtList) (st : CState), ConstInv st →
    ConstInv (canonStmtList ss st).2
  | .nil, st, h => h
  | .cons s ss, st, h => by
    rw [canonStmtList]
    exact canonStmtList_constInv _ _ (canonStmt_constInv s st h)
theorem canonHandlers_constInv : ∀ (hs : HandlerList) (st : CState), ConstInv st →
    ConstInv (canonHandlers hs st).2
  | .nil, st, h => h
  | .cons b hs, st, h => by
    rw [canonHandlers]
    exact canonHandlers_constInv _ _ (canonStmtList_constInv b st h)
end

theorem mem_snd_nodup : ∀ (l : List (String × String)),
    (l.map Prod.snd).Nodup → ∀ e1 e2 : String × String, e1 ∈ l → e2 ∈ l →
    e1.2 = e2.2 → e1 = e2 := by
  intro l
  induction l with
  | nil => intro _ e1 e2 h1; simp at h1
  | cons hd rest ih =>
    intro hnd e1 e2 h1 h2 he
    rw [List.map_cons, List.nodup_cons] at hnd
    rcases List.mem_cons.mp h1 with rfl | h1r
    · rcases List.mem_cons.mp h2 with rfl | h2r
      · rfl
      · exfalso
        apply hnd.1
        rw [he]
        exact List.mem_map.mpr ⟨e2, h2r, rfl⟩
    · rcases List.mem_cons.mp h2 with rfl | h2r
      · exfalso
        apply hnd.1
        rw [← he]
        exact List.mem_map.mpr ⟨e1, h1r, rfl⟩
      · exact ih hnd.2 e1 e2 h1r h2r he

theorem constInv_initState : ConstInv initState := by
  constructor <;> simp [initState]

/-- Claim C7: within one canonicalization pass, two literal constants that
occur in the pass receive the same `_Ck` placeholder iff their values are
equal (value equality taken structurally on the modeled literal domain, as
distinguished by Python `repr`). -/
theorem C7_theorem (stmts : List Stmt) (v w : PyVal)
    (hv : alookup (canonStmtList (StmtList.ofList stmts) initState).2.const_map
      (pyRepr v) ≠ Option.none)
    (hw : alookup (canonStmtList (StmtList.ofList stmts) initState).2.const_map
      (pyRepr w) ≠ Option.none) :
    alookup (canonStmtList (StmtList.ofList stmts) initState).2.const_map (pyRepr v) =
      alookup (canonStmtList (StmtList.ofList stmts) initState).2.const_map (pyRepr w) ↔
    v = w := by
  have hinv : ConstInv (canonStmtList (StmtList.ofList stmts) initState).2 :=
    canonStmtList_constInv _ _ constInv_initState
  constructor
  · intro h
    obtain ⟨pv, hpv⟩ := Option.ne_none_iff_exists'.mp hv
    obtain ⟨pw, hpw⟩ := Option.ne_none_iff_exists'.mp hw
    have hpvw : pv = pw := by
      rw [hpv, hpw] at h
      simpa using h
    subst hpvw
    have hm1 := alookup_some_mem _ _ _ hpv
    have hm2 := alookup_some_mem _ _ _ hpw
    have hvalsnd : (((canonStmtList (StmtList.ofList stmts) initState).2.const_map).map
        Prod.snd).Nodup := by
      rw [hinv.2]
      apply List.Nodup.map
      · intro i j hij
        exact constPrefix_inj i j hij
      · exact List.nodup_range _
    have := mem_snd_nodup _ hvalsnd _ _ hm1 hm2 rfl
    have hkey : pyRepr v = pyRepr w := congrArg Prod.fst this
    exact pyRepr_inj v w hkey
  · intro h
    rw [h]

/-- Witness for C7: in the pass over `x = 1; y = 2`, the constants `1` and
`2` both occur, and their placeholders agree iff the values agree. -/
theorem C7_witness :
    (alookup (canonStmtList (StmtList.ofList
        [Stmt.mk (some 1) (some 1) (.assign (.name "x" .store) (.const (.int 1))),
         Stmt.mk (some 2) (some 2) (.assign (.name "y" .store) (.const (.int 2)))])
        initState).2.const_map (pyRepr (.int 1)) =
      alookup (canonStmtList (StmtList.ofList
        [Stmt.mk (some 1) (some 1) (.assign (.name "x" .store) (.const (.int 1))),
         Stmt.mk (some 2) (some 2) (.assign (.name "y" .store) (.const (.int 2)))])
        initState).2.const_map (pyRepr (.int 2)) ↔
      (PyVal.int 1 = PyVal.int 2)) :=
  C7_theorem _ (.int 1) (.int 2) (by decide) (by decide)

/-- Claim C6, counterexample: in the pass over `x = y.b`, two distinct
names are encountered before the first attribute, and that first distinct
attribute is assigned `_A2` — not `_A0` as the claim requires. -/
theorem C6_counterexample :
    (canonStmtList (StmtList.ofList [Stmt.mk (some 1) (some 1)
      (.assign (.name "x" .store) (.attribute (.name "y" .load) "b" .load))])
      initState).1 =
    StmtList.ofList [Stmt.mk (some 1) (some 1)
      (.assign (.name "_N0" .store) (.attribute (.name "_N1" .load) "_A2" .load))] ∧
    ("_A2" : String) ≠ "_A0" := by
  constructor
  · decide
  · decide

/-- Claim C6 as amended: names and attributes draw their numbers from the
single shared counter `_n_name` (a fresh name is `_N{n}` and a fresh
attribute `_A{n}` at the current shared counter value, and either kind
increments it), while constants are numbered by the independent `_n_const`
counter (a fresh constant is `_C{m}`, and mapping names or attributes never
changes `m`). -/
theorem C6_theorem :
    (∀ (st : CState) (a : String), alookup st.name_map ("attr::" ++ a) = Option.none →
      (map_attr st a).1 = "_A" ++ natDecimal st.n_name ∧
      (map_attr st a).2.n_name = st.n_name + 1 ∧
      (map_attr st a).2.n_const = st.n_const) ∧
    (∀ (st : CState) (x : String), alookup st.name_map x = Option.none →
      (map_name st x).1 = "_N" ++ natDecimal st.n_name ∧
      (map_name st x).2.n_name = st.n_name + 1 ∧
      (map_name st x).2.n_const = st.n_const) ∧
    (∀ (st : CState) (v : PyVal), alookup st.const_map (pyRepr v) = Option.none →
      (map_const st v).1 = "_C" ++ natDecimal st.n_const ∧
      (map_const st v).2.n_const = st.n_const + 1 ∧
      (map_const st v).2.n_name = st.n_name) := by
  refine ⟨?_, ?_, ?_⟩
  · intro st a h
    simp [map_attr, h]
  · intro st x h
    simp [map_name, h]
  · intro st v h
    simp [map_const, h]

/-- Witness for C6: at the fresh state, a first attribute is `_A0` only
because the shared counter is still 0; after one fresh name the counter is
1 and a first attribute would be `_A1`. -/
theorem C6_witness :
    (map_attr (map_name initState "x").2 "b").1 = "_A" ++ natDecimal 1 ∧
    (map_attr (map_name initState "x").2 "b").2.n_name = 2 :=
  have h := C6_theorem.1 (map_name initState "x").2 "b" (by decide)
  ⟨by rw [h.1]; rfl, by rw [h.2.1]; rfl⟩

/-! ## Claim C4: shape sensitivity -/

theorem cbd_snd (L : List Stmt) : (canonical_block_dump L).2 =
    dumpModule (canonStmtList (StmtList.ofList L) initState).1 := rfl

/-! ### The token structure of dumps: scanning lemmas -/

theorem tokB_nil (d : Nat) : tokB d [] = false := rfl

theorem tokB_cons (d : Nat) (c : Char) (cs : List Char) :
    tokB d (c :: cs) =
      if c = '(' then tokB (d + 1) cs
      else if c = ')' then
        match d with
        | 0 => cs.isEmpty
        | e + 1 => tokB e cs
      else tokB d cs := rfl

theorem tokA_nil : tokA [] = false := rfl

theorem tokA_cons (c : Char) (cs : List Char) :
    tokA (c :: cs) =
      if c = '(' then tokB 0 cs else if c = ')' then false else tokA cs := rfl

theorem pfree_chars : ∀ {l : List Char} {c : Char}, pfree l = true → c ∈ l →
    c ≠ '(' ∧ c ≠ ')'
  | [], _, _, hm => absurd hm (List.not_mem_nil _)
  | a :: as, c, h, hm => by
    rw [pfree, Bool.and_eq_true, Bool.and_eq_true] at h
    rcases List.mem_cons.mp hm with rfl | hm2
    · refine ⟨?_, ?_⟩
      · intro hc
        rw [hc] at h
        simp at h
      · intro hc
        rw [hc] at h
        simp at h
    · exact pfree_chars h.2.2 hm2

theorem tokB_pf : ∀ (l : List Char), pfree l = true → ∀ (d : Nat) (r : List Char),
    tokB d (l ++ r) = tokB d r
  | [], _, _, _ => by rw [List.nil_append]
  | c :: cs, h, d, r => by
    have hc := pfree_chars h (List.mem_cons_self c cs)
    rw [pfree, Bool.and_eq_true, Bool.and_eq_true] at h
    rw [List.cons_append, tokB_cons, if_neg hc.1, if_neg hc.2]
    exact tokB_pf cs h.2.2 d r

theorem tokB_embed : ∀ (cs : List Char) (d0 : Nat), tokB d0 cs = true →
    ∀ (d : Nat) (r : List Char), tokB (d0 + d + 1) (cs ++ r) = tokB d r
  | [], _, h, _, _ => by rw [tokB_nil] at h; exact absurd h (by simp)
  | c :: cs, d0, h, d, r => by
    rw [tokB_cons] at h
    rw [List.cons_append, tokB_cons]
    by_cases hp : c = '('
    · rw [if_pos hp] at h ⊢
      have hrec := tokB_embed cs (d0 + 1) h d r
      rw [show d0 + d + 1 + 1 = d0 + 1 + d + 1 from by omega]
      exact hrec
    · by_cases hq : c = ')'
      · rw [if_neg hp, if_pos hq] at h ⊢
        cases d0 with
        | zero =>
          replace h : cs.isEmpty = true := h
          rw [List.isEmpty_iff] at h
          subst h
          show tokB (0 + d) r = tokB d r
          rw [Nat.zero_add]
        | succ e =>
          replace h : tokB e cs = true := h
          have hrec := tokB_embed cs e h d r
          show tokB (e + 1 + d) (cs ++ r) = tokB d r
          rw [show e + 1 + d = e + d + 1 from by omega]
          exact hrec
      · rw [if_neg hp, if_neg hq] at h ⊢
        exact tokB_embed cs d0 h d r

theorem tokA_embed : ∀ (t : List Char), tokA t = true →
    ∀ (d : Nat) (r : List Char), tokB d (t ++ r) = tokB d r
  | [], h, _, _ => by rw [tokA_nil] at h; exact absurd h (by simp)
  | c :: cs, h, d, r => by
    rw [tokA_cons] at h
    rw [List.cons_append, tokB_cons]
    by_cases hp : c = '('
    · rw [if_pos hp] at h ⊢
      have hrec := tokB_embed cs 0 h d r
      rw [show d + 1 = 0 + d + 1 from by omega]
      exact hrec
    · by_cases hq : c = ')'
      · rw [if_neg hp, if_pos hq] at h
        exact absurd h (by simp)
      · rw [if_neg hp, if_neg hq] at h ⊢
        exact tokA_embed cs h d r

theorem tokA_open : ∀ (p : List Char), pfree p = true →
    ∀ (X : List Char), tokA (p ++ '(' :: X) = tokB 0 X
  | [], _, X => by rw [List.nil_append, tokA_cons, if_pos rfl]
  | c :: cs, h, X => by
    have hc := pfree_chars h (List.mem_cons_self c cs)
    rw [pfree, Bool.and_eq_true, Bool.and_eq_true] at h
    rw [List.cons_append, tokA_cons, if_neg hc.1, if_neg hc.2]
    exact tokA_open cs h.2.2 X

theorem tokB_align : ∀ (l1 : List Char) (d : Nat) (l2 x y : List Char),
    tokB d l1 = true → tokB d l2 = true → l1 ++ x = l2 ++ y → l1 = l2 ∧ x = y
  | [], _, _, _, _, h1, _, _ => by rw [tokB_nil] at h1; exact absurd h1 (by simp)
  | _ :: _, _, [], _, _, _, h2, _ => by rw [tokB_nil] at h2; exact absurd h2 (by simp)
  | c1 :: cs1, d, c2 :: cs2, x, y, h1, h2, heq => by
    rw [List.cons_append, List.cons_append] at heq
    injection heq with hc ht
    subst hc
    rw [tokB_cons] at h1 h2
    by_cases hp : c1 = '('
    · rw [if_pos hp] at h1 h2
      obtain ⟨he, hxy⟩ := tokB_align cs1 (d + 1) cs2 x y h1 h2 ht
      exact ⟨by rw [he], hxy⟩
    · by_cases hq : c1 = ')'
      · rw [if_neg hp, if_pos hq] at h1 h2
        cases d with
        | zero =>
          replace h1 : cs1.isEmpty = true := h1
          replace h2 : cs2.isEmpty = true := h2
          rw [List.isEmpty_iff] at h1 h2
          subst h1
          subst h2
          exact ⟨rfl, by simpa using ht⟩
        | succ e =>
          replace h1 : tokB e cs1 = true := h1
          replace h2 : tokB e cs2 = true := h2
          obtain ⟨he, hxy⟩ := tokB_align cs1 e cs2 x y h1 h2 ht
          exact ⟨by rw [he], hxy⟩
      · rw [if_neg hp, if_neg hq] at h1 h2
        obtain ⟨he, hxy⟩ := tokB_align cs1 d cs2 x y h1 h2 ht
        exact ⟨by rw [he], hxy⟩

theorem tokA_align : ∀ (l1 l2 x y : List Char),
    tokA l1 = true → tokA l2 = true → l1 ++ x = l2 ++ y → l1 = l2 ∧ x = y
  | [], _, _, _, h1, _, _ => by rw [tokA_nil] at h1; exact absurd h1 (by simp)
  | _ :: _, [], _, _, _, h2, _ => by rw [tokA_nil] at h2; exact absurd h2 (by simp)
  | c1 :: cs1, c2 :: cs2, x, y, h1, h2, heq => by
    rw [List.cons_append, List.cons_append] at heq
    injection heq with hc ht
    subst hc
    rw [tokA_cons] at h1 h2
    by_cases hp : c1 = '('
    · rw [if_pos hp] at h1 h2
      obtain ⟨he, hxy⟩ := tokB_align cs1 0 cs2 x y h1 h2 ht
      exact ⟨by rw [he], hxy⟩
    · by_cases hq : c1 = ')'
      · rw [if_neg hp, if_pos hq] at h1
        exact absurd h1 (by simp)
      · rw [if_neg hp, if_neg hq] at h1 h2
        obtain ⟨he, hxy⟩ := tokA_align cs1 cs2 x y h1 h2 ht
        exact ⟨by rw [he], hxy⟩

theorem pfree_of_all_clean : ∀ (l : List Char), l.all cleanChar = true → pfree l = true
  | [], _ => rfl
  | c :: cs, h => by
    rw [List.all_cons, Bool.and_eq_true] at h
    have hc := h.1
    rw [cleanChar, Bool.and_eq_true, Bool.and_eq_true] at hc
    rw [pfree]
    simp only [Bool.and_eq_true]
    exact ⟨hc.1, hc.2.1, pfree_of_all_clean cs h.2⟩

theorem pfree_clean (s : String) (h : cleanStr s = true) : pfree s.data = true :=
  pfree_of_all_clean s.data h

theorem noquote_clean {s : String} (h : cleanStr s = true) : ∀ c ∈ s.data, c ≠ '\'' := by
  intro c hc
  have hcc := List.all_eq_true.mp h c hc
  rw [cleanChar, Bool.and_eq_true, Bool.and_eq_true] at hcc
  simpa using hcc.2.2

theorem pfree_append : ∀ (l1 l2 : List Char), pfree l1 = true → pfree l2 = true →
    pfree (l1 ++ l2) = true
  | [], _, _, h2 => h2
  | c :: cs, l2, h1, h2 => by
    rw [pfree, Bool.and_eq_true, Bool.and_eq_true] at h1
    rw [List.cons_append, pfree]
    simp only [Bool.and_eq_true]
    exact ⟨h1.1, h1.2.1, pfree_append cs l2 h1.2.2 h2⟩

theorem natDecimal_clean (n : Nat) : cleanStr (natDecimal n) = true := by
  show (((decRev (n + 1) n).reverse).map digitChar).all cleanChar = true
  rw [List.all_eq_true]
  intro c hc
  rw [List.mem_map] at hc
  obtain ⟨d, hd, rfl⟩ := hc
  rw [List.mem_reverse] at hd
  have hlt := decRev_lt_ten (n + 1) n d hd
  exact (show ∀ e : Nat, e < 10 → cleanChar (digitChar e) = true from by decide) d hlt

theorem cleanStr_append {a b : String} (ha : cleanStr a = true)
    (hb : cleanStr b = true) : cleanStr (a ++ b) = true := by
  show (a ++ b).data.all cleanChar = true
  rw [String.data_append, List.all_append,
    show a.data.all cleanChar = true from ha, show b.data.all cleanChar = true from hb]
  rfl

theorem intDecimal_clean (i : Int) : cleanStr (intDecimal i) = true := by
  unfold intDecimal
  split
  · exact cleanStr_append (by decide) (natDecimal_clean _)
  · exact natDecimal_clean _

theorem pyRepr_pfree : ∀ (v : PyVal), cleanVal v = true → pfree (pyRepr v).data = true
  | .int i, _ => by
    show pfree (intDecimal i).data = true
    exact pfree_clean _ (intDecimal_clean i)
  | .str s, h => by
    show pfree ("'" ++ (s ++ "'")).data = true
    rw [String.data_append, String.data_append]
    exact pfree_append _ _ (by decide) (pfree_append _ _ (pfree_clean s h) (by decide))
  | .bool b, _ => by cases b <;> decide
  | .none, _ => by decide

theorem tokB_close (d : Nat) (r : List Char) : tokB (d + 1) (')' :: r) = tokB d r := rfl

theorem tokCtx : ∀ c : Ctx, tokA (dumpCtx c).data = true := by
  intro c
  cases c <;> decide

theorem pfreeOptArg : ∀ (a : Option String), cleanOptArg a = true →
    pfree (dumpOptArg a).data = true
  | Option.none, _ => by decide
  | some s, h => by
    show pfree (("'" ++ s) ++ "'").data = true
    rw [String.data_append, String.data_append]
    exact pfree_append _ _ (pfree_append _ _ (by decide) (pfree_clean s h)) (by decide)

mutual
theorem tokExpr : ∀ (e : Expr), dcExpr e = true → tokA (dumpExpr e).data = true
  | .name id ctx, h => by
    rw [dcExpr] at h
    simp only [dumpExpr, reprStr, String.data_append, List.append_assoc]
    rw [show ∀ X : List Char, tokA (("Name(" : String).data ++ X) = tokB 0 X
      from fun _ => rfl]
    rw [tokB_pf "'".data (by decide), tokB_pf id.data (pfree_clean id h),
      tokB_pf "'".data (by decide), tokB_pf ", ".data (by decide)]
    rw [tokA_embed _ (tokCtx ctx)]
    decide
  | .attribute v a ctx, h => by
    rw [dcExpr, Bool.and_eq_true] at h
    simp only [dumpExpr, reprStr, String.data_append, List.append_assoc]
    rw [show ∀ X : List Char, tokA (("Attribute(" : String).data ++ X) = tokB 0 X
      from fun _ => rfl]
    rw [tokA_embed _ (tokExpr v h.1), tokB_pf ", ".data (by decide),
      tokB_pf "'".data (by decide), tokB_pf a.data (pfree_clean a h.2),
      tokB_pf "'".data (by decide), tokB_pf ", ".data (by decide)]
    rw [tokA_embed _ (tokCtx ctx)]
    decide
  | .const v, h => by
    rw [dcExpr] at h
    simp only [dumpExpr, String.data_append, List.append_assoc]
    rw [show ∀ X : List Char, tokA (("Constant(" : String).data ++ X) = tokB 0 X
      from fun _ => rfl]
    rw [tokB_pf (pyRepr v).data (pyRepr_pfree v h)]
    decide
  | .call f args kws, h => by
    rw [dcExpr] at h
    simp only [Bool.and_eq_true] at h
    simp only [dumpExpr, String.data_append, List.append_assoc]
    rw [show ∀ X : List Char, tokA (("Call(" : String).data ++ X) = tokB 0 X
      from fun _ => rfl]
    rw [tokA_embed _ (tokExpr f h.1),
      show ∀ X : List Char, tokB 0 ((", [" : String).data ++ X) = tokB 0 X
        from fun _ => rfl,
      transExprList args h.2.1,
      show ∀ X : List Char, tokB 0 (("], [" : String).data ++ X) = tokB 0 X
        from fun _ => rfl,
      transKwList kws h.2.2]
    decide
  | .binOp l op r, h => by
    rw [dcExpr] at h
    simp only [Bool.and_eq_true] at h
    simp only [dumpExpr, String.data_append, List.append_assoc]
    rw [show ∀ X : List Char, tokA (("BinOp(" : String).data ++ X) = tokB 0 X
      from fun _ => rfl]
    rw [tokA_embed _ (tokExpr l h.1), tokB_pf ", ".data (by decide),
      tokB_pf op.data (pfree_clean op h.2.1),
      show ∀ X : List Char, tokB 0 (("(), " : String).data ++ X) = tokB 0 X
        from fun _ => rfl,
      tokA_embed _ (tokExpr r h.2.2)]
    decide
theorem transExprList : ∀ (es : ExprList), dcExprList es = true →
    ∀ (d : Nat) (r : List Char), tokB d ((dumpExprList es).data ++ r) = tokB d r
  | .nil, _, d, r => by
    rw [show (dumpExprList .nil).data = ([] : List Char) from rfl, List.nil_append]
  | .cons e .nil, h, d, r => by
    rw [dcExprList, Bool.and_eq_true] at h
    rw [show dumpExprList (.cons e .nil) = dumpExpr e from rfl]
    exact tokA_embed _ (tokExpr e h.1) d r
  | .cons e (.cons e2 es), h, d, r => by
    rw [dcExprList, Bool.and_eq_true] at h
    simp only [dumpExprList, String.data_append, List.append_assoc]
    rw [tokA_embed _ (tokExpr e h.1), tokB_pf ", ".data (by decide)]
    exact transExprList (.cons e2 es) h.2 d r
theorem transKwList : ∀ (ks : KwList), dcKwList ks = true →
    ∀ (d : Nat) (r : List Char), tokB d ((dumpKwList ks).data ++ r) = tokB d r
  | .nil, _, d, r => by
    rw [show (dumpKwList .nil).data = ([] : List Char) from rfl, List.nil_append]
  | .cons a v .nil, h, d, r => by
    rw [dcKwList] at h
    simp only [Bool.and_eq_true] at h
    simp only [dumpKwList, String.data_append, List.append_assoc]
    rw [show ∀ X : List Char, tokB d (("keyword(" : String).data ++ X) = tokB (d + 1) X
      from fun _ => rfl]
    rw [tokB_pf (dumpOptArg a).data (pfreeOptArg a h.1),
      tokB_pf ", ".data (by decide), tokA_embed _ (tokExpr v h.2.1)]
    rw [show (")" : String).data ++ r = ')' :: r from rfl, tokB_close]
  | .cons a v (.cons a2 v2 ks), h, d, r => by
    rw [dcKwList] at h
    simp only [Bool.and_eq_true] at h
    simp only [dumpKwList, String.data_append, List.append_assoc]
    rw [show ∀ X : List Char, tokB d (("keyword(" : String).data ++ X) = tokB (d + 1) X
      from fun _ => rfl]
    rw [tokB_pf (dumpOptArg a).data (pfreeOptArg a h.1),
      tokB_pf ", ".data (by decide), tokA_embed _ (tokExpr v h.2.1)]
    rw [show ∀ X : List Char, tokB (d + 1) ((")" : String).data ++ ((", " : String).data ++ X)) =
      tokB d X from fun _ => rfl]
    exact transKwList (.cons a2 v2 ks) h.2.2 d r
end

theorem transOptExpr : ∀ (e : Option Expr), dcOptExpr e = true →
    ∀ (d : Nat) (r : List Char), tokB d ((dumpOptExpr e).data ++ r) = tokB d r
  | Option.none, _, d, r => by
    rw [show dumpOptExpr Option.none = "None" from rfl]
    exact tokB_pf "None".data (by decide) d r
  | some e, h, d, r => by
    rw [show dumpOptExpr (some e) = dumpExpr e from rfl]
    exact tokA_embed _ (tokExpr e h) d r

theorem transArgs : ∀ (args : List String), args.all cleanStr = true →
    ∀ (d : Nat) (r : List Char), tokB d ((dumpArgs args).data ++ r) = tokB d r
  | [], _, d, r => by
    rw [show (dumpArgs []).data = ([] : List Char) from rfl, List.nil_append]
  | [a], h, d, r => by
    rw [List.all_cons, Bool.and_eq_true] at h
    simp only [dumpArgs, reprStr, String.data_append, List.append_assoc]
    rw [show ∀ X : List Char, tokB d (("arg(" : String).data ++ X) = tokB (d + 1) X
      from fun _ => rfl]
    rw [tokB_pf "'".data (by decide), tokB_pf a.data (pfree_clean a h.1),
      tokB_pf "'".data (by decide)]
    rw [show (")" : String).data ++ r = ')' :: r from rfl, tokB_close]
  | a :: a2 :: as, h, d, r => by
    rw [List.all_cons, Bool.and_eq_true] at h
    simp only [dumpArgs, reprStr, String.data_append, List.append_assoc]
    rw [show ∀ X : List Char, tokB d (("arg(" : String).data ++ X) = tokB (d + 1) X
      from fun _ => rfl]
    rw [tokB_pf "'".data (by decide), tokB_pf a.data (pfree_clean a h.1),
      tokB_pf "'".data (by decide)]
    rw [show ∀ X : List Char, tokB (d + 1) ((")" : String).data ++ ((", " : String).data ++ X)) =
      tokB d X from fun _ => rfl]
    exact transArgs (a2 :: as) h.2 d r

mutual
theorem tokStmt : ∀ (s : Stmt), dcStmt s = true → tokA (dumpStmt s).data = true
  | .mk l e k, h => by
    rw [show dumpStmt (.mk l e k) = dumpSKind k from rfl]
    exact tokSKind k h
theorem tokSKind : ∀ (k : SKind), dcSKind k = true → tokA (dumpSKind k).data = true
  | .assign t v, h => by
    rw [dcSKind, Bool.and_eq_true] at h
    simp only [dumpSKind, String.data_append, List.append_assoc]
    rw [show ∀ X : List Char, tokA (("Assign([" : String).data ++ X) = tokB 0 X
      from fun _ => rfl]
    rw [tokA_embed _ (tokExpr t h.1),
      show ∀ X : List Char, tokB 0 (("], " : String).data ++ X) = tokB 0 X
        from fun _ => rfl,
      tokA_embed _ (tokExpr v h.2)]
    decide
  | .augAssign t op v, h => by
    rw [dcSKind] at h
    simp only [Bool.and_eq_true] at h
    simp only [dumpSKind, String.data_append, List.append_assoc]
    rw [show ∀ X : List Char, tokA (("AugAssign(" : String).data ++ X) = tokB 0 X
      from fun _ => rfl]
    rw [tokA_embed _ (tokExpr t h.1), tokB_pf ", ".data (by decide),
      tokB_pf op.data (pfree_clean op h.2.1),
      show ∀ X : List Char, tokB 0 (("(), " : String).data ++ X) = tokB 0 X
        from fun _ => rfl,
      tokA_embed _ (tokExpr v h.2.2)]
    decide
  | .exprStmt v, h => by
    rw [dcSKind] at h
    simp only [dumpSKind, String.data_append, List.append_assoc]
    rw [show ∀ X : List Char, tokA (("Expr(" : String).data ++ X) = tokB 0 X
      from fun _ => rfl]
    rw [tokA_embed _ (tokExpr v h)]
    decide
  | .ret v, h => by
    rw [dcSKind] at h
    simp only [dumpSKind, String.data_append, List.append_assoc]
    rw [show ∀ X : List Char, tokA (("Return(" : String).data ++ X) = tokB 0 X
      from fun _ => rfl]
    rw [transOptExpr v h]
    decide
  | .ifS t b o, h => by
    rw [dcSKind] at h
    simp only [Bool.and_eq_true] at h
    simp only [dumpSKind, String.data_append, List.append_assoc]
    rw [show ∀ X : List Char, tokA (("If(" : String).data ++ X) = tokB 0 X
      from fun _ => rfl]
    rw [tokA_embed _ (tokExpr t h.1),
      show ∀ X : List Char, tokB 0 ((", [" : String).data ++ X) = tokB 0 X
        from fun _ => rfl,
      transStmtList b h.2.1,
      show ∀ X : List Char, tokB 0 (("], [" : String).data ++ X) = tokB 0 X
        from fun _ => rfl,
      transStmtList o h.2.2]
    decide
  | .whileS t b o, h => by
    rw [dcSKind] at h
    simp only [Bool.and_eq_true] at h
    simp only [dumpSKind, String.data_append, List.append_assoc]
    rw [show ∀ X : List Char, tokA (("While(" : String).data ++ X) = tokB 0 X
      from fun _ => rfl]
    rw [tokA_embed _ (tokExpr t h.1),
      show ∀ X : List Char, tokB 0 ((", [" : String).data ++ X) = tokB 0 X
        from fun _ => rfl,
      transStmtList b h.2.1,
      show ∀ X : List Char, tokB 0 (("], [" : String).data ++ X) = tokB 0 X
        from fun _ => rfl,
      transStmtList o h.2.2]
    decide
  | .forS t it b o, h => by
    rw [dcSKind] at h
    simp only [Bool.and_eq_true] at h
    simp only [dumpSKind, String.data_append, List.append_assoc]
    rw [show ∀ X : List Char, tokA (("For(" : String).data ++ X) = tokB 0 X
      from fun _ => rfl]
    rw [tokA_embed _ (tokExpr t h.1), tokB_pf ", ".data (by decide),
      tokA_embed _ (tokExpr it h.2.1),
      show ∀ X : List Char, tokB 0 ((", [" : String).data ++ X) = tokB 0 X
        from fun _ => rfl,
      transStmtList b h.2.2.1,
      show ∀ X : List Char, tokB 0 (("], [" : String).data ++ X) = tokB 0 X
        from fun _ => rfl,
      transStmtList o h.2.2.2]
    decide
  | .withS item b, h => by
    rw [dcSKind, Bool.and_eq_true] at h
    simp only [dumpSKind, String.data_append, List.append_assoc]
    rw [show ∀ X : List Char, tokA (("With([withitem(" : String).data ++ X) = tokB 1 X
      from fun _ => rfl]
    rw [tokA_embed _ (tokExpr item h.1),
      show ∀ X : List Char, tokB 1 (((")], [" : String)).data ++ X) = tokB 0 X
        from fun _ => rfl,
      transStmtList b h.2]
    decide
  | .funcDef n args b d r, h => by
    rw [dcSKind] at h
    simp only [Bool.and_eq_true] at h
    simp only [dumpSKind, reprStr, String.data_append, List.append_assoc]
    rw [show ∀ X : List Char, tokA (("FunctionDef(" : String).data ++ X) = tokB 0 X
      from fun _ => rfl]
    rw [tokB_pf "'".data (by decide), tokB_pf n.data (pfree_clean n h.1),
      tokB_pf "'".data (by decide),
      show ∀ X : List Char, tokB 0 ((", arguments([" : String).data ++ X) = tokB 1 X
        from fun _ => rfl,
      transArgs args h.2.1,
      show ∀ X : List Char, tokB 1 (("]), [" : String).data ++ X) = tokB 0 X
        from fun _ => rfl,
      transStmtList b h.2.2.1,
      show ∀ X : List Char, tokB 0 (("], [" : String).data ++ X) = tokB 0 X
        from fun _ => rfl,
      transExprList d h.2.2.2.1,
      show ∀ X : List Char, tokB 0 (("], " : String).data ++ X) = tokB 0 X
        from fun _ => rfl,
      transOptExpr r h.2.2.2.2]
    decide
  | .asyncFuncDef n args b d r, h => by
    rw [dcSKind] at h
    simp only [Bool.and_eq_true] at h
    simp only [dumpSKind, reprStr, String.data_append, List.append_assoc]
    rw [show ∀ X : List Char, tokA (("AsyncFunctionDef(" : String).data ++ X) = tokB 0 X
      from fun _ => rfl]
    rw [tokB_pf "'".data (by decide), tokB_pf n.data (pfree_clean n h.1),
      tokB_pf "'".data (by decide),
      show ∀ X : List Char, tokB 0 ((", arguments([" : String).data ++ X) = tokB 1 X
        from fun _ => rfl,
      transArgs args h.2.1,
      show ∀ X : List Char, tokB 1 (("]), [" : String).data ++ X) = tokB 0 X
        from fun _ => rfl,
      transStmtList b h.2.2.1,
      show ∀ X : List Char, tokB 0 (("], [" : String).data ++ X) = tokB 0 X
        from fun _ => rfl,
      transExprList d h.2.2.2.1,
      show ∀ X : List Char, tokB 0 (("], " : String).data ++ X) = tokB 0 X
        from fun _ => rfl,
      transOptExpr r h.2.2.2.2]
    decide
  | .classDef n bases b d, h => by
    rw [dcSKind] at h
    simp only [Bool.and_eq_true] at h
    simp only [dumpSKind, reprStr, String.data_append, List.append_assoc]
    rw [show ∀ X : List Char, tokA (("ClassDef(" : String).data ++ X) = tokB 0 X
      from fun _ => rfl]
    rw [tokB_pf "'".data (by decide), tokB_pf n.data (pfree_clean n h.1),
      tokB_pf "'".data (by decide),
      show ∀ X : List Char, tokB 0 ((", [" : String).data ++ X) = tokB 0 X
        from fun _ => rfl,
      transExprList bases h.2.1,
      show ∀ X : List Char, tokB 0 (("], [" : String).data ++ X) = tokB 0 X
        from fun _ => rfl,
      transStmtList b h.2.2.1,
      show ∀ X : List Char, tokB 0 (("], [" : String).data ++ X) = tokB 0 X
        from fun _ => rfl,
      transExprList d h.2.2.2]
    decide
  | .tryS b hs o f, h => by
    rw [dcSKind] at h
    simp only [Bool.and_eq_true] at h
    simp only [dumpSKind, String.data_append, List.append_assoc]
    rw [show ∀ X : List Char, tokA (("Try([" : String).data ++ X) = tokB 0 X
      from fun _ => rfl]
    rw [transStmtList b h.1,
      show ∀ X : List Char, tokB 0 (("], [" : String).data ++ X) = tokB 0 X
        from fun _ => rfl,
      transHandlers hs h.2.1,
      show ∀ X : List Char, tokB 0 (("], [" : String).data ++ X) = tokB 0 X
        from fun _ => rfl,
      transStmtList o h.2.2.1,
      show ∀ X : List Char, tokB 0 (("], [" : String).data ++ X) = tokB 0 X
        from fun _ => rfl,
      transStmtList f h.2.2.2]
    decide
  | .pass, _ => by decide
  | .breakS, _ => by decide
  | .continueS, _ => by decide
theorem transStmtList : ∀ (L : StmtList), dcStmts L = true →
    ∀ (d : Nat) (r : List Char), tokB d ((dumpStmtList L).data ++ r) = tokB d r
  | .nil, _, d, r => by
    rw [show (dumpStmtList .nil).data = ([] : List Char) from rfl, List.nil_append]
  | .cons s .nil, h, d, r => by
    rw [dcStmts, Bool.and_eq_true] at h
    rw [show dumpStmtList (.cons s .nil) = dumpStmt s from rfl]
    exact tokA_embed _ (tokStmt s h.1) d r
  | .cons s (.cons s2 ss), h, d, r => by
    rw [dcStmts, Bool.and_eq_true] at h
    simp only [dumpStmtList, String.data_append, List.append_assoc]
    rw [tokA_embed _ (tokStmt s h.1), tokB_pf ", ".data (by decide)]
    exact transStmtList (.cons s2 ss) h.2 d r
theorem transHandlers : ∀ (H : HandlerList), dcHandlers H = true →
    ∀ (d : Nat) (r : List Char), tokB d ((dumpHandlers H).data ++ r) = tokB d r
  | .nil, _, d, r => by
    rw [show (dumpHandlers .nil).data = ([] : List Char) from rfl, List.nil_append]
  | .cons b .nil, h, d, r => by
    rw [dcHandlers, Bool.and_eq_true] at h
    simp only [dumpHandlers, String.data_append, List.append_assoc]
    rw [show ∀ X : List Char, tokB d (("ExceptHandler([" : String).data ++ X) = tokB (d + 1) X
      from fun _ => rfl]
    rw [transStmtList b h.1,
      show ∀ X : List Char, tokB (d + 1) (("])" : String).data ++ X) = tokB d X
        from fun _ => rfl]
  | .cons b (.cons b2 hs), h, d, r => by
    rw [dcHandlers, Bool.and_eq_true] at h
    simp only [dumpHandlers, String.data_append, List.append_assoc]
    rw [show ∀ X : List Char, tokB d (("ExceptHandler([" : String).data ++ X) = tokB (d + 1) X
      from fun _ => rfl]
    rw [transStmtList b h.1,
      show ∀ X : List Char, tokB (d + 1) (("])" : String).data ++ ((", " : String).data ++ X)) =
        tokB d X from fun _ => rfl]
    exact transHandlers (.cons b2 hs) h.2 d r
end

theorem quote_align : ∀ (l1 l2 x y : List Char),
    (∀ c ∈ l1, c ≠ '\'') → (∀ c ∈ l2, c ≠ '\'') →
    l1 ++ '\'' :: x = l2 ++ '\'' :: y → l1 = l2 ∧ x = y
  | [], [], x, y, _, _, heq => by
    rw [List.nil_append, List.nil_append] at heq
    injection heq with _ ht
    exact ⟨rfl, ht⟩
  | [], c :: cs, x, y, _, h2, heq => by
    rw [List.nil_append, List.cons_append] at heq
    injection heq with hc _
    exact absurd hc.symm (h2 c (List.mem_cons_self c cs))
  | c :: cs, [], x, y, h1, _, heq => by
    rw [List.nil_append, List.cons_append] at heq
    injection heq with hc _
    exact absurd hc (h1 c (List.mem_cons_self c cs))
  | c1 :: cs1, c2 :: cs2, x, y, h1, h2, heq => by
    rw [List.cons_append, List.cons_append] at heq
    injection heq with hc ht
    subst hc
    obtain ⟨he, hxy⟩ := quote_align cs1 cs2 x y
      (fun c hcm => h1 c (List.mem_cons_of_mem _ hcm))
      (fun c hcm => h2 c (List.mem_cons_of_mem _ hcm)) ht
    exact ⟨by rw [he], hxy⟩

theorem zipAny_ne_append : ∀ (a b u v : List Char),
    (a.zip b).any (fun p => decide (p.1 ≠ p.2)) = true → a ++ u ≠ b ++ v := by
  intro a
  induction a with
  | nil => intro b u v h; simp at h
  | cons x xs ih =>
    intro b u v h hc
    cases b with
    | nil => simp at h
    | cons y ys =>
      simp only [List.zip_cons_cons, List.any_cons] at h
      simp only [List.cons_append, List.cons.injEq] at hc
      rw [Bool.or_eq_true] at h
      rcases h with h1 | h1
      · rw [hc.1] at h1
        simp at h1
      · exact ih ys u v h1 hc.2

theorem ktag_zip_ne : ∀ t1 t2 : KTag, t1 ≠ t2 →
    (((tagStr t1 ++ "(").data).zip ((tagStr t2 ++ "(").data)).any
      (fun p => decide (p.1 ≠ p.2)) = true := by
  decide

theorem canonSKind_ktag : ∀ (k : SKind) (st : CState),
    ktag (canonSKind k st).1 = ktag k
  | .assign _ _, _ => rfl
  | .augAssign _ _ _, _ => rfl
  | .exprStmt _, _ => rfl
  | .ret _, _ => rfl
  | .ifS _ _ _, _ => rfl
  | .whileS _ _ _, _ => rfl
  | .forS _ _ _ _, _ => rfl
  | .withS _ _, _ => rfl
  | .funcDef _ _ _ _ _, _ => rfl
  | .asyncFuncDef _ _ _ _ _, _ => rfl
  | .classDef _ _ _ _, _ => rfl
  | .tryS _ _ _ _, _ => rfl
  | .pass, _ => rfl
  | .breakS, _ => rfl
  | .continueS, _ => rfl

theorem dumpSKind_head : ∀ k : SKind, ∃ r : List Char,
    (dumpSKind k).data = (tagStr (ktag k) ++ "(").data ++ r
  | .assign t v => ⟨("[" ++ dumpExpr t ++ "], " ++ dumpExpr v ++ ")").data, by
      simp only [dumpSKind, String.data_append, List.append_assoc]; rfl⟩
  | .augAssign t op v =>
    ⟨(dumpExpr t ++ ", " ++ op ++ "(), " ++ dumpExpr v ++ ")").data, by
      simp only [dumpSKind, String.data_append, List.append_assoc]; rfl⟩
  | .exprStmt v => ⟨(dumpExpr v ++ ")").data, by
      simp only [dumpSKind, String.data_append, List.append_assoc]; rfl⟩
  | .ret v => ⟨(dumpOptExpr v ++ ")").data, by
      simp only [dumpSKind, String.data_append, List.append_assoc]; rfl⟩
  | .ifS t b o =>
    ⟨(dumpExpr t ++ ", [" ++ dumpStmtList b ++ "], [" ++ dumpStmtList o ++ "])").data, by
      simp only [dumpSKind, String.data_append, List.append_assoc]; rfl⟩
  | .whileS t b o =>
    ⟨(dumpExpr t ++ ", [" ++ dumpStmtList b ++ "], [" ++ dumpStmtList o ++ "])").data, by
      simp only [dumpSKind, String.data_append, List.append_assoc]; rfl⟩
  | .forS t it b o =>
    ⟨(dumpExpr t ++ ", " ++ dumpExpr it ++ ", [" ++ dumpStmtList b ++ "], [" ++
        dumpStmtList o ++ "])").data, by
      simp only [dumpSKind, String.data_append, List.append_assoc]; rfl⟩
  | .withS item b =>
    ⟨("[withitem(" ++ dumpExpr item ++ ")], [" ++ dumpStmtList b ++ "])").data, by
      simp only [dumpSKind, String.data_append, List.append_assoc]; rfl⟩
  | .funcDef n args b d r =>
    ⟨(reprStr n ++ ", arguments([" ++ dumpArgs args ++ "]), [" ++ dumpStmtList b ++
        "], [" ++ dumpExprList d ++ "], " ++ dumpOptExpr r ++ ")").data, by
      simp only [dumpSKind, reprStr, String.data_append, List.append_assoc]; rfl⟩
  | .asyncFuncDef n args b d r =>
    ⟨(reprStr n ++ ", arguments([" ++ dumpArgs args ++ "]), [" ++ dumpStmtList b ++
        "], [" ++ dumpExprList d ++ "], " ++ dumpOptExpr r ++ ")").data, by
      simp only [dumpSKind, reprStr, String.data_append, List.append_assoc]; rfl⟩
  | .classDef n bases b d =>
    ⟨(reprStr n ++ ", [" ++ dumpExprList bases ++ "], [" ++ dumpStmtList b ++ "], [" ++
        dumpExprList d ++ "])").data, by
      simp only [dumpSKind, reprStr, String.data_append, List.append_assoc]; rfl⟩
  | .tryS b hs o f =>
    ⟨("[" ++ dumpStmtList b ++ "], [" ++ dumpHandlers hs ++ "], [" ++ dumpStmtList o ++
        "], [" ++ dumpStmtList f ++ "])").data, by
      simp only [dumpSKind, String.data_append, List.append_assoc]; rfl⟩
  | .pass => ⟨")".data, by decide⟩
  | .breakS => ⟨")".data, by decide⟩
  | .continueS => ⟨")".data, by decide⟩

theorem dumpStmtList_cons_head : ∀ (c : Stmt) (X : StmtList), ∃ t : List Char,
    (dumpStmtList (.cons c X)).data = (dumpStmt c).data ++ t := by
  intro c X
  cases X with
  | nil => exact ⟨[], by simp [dumpStmtList]⟩
  | cons a b =>
    exact ⟨(", " ++ dumpStmtList (.cons a b)).data, by
      simp [dumpStmtList, String.data_append, List.append_assoc]⟩

theorem canon_dump_ne_of_ktag : ∀ (pre post : List Stmt)
    (l1 e1 l2 e2 : Option Int) (k1 k2 : SKind) (st : CState),
    ktag k1 ≠ ktag k2 →
    dumpStmtList (canonStmtList (StmtList.ofList (pre ++ Stmt.mk l1 e1 k1 :: post)) st).1 ≠
    dumpStmtList (canonStmtList (StmtList.ofList (pre ++ Stmt.mk l2 e2 k2 :: post)) st).1 := by
  intro pre
  induction pre with
  | nil =>
    intro post l1 e1 l2 e2 k1 k2 st hk hc
    have hk1 : (canonStmtList (StmtList.ofList ([] ++ Stmt.mk l1 e1 k1 :: post)) st).1 =
        .cons (Stmt.mk l1 e1 (canonSKind k1 st).1)
          (canonStmtList (StmtList.ofList post) (canonSKind k1 st).2).1 := rfl
    have hk2 : (canonStmtList (StmtList.ofList ([] ++ Stmt.mk l2 e2 k2 :: post)) st).1 =
        .cons (Stmt.mk l2 e2 (canonSKind k2 st).1)
          (canonStmtList (StmtList.ofList post) (canonSKind k2 st).2).1 := rfl
    rw [hk1, hk2] at hc
    obtain ⟨t1, ht1⟩ := dumpStmtList_cons_head (Stmt.mk l1 e1 (canonSKind k1 st).1) _
    obtain ⟨t2, ht2⟩ := dumpStmtList_cons_head (Stmt.mk l2 e2 (canonSKind k2 st).1) _
    have hdata := congrArg String.data hc
    rw [ht1, ht2] at hdata
    obtain ⟨r1, hr1⟩ := dumpSKind_head (canonSKind k1 st).1
    obtain ⟨r2, hr2⟩ := dumpSKind_head (canonSKind k2 st).1
    have hd1 : (dumpStmt (Stmt.mk l1 e1 (canonSKind k1 st).1)).data =
        (tagStr (ktag k1) ++ "(").data ++ r1 := by
      rw [show dumpStmt (Stmt.mk l1 e1 (canonSKind k1 st).1) =
        dumpSKind (canonSKind k1 st).1 from rfl, hr1, canonSKind_ktag]
    have hd2 : (dumpStmt (Stmt.mk l2 e2 (canonSKind k2 st).1)).data =
        (tagStr (ktag k2) ++ "(").data ++ r2 := by
      rw [show dumpStmt (Stmt.mk l2 e2 (canonSKind k2 st).1) =
        dumpSKind (canonSKind k2 st).1 from rfl, hr2, canonSKind_ktag]
    rw [hd1, hd2, List.append_assoc, List.append_assoc] at hdata
    exact zipAny_ne_append _ _ _ _ (ktag_zip_ne (ktag k1) (ktag k2) hk) hdata
  | cons p pre' ih =>
    intro post l1 e1 l2 e2 k1 k2 st hk hc
    have hshape : ∀ (l : Option Int) (e : Option Int) (k : SKind),
        ∃ a b, (canonStmtList (StmtList.ofList (pre' ++ Stmt.mk l e k :: post))
          (canonStmt p st).2).1 = StmtList.cons a b := by
      intro l e k
      cases pre' with
      | nil => exact ⟨_, _, rfl⟩
      | cons _ _ => exact ⟨_, _, rfl⟩
    have hc1 : (canonStmtList (StmtList.ofList ((p :: pre') ++ Stmt.mk l1 e1 k1 :: post)) st).1 =
        .cons (canonStmt p st).1
          (canonStmtList (StmtList.ofList (pre' ++ Stmt.mk l1 e1 k1 :: post))
            (canonStmt p st).2).1 := rfl
    have hc2 : (canonStmtList (StmtList.ofList ((p :: pre') ++ Stmt.mk l2 e2 k2 :: post)) st).1 =
        .cons (canonStmt p st).1
          (canonStmtList (StmtList.ofList (pre' ++ Stmt.mk l2 e2 k2 :: post))
            (canonStmt p st).2).1 := rfl
    rw [hc1, hc2] at hc
    obtain ⟨a1, b1, hs1⟩ := hshape l1 e1 k1
    obtain ⟨a2, b2, hs2⟩ := hshape l2 e2 k2
    rw [hs1, hs2] at hc
    have hdata := congrArg String.data hc
    have hform : ∀ (a : Stmt) (b : StmtList),
        (dumpStmtList (.cons (canonStmt p st).1 (.cons a b))).data =
        ((dumpStmt (canonStmt p st).1 ++ ", ").data) ++ (dumpStmtList (.cons a b)).data := by
      intro a b
      simp [dumpStmtList, String.data_append, List.append_assoc]
    rw [hform a1 b1, hform a2 b2] at hdata
    have hcancel := List.append_cancel_left hdata
    have := string_data_inj hcancel
    rw [← hs1, ← hs2] at this
    exact ih post l1 e1 l2 e2 k1 k2 (canonStmt p st).2 hk this

theorem exprAlign {e1 e2 : Expr} {x y : List Char} (h1 : dcExpr e1 = true)
    (h2 : dcExpr e2 = true)
    (h : (dumpExpr e1).data ++ x = (dumpExpr e2).data ++ y) :
    (dumpExpr e1).data = (dumpExpr e2).data ∧ x = y :=
  tokA_align _ _ _ _ (tokExpr e1 h1) (tokExpr e2 h2) h

theorem dumpExpr_ne_close : ∀ (e : Expr) (u x : List Char),
    ']' :: x ≠ (dumpExpr e).data ++ u
  | .name id ctx, u, x => by
    intro h
    simp only [dumpExpr, reprStr, String.data_append, List.append_assoc] at h
    exact zipAny_ne_append [']'] ("Name(" : String).data x _ (by decide) h
  | .attribute v a ctx, u, x => by
    intro h
    simp only [dumpExpr, reprStr, String.data_append, List.append_assoc] at h
    exact zipAny_ne_append [']'] ("Attribute(" : String).data x _ (by decide) h
  | .const v, u, x => by
    intro h
    simp only [dumpExpr, String.data_append, List.append_assoc] at h
    exact zipAny_ne_append [']'] ("Constant(" : String).data x _ (by decide) h
  | .call f args kws, u, x => by
    intro h
    simp only [dumpExpr, String.data_append, List.append_assoc] at h
    exact zipAny_ne_append [']'] ("Call(" : String).data x _ (by decide) h
  | .binOp l op r, u, x => by
    intro h
    simp only [dumpExpr, String.data_append, List.append_assoc] at h
    exact zipAny_ne_append [']'] ("BinOp(" : String).data x _ (by decide) h

theorem tagStr_zip_close : ∀ t : KTag,
    ((([']'] : List Char)).zip ((tagStr t ++ "(").data)).any
      (fun p => decide (p.1 ≠ p.2)) = true := by decide

theorem tagStr_zip_comma : ∀ t : KTag,
    ((([','] : List Char)).zip ((tagStr t ++ "(").data)).any
      (fun p => decide (p.1 ≠ p.2)) = true := by decide

theorem dumpStmt_ne_close (s : Stmt) (u x : List Char) :
    ']' :: x ≠ (dumpStmt s).data ++ u := by
  intro h
  obtain ⟨l, e, k⟩ := s
  rw [show dumpStmt (.mk l e k) = dumpSKind k from rfl] at h
  obtain ⟨r, hr⟩ := dumpSKind_head k
  rw [hr, List.append_assoc] at h
  exact zipAny_ne_append [']'] ((tagStr (ktag k) ++ "(").data) x _
    (tagStr_zip_close (ktag k)) h

theorem dumpStmt_ne_comma (s : Stmt) (u x : List Char) :
    ',' :: x ≠ (dumpStmt s).data ++ u := by
  intro h
  obtain ⟨l, e, k⟩ := s
  rw [show dumpStmt (.mk l e k) = dumpSKind k from rfl] at h
  obtain ⟨r, hr⟩ := dumpSKind_head k
  rw [hr, List.append_assoc] at h
  exact zipAny_ne_append [','] ((tagStr (ktag k) ++ "(").data) x _
    (tagStr_zip_comma (ktag k)) h

theorem tag_eq_of_dump (k1 k2 : SKind)
    (h : (dumpSKind k1).data = (dumpSKind k2).data) : ktag k1 = ktag k2 := by
  by_contra hne
  obtain ⟨r1, hr1⟩ := dumpSKind_head k1
  obtain ⟨r2, hr2⟩ := dumpSKind_head k2
  rw [hr1, hr2] at h
  exact zipAny_ne_append _ _ _ _ (ktag_zip_ne (ktag k1) (ktag k2) hne) h

theorem eListAlign : ∀ (E1 E2 : ExprList) (x y : List Char),
    dcExprList E1 = true → dcExprList E2 = true →
    (dumpExprList E1).data ++ ']' :: x = (dumpExprList E2).data ++ ']' :: y → x = y
  | .nil, .nil, x, y, _, _, h => by
    have h2 : (']' :: x : List Char) = ']' :: y := h
    exact (List.cons.inj h2).2
  | .nil, .cons e2 .nil, x, y, _, h2, h => by
    rw [show (dumpExprList .nil).data = ([] : List Char) from rfl, List.nil_append,
      show dumpExprList (.cons e2 .nil) = dumpExpr e2 from rfl] at h
    exact absurd h (dumpExpr_ne_close e2 _ x)
  | .nil, .cons e2 (.cons e2' es2), x, y, _, h2, h => by
    rw [show (dumpExprList .nil).data = ([] : List Char) from rfl, List.nil_append] at h
    simp only [dumpExprList, String.data_append, List.append_assoc, List.cons_append,
      List.nil_append] at h
    exact absurd h (dumpExpr_ne_close e2 _ x)
  | .cons e1 .nil, .nil, x, y, h1, _, h => by
    rw [show (dumpExprList .nil).data = ([] : List Char) from rfl, List.nil_append,
      show dumpExprList (.cons e1 .nil) = dumpExpr e1 from rfl] at h
    exact absurd h.symm (dumpExpr_ne_close e1 _ y)
  | .cons e1 (.cons e1' es1), .nil, x, y, h1, _, h => by
    rw [show (dumpExprList .nil).data = ([] : List Char) from rfl, List.nil_append] at h
    simp only [dumpExprList, String.data_append, List.append_assoc, List.cons_append,
      List.nil_append] at h
    exact absurd h.symm (dumpExpr_ne_close e1 _ y)
  | .cons e1 .nil, .cons e2 .nil, x, y, h1, h2, h => by
    rw [dcExprList, Bool.and_eq_true] at h1 h2
    rw [show dumpExprList (.cons e1 .nil) = dumpExpr e1 from rfl,
      show dumpExprList (.cons e2 .nil) = dumpExpr e2 from rfl] at h
    obtain ⟨-, ht⟩ := exprAlign h1.1 h2.1 h
    have h3 : (']' :: x : List Char) = ']' :: y := ht
    exact (List.cons.inj h3).2
  | .cons e1 .nil, .cons e2 (.cons e2' es2), x, y, h1, h2, h => by
    rw [dcExprList, Bool.and_eq_true] at h1 h2
    rw [show dumpExprList (.cons e1 .nil) = dumpExpr e1 from rfl] at h
    simp only [dumpExprList, String.data_append, List.append_assoc, List.cons_append,
      List.nil_append] at h
    obtain ⟨-, ht⟩ := exprAlign h1.1 h2.1 h
    exact absurd (List.cons.inj ht).1 (by decide)
  | .cons e1 (.cons e1' es1), .cons e2 .nil, x, y, h1, h2, h => by
    rw [dcExprList, Bool.and_eq_true] at h1 h2
    rw [show dumpExprList (.cons e2 .nil) = dumpExpr e2 from rfl] at h
    simp only [dumpExprList, String.data_append, List.append_assoc, List.cons_append,
      List.nil_append] at h
    obtain ⟨-, ht⟩ := exprAlign h1.1 h2.1 h
    exact absurd (List.cons.inj ht).1 (by decide)
  | .cons e1 (.cons e1' es1), .cons e2 (.cons e2' es2), x, y, h1, h2, h => by
    rw [dcExprList, Bool.and_eq_true] at h1 h2
    simp only [dumpExprList, String.data_append, List.append_assoc, List.cons_append,
      List.nil_append] at h
    obtain ⟨-, ht⟩ := exprAlign h1.1 h2.1 h
    have h4 := (List.cons.inj (List.cons.inj ht).2).2
    exact eListAlign (.cons e1' es1) (.cons e2' es2) x y h1.2 h2.2 h4

theorem argsAlign : ∀ (a1 a2 : List String) (x y : List Char),
    a1.all cleanStr = true → a2.all cleanStr = true →
    (dumpArgs a1).data ++ ']' :: x = (dumpArgs a2).data ++ ']' :: y → x = y
  | [], [], x, y, _, _, h => by
    have h2 : (']' :: x : List Char) = ']' :: y := h
    exact (List.cons.inj h2).2
  | [], a2 :: as2, x, y, _, h2, h => by
    rw [show (dumpArgs []).data = ([] : List Char) from rfl, List.nil_append] at h
    cases as2 with
    | nil =>
      simp only [dumpArgs, reprStr, String.data_append, List.append_assoc] at h
      exact (zipAny_ne_append [']'] ("arg(" : String).data x _ (by decide) h).elim
    | cons a2p as2p =>
      simp only [dumpArgs, reprStr, String.data_append, List.append_assoc] at h
      exact (zipAny_ne_append [']'] ("arg(" : String).data x _ (by decide) h).elim
  | a1 :: as1, [], x, y, h1, _, h => by
    rw [show (dumpArgs []).data = ([] : List Char) from rfl, List.nil_append] at h
    cases as1 with
    | nil =>
      simp only [dumpArgs, reprStr, String.data_append, List.append_assoc] at h
      exact (zipAny_ne_append [']'] ("arg(" : String).data y _ (by decide) h.symm).elim
    | cons a1p as1p =>
      simp only [dumpArgs, reprStr, String.data_append, List.append_assoc] at h
      exact (zipAny_ne_append [']'] ("arg(" : String).data y _ (by decide) h.symm).elim
  | [a1], [a2], x, y, h1, h2, h => by
    rw [List.all_cons, Bool.and_eq_true] at h1 h2
    simp only [dumpArgs, reprStr, String.data_append, List.append_assoc,
      List.cons_append, List.nil_append] at h
    simp only [List.cons.injEq, eq_self_iff_true, true_and] at h
    obtain ⟨-, h⟩ := quote_align _ _ _ _ (noquote_clean h1.1) (noquote_clean h2.1) h
    exact (List.cons.inj (List.cons.inj h).2).2
  | [a1], a2 :: a2p :: as2, x, y, h1, h2, h => by
    rw [List.all_cons, Bool.and_eq_true] at h1 h2
    simp only [dumpArgs, reprStr, String.data_append, List.append_assoc,
      List.cons_append, List.nil_append] at h
    simp only [List.cons.injEq, eq_self_iff_true, true_and] at h
    obtain ⟨-, h⟩ := quote_align _ _ _ _ (noquote_clean h1.1) (noquote_clean h2.1) h
    exact absurd (List.cons.inj (List.cons.inj h).2).1 (by decide)
  | a1 :: a1p :: as1, [a2], x, y, h1, h2, h => by
    rw [List.all_cons, Bool.and_eq_true] at h1 h2
    simp only [dumpArgs, reprStr, String.data_append, List.append_assoc,
      List.cons_append, List.nil_append] at h
    simp only [List.cons.injEq, eq_self_iff_true, true_and] at h
    obtain ⟨-, h⟩ := quote_align _ _ _ _ (noquote_clean h1.1) (noquote_clean h2.1) h
    exact absurd (List.cons.inj (List.cons.inj h).2).1.symm (by decide)
  | a1 :: a1p :: as1, a2 :: a2p :: as2, x, y, h1, h2, h => by
    rw [List.all_cons, Bool.and_eq_true] at h1 h2
    simp only [dumpArgs, reprStr, String.data_append, List.append_assoc,
      List.cons_append, List.nil_append] at h
    simp only [List.cons.injEq, eq_self_iff_true, true_and] at h
    obtain ⟨-, h⟩ := quote_align _ _ _ _ (noquote_clean h1.1) (noquote_clean h2.1) h
    have h4 := (List.cons.inj (List.cons.inj (List.cons.inj h).2).2).2
    exact argsAlign (a1p :: as1) (a2p :: as2) x y h1.2 h2.2 h4

mutual
theorem kindSkel : ∀ (k1 k2 : SKind), dcSKind k1 = true → dcSKind k2 = true →
    (dumpSKind k1).data = (dumpSKind k2).data → skelSKind k1 = skelSKind k2
  | .assign t v, k2, h1, h2, h => by
    have htag := tag_eq_of_dump _ _ h
    cases k2 <;> try (simp only [ktag] at htag; exact absurd htag (by decide))
    rfl
  | .augAssign t op v, k2, h1, h2, h => by
    have htag := tag_eq_of_dump _ _ h
    cases k2 <;> try (simp only [ktag] at htag; exact absurd htag (by decide))
    rfl
  | .exprStmt v, k2, h1, h2, h => by
    have htag := tag_eq_of_dump _ _ h
    cases k2 <;> try (simp only [ktag] at htag; exact absurd htag (by decide))
    rfl
  | .ret v, k2, h1, h2, h => by
    have htag := tag_eq_of_dump _ _ h
    cases k2 <;> try (simp only [ktag] at htag; exact absurd htag (by decide))
    rfl
  | .ifS t b o, k2, h1, h2, h => by
    have htag := tag_eq_of_dump _ _ h
    cases k2 <;> try (simp only [ktag] at htag; exact absurd htag (by decide))
    rename_i t2 b2 o2
    rw [dcSKind] at h1 h2
    simp only [Bool.and_eq_true] at h1 h2
    simp only [dumpSKind, String.data_append, List.append_assoc, List.cons_append,
      List.nil_append] at h
    simp only [List.cons.injEq, eq_self_iff_true, true_and] at h
    obtain ⟨-, h⟩ := exprAlign h1.1 h2.1 h
    simp only [List.cons.injEq, eq_self_iff_true, true_and] at h
    obtain ⟨hB, h⟩ := sListSkel b b2 _ _ h1.2.1 h2.2.1 h
    simp only [List.cons.injEq, eq_self_iff_true, true_and] at h
    obtain ⟨hO, -⟩ := sListSkel o o2 _ _ h1.2.2 h2.2.2 h
    show SkelK.ifS (skelStmts b) (skelStmts o) = SkelK.ifS (skelStmts b2) (skelStmts o2)
    rw [hB, hO]
  | .whileS t b o, k2, h1, h2, h => by
    have htag := tag_eq_of_dump _ _ h
    cases k2 <;> try (simp only [ktag] at htag; exact absurd htag (by decide))
    rename_i t2 b2 o2
    rw [dcSKind] at h1 h2
    simp only [Bool.and_eq_true] at h1 h2
    simp only [dumpSKind, String.data_append, List.append_assoc, List.cons_append,
      List.nil_append] at h
    simp only [List.cons.injEq, eq_self_iff_true, true_and] at h
    obtain ⟨-, h⟩ := exprAlign h1.1 h2.1 h
    simp only [List.cons.injEq, eq_self_iff_true, true_and] at h
    obtain ⟨hB, h⟩ := sListSkel b b2 _ _ h1.2.1 h2.2.1 h
    simp only [List.cons.injEq, eq_self_iff_true, true_and] at h
    obtain ⟨hO, -⟩ := sListSkel o o2 _ _ h1.2.2 h2.2.2 h
    show SkelK.whileS (skelStmts b) (skelStmts o) =
      SkelK.whileS (skelStmts b2) (skelStmts o2)
    rw [hB, hO]
  | .forS t it b o, k2, h1, h2, h => by
    have htag := tag_eq_of_dump _ _ h
    cases k2 <;> try (simp only [ktag] at htag; exact absurd htag (by decide))
    rename_i t2 it2 b2 o2
    rw [dcSKind] at h1 h2
    simp only [Bool.and_eq_true] at h1 h2
    simp only [dumpSKind, String.data_append, List.append_assoc, List.cons_append,
      List.nil_append] at h
    simp only [List.cons.injEq, eq_self_iff_true, true_and] at h
    obtain ⟨-, h⟩ := exprAlign h1.1 h2.1 h
    simp only [List.cons.injEq, eq_self_iff_true, true_and] at h
    obtain ⟨-, h⟩ := exprAlign h1.2.1 h2.2.1 h
    simp only [List.cons.injEq, eq_self_iff_true, true_and] at h
    obtain ⟨hB, h⟩ := sListSkel b b2 _ _ h1.2.2.1 h2.2.2.1 h
    simp only [List.cons.injEq, eq_self_iff_true, true_and] at h
    obtain ⟨hO, -⟩ := sListSkel o o2 _ _ h1.2.2.2 h2.2.2.2 h
    show SkelK.forS (skelStmts b) (skelStmts o) = SkelK.forS (skelStmts b2) (skelStmts o2)
    rw [hB, hO]
  | .withS item b, k2, h1, h2, h => by
    have htag := tag_eq_of_dump _ _ h
    cases k2 <;> try (simp only [ktag] at htag; exact absurd htag (by decide))
    rename_i item2 b2
    rw [dcSKind, Bool.and_eq_true] at h1 h2
    simp only [dumpSKind, String.data_append, List.append_assoc, List.cons_append,
      List.nil_append] at h
    simp only [List.cons.injEq, eq_self_iff_true, true_and] at h
    obtain ⟨-, h⟩ := exprAlign h1.1 h2.1 h
    simp only [List.cons.injEq, eq_self_iff_true, true_and] at h
    obtain ⟨hB, -⟩ := sListSkel b b2 _ _ h1.2 h2.2 h
    show SkelK.withS (skelStmts b) = SkelK.withS (skelStmts b2)
    rw [hB]
  | .funcDef n args b d r, k2, h1, h2, h => by
    have htag := tag_eq_of_dump _ _ h
    cases k2 <;> try (simp only [ktag] at htag; exact absurd htag (by decide))
    rename_i n2 args2 b2 d2 r2
    rw [dcSKind] at h1 h2
    simp only [Bool.and_eq_true] at h1 h2
    simp only [dumpSKind, reprStr, String.data_append, List.append_assoc,
      List.cons_append, List.nil_append] at h
    simp only [List.cons.injEq, eq_self_iff_true, true_and] at h
    obtain ⟨-, h⟩ := quote_align _ _ _ _ (noquote_clean h1.1) (noquote_clean h2.1) h
    simp only [List.cons.injEq, eq_self_iff_true, true_and] at h
    replace h := argsAlign args args2 _ _ h1.2.1 h2.2.1 h
    simp only [List.cons.injEq, eq_self_iff_true, true_and] at h
    obtain ⟨hB, -⟩ := sListSkel b b2 _ _ h1.2.2.1 h2.2.2.1 h
    show SkelK.funcDef (skelStmts b) = SkelK.funcDef (skelStmts b2)
    rw [hB]
  | .asyncFuncDef n args b d r, k2, h1, h2, h => by
    have htag := tag_eq_of_dump _ _ h
    cases k2 <;> try (simp only [ktag] at htag; exact absurd htag (by decide))
    rename_i n2 args2 b2 d2 r2
    rw [dcSKind] at h1 h2
    simp only [Bool.and_eq_true] at h1 h2
    simp only [dumpSKind, reprStr, String.data_append, List.append_assoc,
      List.cons_append, List.nil_append] at h
    simp only [List.cons.injEq, eq_self_iff_true, true_and] at h
    obtain ⟨-, h⟩ := quote_align _ _ _ _ (noquote_clean h1.1) (noquote_clean h2.1) h
    simp only [List.cons.injEq, eq_self_iff_true, true_and] at h
    replace h := argsAlign args args2 _ _ h1.2.1 h2.2.1 h
    simp only [List.cons.injEq, eq_self_iff_true, true_and] at h
    obtain ⟨hB, -⟩ := sListSkel b b2 _ _ h1.2.2.1 h2.2.2.1 h
    show SkelK.asyncFuncDef (skelStmts b) = SkelK.asyncFuncDef (skelStmts b2)
    rw [hB]
  | .classDef n bases b d, k2, h1, h2, h => by
    have htag := tag_eq_of_dump _ _ h
    cases k2 <;> try (simp only [ktag] at htag; exact absurd htag (by decide))
    rename_i n2 bases2 b2 d2
    rw [dcSKind] at h1 h2
    simp only [Bool.and_eq_true] at h1 h2
    simp only [dumpSKind, reprStr, String.data_append, List.append_assoc,
      List.cons_append, List.nil_append] at h
    simp only [List.cons.injEq, eq_self_iff_true, true_and] at h
    obtain ⟨-, h⟩ := quote_align _ _ _ _ (noquote_clean h1.1) (noquote_clean h2.1) h
    simp only [List.cons.injEq, eq_self_iff_true, true_and] at h
    replace h := eListAlign bases bases2 _ _ h1.2.1 h2.2.1 h
    simp only [List.cons.injEq, eq_self_iff_true, true_and] at h
    obtain ⟨hB, -⟩ := sListSkel b b2 _ _ h1.2.2.1 h2.2.2.1 h
    show SkelK.classDef (skelStmts b) = SkelK.classDef (skelStmts b2)
    rw [hB]
  | .tryS b hs o f, k2, h1, h2, h => by
    have htag := tag_eq_of_dump _ _ h
    cases k2 <;> try (simp only [ktag] at htag; exact absurd htag (by decide))
    rename_i b2 hs2 o2 f2
    rw [dcSKind] at h1 h2
    simp only [Bool.and_eq_true] at h1 h2
    simp only [dumpSKind, String.data_append, List.append_assoc, List.cons_append,
      List.nil_append] at h
    simp only [List.cons.injEq, eq_self_iff_true, true_and] at h
    obtain ⟨hB, h⟩ := sListSkel b b2 _ _ h1.1 h2.1 h
    simp only [List.cons.injEq, eq_self_iff_true, true_and] at h
    obtain ⟨hH, h⟩ := hListSkel hs hs2 _ _ h1.2.1 h2.2.1 h
    simp only [List.cons.injEq, eq_self_iff_true, true_and] at h
    obtain ⟨hO, h⟩ := sListSkel o o2 _ _ h1.2.2.1 h2.2.2.1 h
    simp only [List.cons.injEq, eq_self_iff_true, true_and] at h
    obtain ⟨hF, -⟩ := sListSkel f f2 _ _ h1.2.2.2 h2.2.2.2 h
    show SkelK.tryS (skelStmts b) (skelHandlers hs) (skelStmts o) (skelStmts f) =
      SkelK.tryS (skelStmts b2) (skelHandlers hs2) (skelStmts o2) (skelStmts f2)
    rw [hB, hH, hO, hF]
  | .pass, k2, h1, h2, h => by
    have htag := tag_eq_of_dump _ _ h
    cases k2 <;> try (simp only [ktag] at htag; exact absurd htag (by decide))
    rfl
  | .breakS, k2, h1, h2, h => by
    have htag := tag_eq_of_dump _ _ h
    cases k2 <;> try (simp only [ktag] at htag; exact absurd htag (by decide))
    rfl
  | .continueS, k2, h1, h2, h => by
    have htag := tag_eq_of_dump _ _ h
    cases k2 <;> try (simp only [ktag] at htag; exact absurd htag (by decide))
    rfl
theorem stmtSkel : ∀ (s1 s2 : Stmt), dcStmt s1 = true → dcStmt s2 = true →
    (dumpStmt s1).data = (dumpStmt s2).data → skelStmt s1 = skelStmt s2
  | .mk l1 e1 k1, .mk l2 e2 k2, h1, h2, h => kindSkel k1 k2 h1 h2 h
theorem sListSkel : ∀ (L1 L2 : StmtList) (x y : List Char),
    dcStmts L1 = true → dcStmts L2 = true →
    (dumpStmtList L1).data ++ ']' :: x = (dumpStmtList L2).data ++ ']' :: y →
    skelStmts L1 = skelStmts L2 ∧ x = y
  | .nil, .nil, x, y, _, _, h => by
    have h2 : (']' :: x : List Char) = ']' :: y := h
    exact ⟨rfl, (List.cons.inj h2).2⟩
  | .nil, .cons s2 .nil, x, y, _, h2, h => by
    rw [show (dumpStmtList .nil).data = ([] : List Char) from rfl, List.nil_append,
      show dumpStmtList (.cons s2 .nil) = dumpStmt s2 from rfl] at h
    exact absurd h (dumpStmt_ne_close s2 _ x)
  | .nil, .cons s2 (.cons s2p ss2), x, y, _, h2, h => by
    rw [show (dumpStmtList .nil).data = ([] : List Char) from rfl, List.nil_append] at h
    simp only [dumpStmtList, String.data_append, List.append_assoc, List.cons_append,
      List.nil_append] at h
    exact absurd h (dumpStmt_ne_close s2 _ x)
  | .cons s1 .nil, .nil, x, y, h1, _, h => by
    rw [show (dumpStmtList .nil).data = ([] : List Char) from rfl, List.nil_append,
      show dumpStmtList (.cons s1 .nil) = dumpStmt s1 from rfl] at h
    exact absurd h.symm (dumpStmt_ne_close s1 _ y)
  | .cons s1 (.cons s1p ss1), .nil, x, y, h1, _, h => by
    rw [show (dumpStmtList .nil).data = ([] : List Char) from rfl, List.nil_append] at h
    simp only [dumpStmtList, String.data_append, List.append_assoc, List.cons_append,
      List.nil_append] at h
    exact absurd h.symm (dumpStmt_ne_close s1 _ y)
  | .cons s1 .nil, .cons s2 .nil, x, y, h1, h2, h => by
    rw [dcStmts, Bool.and_eq_true] at h1 h2
    rw [show dumpStmtList (.cons s1 .nil) = dumpStmt s1 from rfl,
      show dumpStmtList (.cons s2 .nil) = dumpStmt s2 from rfl] at h
    obtain ⟨hd, ht⟩ := tokA_align _ _ _ _ (tokStmt s1 h1.1) (tokStmt s2 h2.1) h
    have h3 : (']' :: x : List Char) = ']' :: y := ht
    have hs := stmtSkel s1 s2 h1.1 h2.1 hd
    refine ⟨?_, (List.cons.inj h3).2⟩
    show SkelList.cons (skelStmt s1) .nil = SkelList.cons (skelStmt s2) .nil
    rw [hs]
  | .cons s1 .nil, .cons s2 (.cons s2p ss2), x, y, h1, h2, h => by
    rw [dcStmts, Bool.and_eq_true] at h1 h2
    rw [show dumpStmtList (.cons s1 .nil) = dumpStmt s1 from rfl] at h
    simp only [dumpStmtList, String.data_append, List.append_assoc, List.cons_append,
      List.nil_append] at h
    obtain ⟨-, ht⟩ := tokA_align _ _ _ _ (tokStmt s1 h1.1) (tokStmt s2 h2.1) h
    exact absurd (List.cons.inj ht).1 (by decide)
  | .cons s1 (.cons s1p ss1), .cons s2 .nil, x, y, h1, h2, h => by
    rw [dcStmts, Bool.and_eq_true] at h1 h2
    rw [show dumpStmtList (.cons s2 .nil) = dumpStmt s2 from rfl] at h
    simp only [dumpStmtList, String.data_append, List.append_assoc, List.cons_append,
      List.nil_append] at h
    obtain ⟨-, ht⟩ := tokA_align _ _ _ _ (tokStmt s1 h1.1) (tokStmt s2 h2.1) h
    exact absurd (List.cons.inj ht).1 (by decide)
  | .cons s1 (.cons s1p ss1), .cons s2 (.cons s2p ss2), x, y, h1, h2, h => by
    rw [dcStmts, Bool.and_eq_true] at h1 h2
    simp only [dumpStmtList, String.data_append, List.append_assoc, List.cons_append,
      List.nil_append] at h
    obtain ⟨hd, ht⟩ := tokA_align _ _ _ _ (tokStmt s1 h1.1) (tokStmt s2 h2.1) h
    have h4 := (List.cons.inj (List.cons.inj ht).2).2
    obtain ⟨hsk, hxy⟩ := sListSkel (.cons s1p ss1) (.cons s2p ss2) x y h1.2 h2.2 h4
    have hs := stmtSkel s1 s2 h1.1 h2.1 hd
    refine ⟨?_, hxy⟩
    show SkelList.cons (skelStmt s1) (skelStmts (.cons s1p ss1)) =
      SkelList.cons (skelStmt s2) (skelStmts (.cons s2p ss2))
    rw [hs, hsk]
theorem hListSkel : ∀ (H1 H2 : HandlerList) (x y : List Char),
    dcHandlers H1 = true → dcHandlers H2 = true →
    (dumpHandlers H1).data ++ ']' :: x = (dumpHandlers H2).data ++ ']' :: y →
    skelHandlers H1 = skelHandlers H2 ∧ x = y
  | .nil, .nil, x, y, _, _, h => by
    have h2 : (']' :: x : List Char) = ']' :: y := h
    exact ⟨rfl, (List.cons.inj h2).2⟩
  | .nil, .cons b2 .nil, x, y, _, h2, h => by
    rw [show (dumpHandlers .nil).data = ([] : List Char) from rfl, List.nil_append] at h
    simp only [dumpHandlers, String.data_append, List.append_assoc, List.cons_append,
      List.nil_append] at h
    exact absurd (List.cons.inj h).1 (by decide)
  | .nil, .cons b2 (.cons b2p hs2), x, y, _, h2, h => by
    rw [show (dumpHandlers .nil).data = ([] : List Char) from rfl, List.nil_append] at h
    simp only [dumpHandlers, String.data_append, List.append_assoc, List.cons_append,
      List.nil_append] at h
    exact absurd (List.cons.inj h).1 (by decide)
  | .cons b1 .nil, .nil, x, y, h1, _, h => by
    rw [show (dumpHandlers .nil).data = ([] : List Char) from rfl, List.nil_append] at h
    simp only [dumpHandlers, String.data_append, List.append_assoc, List.cons_append,
      List.nil_append] at h
    exact absurd (List.cons.inj h.symm).1 (by decide)
  | .cons b1 (.cons b1p hs1), .nil, x, y, h1, _, h => by
    rw [show (dumpHandlers .nil).data = ([] : List Char) from rfl, List.nil_append] at h
    simp only [dumpHandlers, String.data_append, List.append_assoc, List.cons_append,
      List.nil_append] at h
    exact absurd (List.cons.inj h.symm).1 (by decide)
  | .cons b1 .nil, .cons b2 .nil, x, y, h1, h2, h => by
    rw [dcHandlers, Bool.and_eq_true] at h1 h2
    simp only [dumpHandlers, String.data_append, List.append_assoc, List.cons_append,
      List.nil_append] at h
    simp only [List.cons.injEq, eq_self_iff_true, true_and] at h
    obtain ⟨hB, ht⟩ := sListSkel b1 b2 _ _ h1.1 h2.1 h
    refine ⟨?_, (List.cons.inj (List.cons.inj ht).2).2⟩
    show SkelHandlers.cons (skelStmts b1) .nil = SkelHandlers.cons (skelStmts b2) .nil
    rw [hB]
  | .cons b1 .nil, .cons b2 (.cons b2p hs2), x, y, h1, h2, h => by
    rw [dcHandlers, Bool.and_eq_true] at h1 h2
    simp only [dumpHandlers, String.data_append, List.append_assoc, List.cons_append,
      List.nil_append] at h
    simp only [List.cons.injEq, eq_self_iff_true, true_and] at h
    obtain ⟨-, ht⟩ := sListSkel b1 b2 _ _ h1.1 h2.1 h
    exact absurd (List.cons.inj (List.cons.inj ht).2).1 (by decide)
  | .cons b1 (.cons b1p hs1), .cons b2 .nil, x, y, h1, h2, h => by
    rw [dcHandlers, Bool.and_eq_true] at h1 h2
    simp only [dumpHandlers, String.data_append, List.append_assoc, List.cons_append,
      List.nil_append] at h
    simp only [List.cons.injEq, eq_self_iff_true, true_and] at h
    obtain ⟨-, ht⟩ := sListSkel b1 b2 _ _ h1.1 h2.1 h
    exact absurd (List.cons.inj (List.cons.inj ht).2).1.symm (by decide)
  | .cons b1 (.cons b1p hs1), .cons b2 (.cons b2p hs2), x, y, h1, h2, h => by
    rw [dcHandlers, Bool.and_eq_true] at h1 h2
    simp only [dumpHandlers, String.data_append, List.append_assoc, List.cons_append,
      List.nil_append] at h
    simp only [List.cons.injEq, eq_self_iff_true, true_and] at h
    obtain ⟨hB, ht⟩ := sListSkel b1 b2 _ _ h1.1 h2.1 h
    have h4 := (List.cons.inj (List.cons.inj (List.cons.inj ht).2).2).2
    obtain ⟨hsk, hxy⟩ := hListSkel (.cons b1p hs1) (.cons b2p hs2) x y h1.2 h2.2 h4
    refine ⟨?_, hxy⟩
    show SkelHandlers.cons (skelStmts b1) (skelHandlers (.cons b1p hs1)) =
      SkelHandlers.cons (skelStmts b2) (skelHandlers (.cons b2p hs2))
    rw [hB, hsk]
end

/-- Claim C4, counterexample: the sequences `x = 1; y = 2` and
`y = 2; x = 1` differ in statement order (they are distinct reorderings of
the same two statements), yet `canonical_block_dump` gives them
byte-identical dumps and hence identical SHA-256 hashes, because the
reordering amounts to a consistent renaming. -/
theorem C4_counterexample :
    canonical_block_dump [sC4a, sC4b] = canonical_block_dump [sC4b, sC4a] ∧
    ([sC4a, sC4b] : List Stmt) ≠ [sC4b, sC4a] := by
  constructor
  · have hdump : dumpModule (canonStmtList (StmtList.ofList [sC4a, sC4b]) initState).1 =
        dumpModule (canonStmtList (StmtList.ofList [sC4b, sC4a]) initState).1 := by
      decide
    exact congrArg (fun d => (sha256hex d, d)) hdump
  · decide

mutual
theorem canonSKind_skel : ∀ (k : SKind) (st : CState),
    skelSKind (canonSKind k st).1 = skelSKind k
  | .assign t v, st => rfl
  | .augAssign t op v, st => rfl
  | .exprStmt v, st => rfl
  | .ret v, st => rfl
  | .ifS t b o, st => by
    simp only [canonSKind, skelSKind]
    rw [canonStmtList_skel, canonStmtList_skel]
  | .whileS t b o, st => by
    simp only [canonSKind, skelSKind]
    rw [canonStmtList_skel, canonStmtList_skel]
  | .forS t it b o, st => by
    simp only [canonSKind, skelSKind]
    rw [canonStmtList_skel, canonStmtList_skel]
  | .withS item b, st => by
    simp only [canonSKind, skelSKind]
    rw [canonStmtList_skel]
  | .funcDef n args b d r, st => by
    simp only [canonSKind, skelSKind]
    rw [canonStmtList_skel]
  | .asyncFuncDef n args b d r, st => by
    simp only [canonSKind, skelSKind]
    rw [canonStmtList_skel]
  | .classDef n bases b d, st => by
    simp only [canonSKind, skelSKind]
    rw [canonStmtList_skel]
  | .tryS b hs o f, st => by
    simp only [canonSKind, skelSKind]
    rw [canonStmtList_skel, canonHandlers_skel, canonStmtList_skel, canonStmtList_skel]
  | .pass, st => rfl
  | .breakS, st => rfl
  | .continueS, st => rfl
theorem canonStmt_skel : ∀ (s : Stmt) (st : CState),
    skelStmt (canonStmt s st).1 = skelStmt s
  | .mk l e k, st => by
    simp only [canonStmt, skelStmt]
    rw [canonSKind_skel]
theorem canonStmtList_skel : ∀ (L : StmtList) (st : CState),
    skelStmts (canonStmtList L st).1 = skelStmts L
  | .nil, st => rfl
  | .cons s ss, st => by
    simp only [canonStmtList, skelStmts]
    rw [canonStmt_skel, canonStmtList_skel]
theorem canonHandlers_skel : ∀ (H : HandlerList) (st : CState),
    skelHandlers (canonHandlers H st).1 = skelHandlers H
  | .nil, st => rfl
  | .cons b hs, st => by
    simp only [canonHandlers, skelHandlers]
    rw [canonStmtList_skel, canonHandlers_skel]
end

theorem placeholder_clean (p : String) (hp : cleanStr p = true) (n : Nat) :
    cleanStr (p ++ natDecimal n) = true :=
  cleanStr_append hp (natDecimal_clean n)

theorem map_name_clean {st : CState} {x : String} (h : cleanVals st) :
    cleanStr (map_name st x).1 = true ∧ cleanVals (map_name st x).2 := by
  unfold map_name
  cases hl : alookup st.name_map x with
  | some p => exact ⟨h.1 (x, p) (alookup_some_mem _ _ _ hl), h⟩
  | none =>
    refine ⟨placeholder_clean "_N" (by decide) _, ?_, h.2⟩
    intro p hp
    rcases List.mem_append.mp hp with hp1 | hp2
    · exact h.1 p hp1
    · rw [List.mem_singleton] at hp2
      subst hp2
      exact placeholder_clean "_N" (by decide) _

theorem map_attr_clean {st : CState} {a : String} (h : cleanVals st) :
    cleanStr (map_attr st a).1 = true ∧ cleanVals (map_attr st a).2 := by
  unfold map_attr
  cases hl : alookup st.name_map ("attr::" ++ a) with
  | some p => exact ⟨h.1 ("attr::" ++ a, p) (alookup_some_mem _ _ _ hl), h⟩
  | none =>
    refine ⟨placeholder_clean "_A" (by decide) _, ?_, h.2⟩
    intro p hp
    rcases List.mem_append.mp hp with hp1 | hp2
    · exact h.1 p hp1
    · rw [List.mem_singleton] at hp2
      subst hp2
      exact placeholder_clean "_A" (by decide) _

theorem map_const_clean {st : CState} {v : PyVal} (h : cleanVals st) :
    cleanStr (map_const st v).1 = true ∧ cleanVals (map_const st v).2 := by
  unfold map_const
  cases hl : alookup st.const_map (pyRepr v) with
  | some p => exact ⟨h.2 (pyRepr v, p) (alookup_some_mem _ _ _ hl), h⟩
  | none =>
    refine ⟨placeholder_clean "_C" (by decide) _, h.1, ?_⟩
    intro p hp
    rcases List.mem_append.mp hp with hp1 | hp2
    · exact h.2 p hp1
    · rw [List.mem_singleton] at hp2
      subst hp2
      exact placeholder_clean "_C" (by decide) _

mutual
theorem canonExpr_dc : ∀ (e : Expr) (st : CState), opkwExpr e = true → cleanVals st →
    dcExpr (canonExpr e st).1 = true ∧ cleanVals (canonExpr e st).2
  | .name id ctx, st, hv, hc => by
    simp only [canonExpr, dcExpr]
    exact map_name_clean hc
  | .attribute v a ctx, st, hv, hc => by
    rw [opkwExpr] at hv
    obtain ⟨h1, h2⟩ := canonExpr_dc v st hv hc
    obtain ⟨g1, g2⟩ := map_attr_clean (a := a) h2
    simp only [canonExpr, dcExpr]
    rw [Bool.and_eq_true]
    exact ⟨⟨h1, g1⟩, g2⟩
  | .const v, st, hv, hc => by
    simp only [canonExpr, dcExpr, cleanVal]
    exact map_const_clean hc
  | .call f args kws, st, hv, hc => by
    rw [opkwExpr] at hv
    simp only [Bool.and_eq_true] at hv
    obtain ⟨h1, h2⟩ := canonExpr_dc f st hv.1 hc
    obtain ⟨g1, g2⟩ := canonExprList_dc args _ hv.2.1 h2
    obtain ⟨k1, k2⟩ := canonKwList_dc kws _ hv.2.2 g2
    simp only [canonExpr, dcExpr]
    simp only [Bool.and_eq_true]
    exact ⟨⟨h1, g1, k1⟩, k2⟩
  | .binOp l op r, st, hv, hc => by
    rw [opkwExpr] at hv
    simp only [Bool.and_eq_true] at hv
    obtain ⟨h1, h2⟩ := canonExpr_dc l st hv.1 hc
    obtain ⟨g1, g2⟩ := canonExpr_dc r _ hv.2.2 h2
    simp only [canonExpr, dcExpr]
    simp only [Bool.and_eq_true]
    exact ⟨⟨h1, hv.2.1, g1⟩, g2⟩
theorem canonExprList_dc : ∀ (es : ExprList) (st : CState), opkwExprList es = true →
    cleanVals st →
    dcExprList (canonExprList es st).1 = true ∧ cleanVals (canonExprList es st).2
  | .nil, st, _, hc => ⟨rfl, hc⟩
  | .cons e es, st, hv, hc => by
    rw [opkwExprList] at hv
    simp only [Bool.and_eq_true] at hv
    obtain ⟨h1, h2⟩ := canonExpr_dc e st hv.1 hc
    obtain ⟨g1, g2⟩ := canonExprList_dc es _ hv.2 h2
    simp only [canonExprList, dcExprList]
    simp only [Bool.and_eq_true]
    exact ⟨⟨h1, g1⟩, g2⟩
theorem canonKwList_dc : ∀ (ks : KwList) (st : CState), opkwKwList ks = true →
    cleanVals st →
    dcKwList (canonKwList ks st).1 = true ∧ cleanVals (canonKwList ks st).2
  | .nil, st, _, hc => ⟨rfl, hc⟩
  | .cons a v ks, st, hv, hc => by
    rw [opkwKwList] at hv
    simp only [Bool.and_eq_true] at hv
    obtain ⟨h1, h2⟩ := canonExpr_dc v st hv.2.1 hc
    obtain ⟨g1, g2⟩ := canonKwList_dc ks _ hv.2.2 h2
    simp only [canonKwList, dcKwList]
    simp only [Bool.and_eq_true]
    exact ⟨⟨hv.1, h1, g1⟩, g2⟩
end

theorem canonOptExpr_dc : ∀ (e : Option Expr) (st : CState), opkwOptExpr e = true →
    cleanVals st →
    dcOptExpr (canonOptExpr e st).1 = true ∧ cleanVals (canonOptExpr e st).2
  | Option.none, st, _, hc => ⟨rfl, hc⟩
  | some e, st, hv, hc => by
    rw [opkwOptExpr] at hv
    obtain ⟨h1, h2⟩ := canonExpr_dc e st hv hc
    simp only [canonOptExpr, dcOptExpr]
    exact ⟨h1, h2⟩

theorem canonArgs_dc : ∀ (args : List String) (st : CState), cleanVals st →
    (canonArgs args st).1.all cleanStr = true ∧ cleanVals (canonArgs args st).2
  | [], st, hc => ⟨rfl, hc⟩
  | a :: as, st, hc => by
    obtain ⟨h1, h2⟩ := map_name_clean (x := a) hc
    obtain ⟨g1, g2⟩ := canonArgs_dc as _ h2
    simp only [canonArgs]
    refine ⟨?_, g2⟩
    rw [List.all_cons, Bool.and_eq_true]
    exact ⟨h1, g1⟩

mutual
theorem canonStmt_dc : ∀ (s : Stmt) (st : CState), opkwStmt s = true → cleanVals st →
    dcStmt (canonStmt s st).1 = true ∧ cleanVals (canonStmt s st).2
  | .mk l e k, st, hv, hc => by
    rw [opkwStmt] at hv
    obtain ⟨h1, h2⟩ := canonSKind_dc k st hv hc
    simp only [canonStmt, dcStmt]
    exact ⟨h1, h2⟩
theorem canonSKind_dc : ∀ (k : SKind) (st : CState), opkwSKind k = true → cleanVals st →
    dcSKind (canonSKind k st).1 = true ∧ cleanVals (canonSKind k st).2
  | .assign t v, st, hv, hc => by
    rw [opkwSKind] at hv
    simp only [Bool.and_eq_true] at hv
    obtain ⟨h1, h2⟩ := canonExpr_dc t st hv.1 hc
    obtain ⟨g1, g2⟩ := canonExpr_dc v _ hv.2 h2
    simp only [canonSKind, dcSKind]
    simp only [Bool.and_eq_true]
    exact ⟨⟨h1, g1⟩, g2⟩
  | .augAssign t op v, st, hv, hc => by
    rw [opkwSKind] at hv
    simp only [Bool.and_eq_true] at hv
    obtain ⟨h1, h2⟩ := canonExpr_dc t st hv.1 hc
    obtain ⟨g1, g2⟩ := canonExpr_dc v _ hv.2.2 h2
    simp only [canonSKind, dcSKind]
    simp only [Bool.and_eq_true]
    exact ⟨⟨h1, hv.2.1, g1⟩, g2⟩
  | .exprStmt v, st, hv, hc => by
    rw [opkwSKind] at hv
    obtain ⟨h1, h2⟩ := canonExpr_dc v st hv hc
    simp only [canonSKind, dcSKind]
    exact ⟨h1, h2⟩
  | .ret v, st, hv, hc => by
    rw [opkwSKind] at hv
    obtain ⟨h1, h2⟩ := canonOptExpr_dc v st hv hc
    simp only [canonSKind, dcSKind]
    exact ⟨h1, h2⟩
  | .ifS t b o, st, hv, hc => by
    rw [opkwSKind] at hv
    simp only [Bool.and_eq_true] at hv
    obtain ⟨h1, h2⟩ := canonExpr_dc t st hv.1 hc
    obtain ⟨g1, g2⟩ := canonStmtList_dc b _ hv.2.1 h2
    obtain ⟨k1, k2⟩ := canonStmtList_dc o _ hv.2.2 g2
    simp only [canonSKind, dcSKind]
    simp only [Bool.and_eq_true]
    exact ⟨⟨h1, g1, k1⟩, k2⟩
  | .whileS t b o, st, hv, hc => by
    rw [opkwSKind] at hv
    simp only [Bool.and_eq_true] at hv
    obtain ⟨h1, h2⟩ := canonExpr_dc t st hv.1 hc
    obtain ⟨g1, g2⟩ := canonStmtList_dc b _ hv.2.1 h2
    obtain ⟨k1, k2⟩ := canonStmtList_dc o _ hv.2.2 g2
    simp only [canonSKind, dcSKind]
    simp only [Bool.and_eq_true]
    exact ⟨⟨h1, g1, k1⟩, k2⟩
  | .forS t it b o, st, hv, hc => by
    rw [opkwSKind] at hv
    simp only [Bool.and_eq_true] at hv
    obtain ⟨h1, h2⟩ := canonExpr_dc t st hv.1 hc
    obtain ⟨i1, i2⟩ := canonExpr_dc it _ hv.2.1 h2
    obtain ⟨g1, g2⟩ := canonStmtList_dc b _ hv.2.2.1 i2
    obtain ⟨k1, k2⟩ := canonStmtList_dc o _ hv.2.2.2 g2
    simp only [canonSKind, dcSKind]
    simp only [Bool.and_eq_true]
    exact ⟨⟨h1, i1, g1, k1⟩, k2⟩
  | .withS item b, st, hv, hc => by
    rw [opkwSKind] at hv
    simp only [Bool.and_eq_true] at hv
    obtain ⟨h1, h2⟩ := canonExpr_dc item st hv.1 hc
    obtain ⟨g1, g2⟩ := canonStmtList_dc b _ hv.2 h2
    simp only [canonSKind, dcSKind]
    simp only [Bool.and_eq_true]
    exact ⟨⟨h1, g1⟩, g2⟩
  | .funcDef n args b d r, st, hv, hc => by
    rw [opkwSKind] at hv
    simp only [Bool.and_eq_true] at hv
    obtain ⟨a1, a2⟩ := canonArgs_dc args st hc
    obtain ⟨g1, g2⟩ := canonStmtList_dc b _ hv.1 a2
    obtain ⟨d1, d2⟩ := canonExprList_dc d _ hv.2.1 g2
    obtain ⟨r1, r2⟩ := canonOptExpr_dc r _ hv.2.2 d2
    simp only [canonSKind, dcSKind]
    simp only [Bool.and_eq_true]
    exact ⟨⟨by decide, a1, g1, rfl, rfl⟩, r2⟩
  | .asyncFuncDef n args b d r, st, hv, hc => by
    rw [opkwSKind] at hv
    simp only [Bool.and_eq_true] at hv
    obtain ⟨a1, a2⟩ := canonArgs_dc args st hc
    obtain ⟨g1, g2⟩ := canonStmtList_dc b _ hv.2.1 a2
    obtain ⟨d1, d2⟩ := canonExprList_dc d _ hv.2.2.1 g2
    obtain ⟨r1, r2⟩ := canonOptExpr_dc r _ hv.2.2.2 d2
    simp only [canonSKind, dcSKind]
    simp only [Bool.and_eq_true]
    exact ⟨⟨hv.1, a1, g1, d1, r1⟩, r2⟩
  | .classDef n bases b d, st, hv, hc => by
    rw [opkwSKind] at hv
    simp only [Bool.and_eq_true] at hv
    obtain ⟨bs1, bs2⟩ := canonExprList_dc bases st hv.1 hc
    obtain ⟨g1, g2⟩ := canonStmtList_dc b _ hv.2.1 bs2
    obtain ⟨d1, d2⟩ := canonExprList_dc d _ hv.2.2 g2
    simp only [canonSKind, dcSKind]
    simp only [Bool.and_eq_true]
    exact ⟨⟨by decide, rfl, g1, rfl⟩, d2⟩
  | .tryS b hs o f, st, hv, hc => by
    rw [opkwSKind] at hv
    simp only [Bool.and_eq_true] at hv
    obtain ⟨h1, h2⟩ := canonStmtList_dc b st hv.1 hc
    obtain ⟨g1, g2⟩ := canonHandlers_dc hs _ hv.2.1 h2
    obtain ⟨k1, k2⟩ := canonStmtList_dc o _ hv.2.2.1 g2
    obtain ⟨f1, f2⟩ := canonStmtList_dc f _ hv.2.2.2 k2
    simp only [canonSKind, dcSKind]
    simp only [Bool.and_eq_true]
    exact ⟨⟨h1, g1, k1, f1⟩, f2⟩
  | .pass, st, _, hc => ⟨rfl, hc⟩
  | .breakS, st, _, hc => ⟨rfl, hc⟩
  | .continueS, st, _, hc => ⟨rfl, hc⟩
theorem canonStmtList_dc : ∀ (L : StmtList) (st : CState), opkwStmts L = true →
    cleanVals st →
    dcStmts (canonStmtList L st).1 = true ∧ cleanVals (canonStmtList L st).2
  | .nil, st, _, hc => ⟨rfl, hc⟩
  | .cons s ss, st, hv, hc => by
    rw [opkwStmts] at hv
    simp only [Bool.and_eq_true] at hv
    obtain ⟨h1, h2⟩ := canonStmt_dc s st hv.1 hc
    obtain ⟨g1, g2⟩ := canonStmtList_dc ss _ hv.2 h2
    simp only [canonStmtList, dcStmts]
    simp only [Bool.and_eq_true]
    exact ⟨⟨h1, g1⟩, g2⟩
theorem canonHandlers_dc : ∀ (H : HandlerList) (st : CState), opkwHandlers H = true →
    cleanVals st →
    dcHandlers (canonHandlers H st).1 = true ∧ cleanVals (canonHandlers H st).2
  | .nil, st, _, hc => ⟨rfl, hc⟩
  | .cons b hs, st, hv, hc => by
    rw [opkwHandlers] at hv
    simp only [Bool.and_eq_true] at hv
    obtain ⟨h1, h2⟩ := canonStmtList_dc b st hv.1 hc
    obtain ⟨g1, g2⟩ := canonHandlers_dc hs _ hv.2 h2
    simp only [canonHandlers, dcHandlers]
    simp only [Bool.and_eq_true]
    exact ⟨⟨h1, g1⟩, g2⟩
end

theorem cleanVals_init : cleanVals initState :=
  ⟨fun p hp => absurd hp (List.not_mem_nil p), fun p hp => absurd hp (List.not_mem_nil p)⟩

/-- Claim C4 as amended: differing statement *order* does not in general
change the hash (see the counterexample: a reordering can be a consistent
renaming), but statement *kind* and *nesting structure* survive
canonicalization in full: whenever two statement sequences differ in their
statement-kind skeletons — the trees of statement kinds including every
nested body, handler, else and finally block, at any position or depth —
they canonicalize to different dump strings, so their grouping hashes can
only coincide under a SHA-256 collision.  The only proviso is that operator
class names, keyword-argument names and `async def` names contain no
parenthesis or quote characters, which holds for every Python program. -/
theorem C4_theorem (l1 l2 : List Stmt)
    (hc1 : opkwStmts (StmtList.ofList l1) = true)
    (hc2 : opkwStmts (StmtList.ofList l2) = true)
    (hsk : skelStmts (StmtList.ofList l1) ≠ skelStmts (StmtList.ofList l2)) :
    (canonical_block_dump l1).2 ≠ (canonical_block_dump l2).2 := by
  intro heq
  rw [cbd_snd, cbd_snd] at heq
  unfold dumpModule at heq
  have hdata := congrArg String.data heq
  simp only [String.data_append, List.append_assoc, List.cons_append,
    List.nil_append] at hdata
  simp only [List.cons.injEq, eq_self_iff_true, true_and] at hdata
  obtain ⟨hd1, -⟩ := canonStmtList_dc (StmtList.ofList l1) initState hc1 cleanVals_init
  obtain ⟨hd2, -⟩ := canonStmtList_dc (StmtList.ofList l2) initState hc2 cleanVals_init
  obtain ⟨hskel, -⟩ := sListSkel _ _ _ _ hd1 hd2 hdata
  rw [canonStmtList_skel, canonStmtList_skel] at hskel
  exact hsk hskel

/-- Witness for C4 at concrete statements of different kinds (`pass` versus
an assignment). -/
theorem C4_witness :
    (canonical_block_dump [Stmt.mk (some 1) (some 1) .pass]).2 ≠
      (canonical_block_dump [sC4a]).2 :=
  C4_theorem [Stmt.mk (some 1) (some 1) .pass] [sC4a] (by decide) (by decide)
    (by decide)

/-! ## Claim C9: sliding-window emission of `_walk_body` -/

theorem visitStmts_simple : ∀ (B : StmtList) (minl maxl : Int) (m : SeqMap),
    allSimple B = true → visitStmts minl maxl B m = .ok m
  | .nil, _, _, _, _ => rfl
  | .cons (Stmt.mk l e k) ss, minl, maxl, m, hs => by
    rw [allSimple, Bool.and_eq_true] at hs
    have hstep : visitStmt minl maxl (Stmt.mk l e k) m = .ok m := by
      cases k <;> first
        | rfl
        | simp [simpleKind] at hs
    rw [visitStmts, hstep]
    show visitStmts minl maxl ss m = .ok m
    exact visitStmts_simple ss minl maxl m hs.2

/-- Claim C10: `BodyWalker` defines body-walking visits for modules,
synchronous function definitions, branch/loop/with statements and try
statements, but not for `AsyncFunctionDef`.  Visiting an async function
definition therefore only generic-visits its child statements — the body
list itself is never passed to `_walk_body` — so a block-free async body
contributes no candidate window at all, while the same body under a
synchronous `def` is windowed; block-bearing statements nested inside an
async body are still reached and windowed exactly as if visited directly. -/
theorem C10_theorem :
    (∀ (minl maxl : Int) (name : String) (args : List String) (B : StmtList)
      (d : ExprList) (r : Option Expr) (m : SeqMap),
      visitSKind minl maxl (.asyncFuncDef name args B d r) m =
        visitStmts minl maxl B m) ∧
    (∀ (minl maxl : Int) (name : String) (args : List String) (B : StmtList)
      (d : ExprList) (r : Option Expr) (m : SeqMap),
      visitSKind minl maxl (.funcDef name args B d r) m =
        (walk_body minl maxl B.toList m).bind (visitStmts minl maxl B)) ∧
    (∀ (minl maxl : Int) (name : String) (args : List String) (B : StmtList)
      (d : ExprList) (r : Option Expr) (m : SeqMap), allSimple B = true →
      visitSKind minl maxl (.asyncFuncDef name args B d r) m = .ok m) ∧
    (∀ (minl maxl : Int) (name : String) (args : List String) (B : StmtList)
      (d : ExprList) (r : Option Expr) (m : SeqMap), allSimple B = true →
      visitSKind minl maxl (.funcDef name args B d r) m =
        walk_body minl maxl B.toList m) ∧
    (∀ (minl maxl : Int) (name : String) (args : List String)
      (d : ExprList) (r : Option Expr) (l e : Option Int) (t : Expr)
      (B1 B2 : StmtList) (m : SeqMap),
      visitSKind minl maxl
        (.asyncFuncDef name args (.cons (Stmt.mk l e (.ifS t B1 B2)) .nil) d r) m =
        visitSKind minl maxl (.ifS t B1 B2) m) := by
  refine ⟨fun _ _ _ _ _ _ _ _ => rfl, fun _ _ _ _ _ _ _ _ => rfl, ?_, ?_, ?_⟩
  · intro minl maxl name args B d r m hB
    exact visitStmts_simple B minl maxl m hB
  · intro minl maxl name args B d r m hB
    show (walk_body minl maxl B.toList m).bind (visitStmts minl maxl B) = _
    cases hw : walk_body minl maxl B.toList m with
    | error err => rfl
    | ok m1 =>
      show visitStmts minl maxl B m1 = _
      exact visitStmts_simple B minl maxl m1 hB
  · intro minl maxl name args d r l e t B1 B2 m
    show (visitSKind minl maxl (.ifS t B1 B2) m).bind
      (visitStmts minl maxl .nil) = visitSKind minl maxl (.ifS t B1 B2) m
    cases hw : visitSKind minl maxl (.ifS t B1 B2) m with
    | error err => rfl
    | ok m1 => rfl

/-! ## Claim C3: renaming invariance -/

theorem strAppLeftCancel {s a b : String} (h : s ++ a = s ++ b) : a = b := by
  have hdata := congrArg String.data h
  simp only [String.data_append] at hdata
  exact string_data_inj (List.append_cancel_left hdata)

theorem okName_notAttrKey {x : String} (h : okName x = true) : NotAttrKey x := by
  intro a hx
  rw [okName, hx] at h
  rw [decide_eq_true_iff] at h
  apply h
  rw [String.data_append]
  rfl

theorem alookup_append (l : List (String × String)) (k v key : String) :
    alookup (l ++ [(k, v)]) key =
      match alookup l key with
      | some p => some p
      | Option.none => if k = key then some v else Option.none := by
  induction l with
  | nil => rfl
  | cons e rest ih =>
    obtain ⟨ek, ev⟩ := e
    show alookup ((ek, ev) :: (rest ++ [(k, v)])) key = _
    rw [alookup]
    by_cases hek : ek = key
    · rw [if_pos hek,
        show alookup ((ek, ev) :: rest) key = some ev from by rw [alookup, if_pos hek]]
    · rw [if_neg hek, ih,
        show alookup ((ek, ev) :: rest) key = alookup rest key from by
          rw [alookup, if_neg hek]]

theorem aligned_map_name {ρ : Renaming} {s1 s2 : CState} {x : String}
    (hal : Aligned ρ s1 s2) (hinj : Function.Injective ρ.n)
    (hx : NotAttrKey x) (hρx : NotAttrKey (ρ.n x)) :
    (map_name s2 (ρ.n x)).1 = (map_name s1 x).1 ∧
    Aligned ρ (map_name s1 x).2 (map_name s2 (ρ.n x)).2 := by
  obtain ⟨hc1, hc2, hname, hattr, hconst⟩ := hal
  unfold map_name
  rw [hname x hx hρx]
  cases h1 : alookup s1.name_map x with
  | some p => exact ⟨rfl, hc1, hc2, hname, hattr, hconst⟩
  | none =>
    constructor
    · show "_N" ++ natDecimal s2.n_name = "_N" ++ natDecimal s1.n_name
      rw [hc1]
    · refine ⟨?_, hc2, ?_, ?_, hconst⟩
      · show s2.n_name + 1 = s1.n_name + 1
        rw [hc1]
      · intro y hy hρy
        show alookup (s2.name_map ++ [(ρ.n x, "_N" ++ natDecimal s2.n_name)]) (ρ.n y) =
          alookup (s1.name_map ++ [(x, "_N" ++ natDecimal s1.n_name)]) y
        rw [alookup_append, alookup_append, hname y hy hρy]
        cases h2 : alookup s1.name_map y with
        | some p => rfl
        | none =>
          by_cases hxy : x = y
          · subst hxy
            rw [if_pos rfl, if_pos rfl, hc1]
          · rw [if_neg (fun hc => hxy (hinj hc)), if_neg hxy]
      · intro a
        show alookup (s2.name_map ++ [(ρ.n x, "_N" ++ natDecimal s2.n_name)])
            ("attr::" ++ ρ.a a) =
          alookup (s1.name_map ++ [(x, "_N" ++ natDecimal s1.n_name)]) ("attr::" ++ a)
        rw [alookup_append, alookup_append, hattr a]
        cases h2 : alookup s1.name_map ("attr::" ++ a) with
        | some p => rfl
        | none => rw [if_neg (hρx (ρ.a a)), if_neg (hx a)]

theorem aligned_map_attr {ρ : Renaming} {s1 s2 : CState} {a : String}
    (hal : Aligned ρ s1 s2) (hainj : Function.Injective ρ.a) :
    (map_attr s2 (ρ.a a)).1 = (map_attr s1 a).1 ∧
    Aligned ρ (map_attr s1 a).2 (map_attr s2 (ρ.a a)).2 := by
  obtain ⟨hc1, hc2, hname, hattr, hconst⟩ := hal
  unfold map_attr
  rw [hattr a]
  cases h1 : alookup s1.name_map ("attr::" ++ a) with
  | some p => exact ⟨rfl, hc1, hc2, hname, hattr, hconst⟩
  | none =>
    constructor
    · show "_A" ++ natDecimal s2.n_name = "_A" ++ natDecimal s1.n_name
      rw [hc1]
    · refine ⟨?_, hc2, ?_, ?_, hconst⟩
      · show s2.n_name + 1 = s1.n_name + 1
        rw [hc1]
      · intro y hy hρy
        show alookup (s2.name_map ++
            [("attr::" ++ ρ.a a, "_A" ++ natDecimal s2.n_name)]) (ρ.n y) =
          alookup (s1.name_map ++ [("attr::" ++ a, "_A" ++ natDecimal s1.n_name)]) y
        rw [alookup_append, alookup_append, hname y hy hρy]
        cases h2 : alookup s1.name_map y with
        | some p => rfl
        | none =>
          rw [if_neg (fun hc => hρy (ρ.a a) hc.symm), if_neg (fun hc => hy a hc.symm)]
      · intro b
        show alookup (s2.name_map ++
            [("attr::" ++ ρ.a a, "_A" ++ natDecimal s2.n_name)]) ("attr::" ++ ρ.a b) =
          alookup (s1.name_map ++
            [("attr::" ++ a, "_A" ++ natDecimal s1.n_name)]) ("attr::" ++ b)
        rw [alookup_append, alookup_append, hattr b]
        cases h2 : alookup s1.name_map ("attr::" ++ b) with
        | some p => rfl
        | none =>
          by_cases hab : a = b
          · subst hab
            rw [if_pos rfl, if_pos rfl, hc1]
          · rw [if_neg (fun hc => hab (hainj (strAppLeftCancel hc))),
              if_neg (fun hc => hab (strAppLeftCancel hc))]

theorem aligned_map_const {ρ : Renaming} {s1 s2 : CState} {v : PyVal}
    (hal : Aligned ρ s1 s2) (hcinj : Function.Injective ρ.c) :
    (map_const s2 (ρ.c v)).1 = (map_const s1 v).1 ∧
    Aligned ρ (map_const s1 v).2 (map_const s2 (ρ.c v)).2 := by
  obtain ⟨hc1, hc2, hname, hattr, hconst⟩ := hal
  unfold map_const
  rw [hconst v]
  cases h1 : alookup s1.const_map (pyRepr v) with
  | some p => exact ⟨rfl, hc1, hc2, hname, hattr, hconst⟩
  | none =>
    constructor
    · show "_C" ++ natDecimal s2.n_const = "_C" ++ natDecimal s1.n_const
      rw [hc2]
    · refine ⟨hc1, ?_, hname, hattr, ?_⟩
      · show s2.n_const + 1 = s1.n_const + 1
        rw [hc2]
      · intro w
        show alookup (s2.const_map ++
            [(pyRepr (ρ.c v), "_C" ++ natDecimal s2.n_const)]) (pyRepr (ρ.c w)) =
          alookup (s1.const_map ++ [(pyRepr v, "_C" ++ natDecimal s1.n_const)]) (pyRepr w)
        rw [alookup_append, alookup_append, hconst w]
        cases h2 : alookup s1.const_map (pyRepr w) with
        | some p => rfl
        | none =>
          by_cases hvw : v = w
          · subst hvw
            rw [if_pos rfl, if_pos rfl, hc2]
          · rw [if_neg (fun hc => hvw (hcinj (pyRepr_inj _ _ hc))),
              if_neg (fun hc => hvw (pyRepr_inj _ _ hc))]

mutual
theorem canonExpr_rename (ρ : Renaming) (hn : Function.Injective ρ.n)
    (ha : Function.Injective ρ.a) (hc : Function.Injective ρ.c)
    (hp : ∀ x, NotAttrKey x → NotAttrKey (ρ.n x)) :
    ∀ (e : Expr) (s1 s2 : CState), Aligned ρ s1 s2 → validExpr e = true →
    (canonExpr (renameExpr ρ e) s2).1 = (canonExpr e s1).1 ∧
    Aligned ρ (canonExpr e s1).2 (canonExpr (renameExpr ρ e) s2).2
  | .name id ctx, s1, s2, hal, hv => by
    rw [validExpr] at hv
    have hk := okName_notAttrKey hv
    obtain ⟨h1, h2⟩ := aligned_map_name hal hn hk (hp id hk)
    simp only [renameExpr, canonExpr]
    exact ⟨by rw [h1], h2⟩
  | .attribute v a ctx, s1, s2, hal, hv => by
    rw [validExpr] at hv
    obtain ⟨h1, h2⟩ := canonExpr_rename ρ hn ha hc hp v s1 s2 hal hv
    obtain ⟨g1, g2⟩ := aligned_map_attr (a := a) h2 ha
    simp only [renameExpr, canonExpr]
    exact ⟨by rw [h1, g1], g2⟩
  | .const v, s1, s2, hal, hv => by
    obtain ⟨h1, h2⟩ := aligned_map_const (v := v) hal hc
    simp only [renameExpr, canonExpr]
    exact ⟨by rw [h1], h2⟩
  | .call f args kws, s1, s2, hal, hv => by
    rw [validExpr] at hv
    simp only [Bool.and_eq_true] at hv
    obtain ⟨⟨hvf, hva⟩, hvk⟩ := hv
    obtain ⟨h1, h2⟩ := canonExpr_rename ρ hn ha hc hp f s1 s2 hal hvf
    obtain ⟨g1, g2⟩ := canonExprList_rename ρ hn ha hc hp args _ _ h2 hva
    obtain ⟨k1, k2⟩ := canonKwList_rename ρ hn ha hc hp kws _ _ g2 hvk
    simp only [renameExpr, canonExpr]
    exact ⟨by rw [h1, g1, k1], k2⟩
  | .binOp l op r, s1, s2, hal, hv => by
    rw [validExpr] at hv
    simp only [Bool.and_eq_true] at hv
    obtain ⟨h1, h2⟩ := canonExpr_rename ρ hn ha hc hp l s1 s2 hal hv.1
    obtain ⟨g1, g2⟩ := canonExpr_rename ρ hn ha hc hp r _ _ h2 hv.2
    simp only [renameExpr, canonExpr]
    exact ⟨by rw [h1, g1], g2⟩
theorem canonExprList_rename (ρ : Renaming) (hn : Function.Injective ρ.n)
    (ha : Function.Injective ρ.a) (hc : Function.Injective ρ.c)
    (hp : ∀ x, NotAttrKey x → NotAttrKey (ρ.n x)) :
    ∀ (es : ExprList) (s1 s2 : CState), Aligned ρ s1 s2 → validExprList es = true →
    (canonExprList (renameExprList ρ es) s2).1 = (canonExprList es s1).1 ∧
    Aligned ρ (canonExprList es s1).2 (canonExprList (renameExprList ρ es) s2).2
  | .nil, s1, s2, hal, hv => by
    simp only [renameExprList, canonExprList]
    exact ⟨trivial, hal⟩
  | .cons e es, s1, s2, hal, hv => by
    rw [validExprList] at hv
    simp only [Bool.and_eq_true] at hv
    obtain ⟨h1, h2⟩ := canonExpr_rename ρ hn ha hc hp e s1 s2 hal hv.1
    obtain ⟨g1, g2⟩ := canonExprList_rename ρ hn ha hc hp es _ _ h2 hv.2
    simp only [renameExprList, canonExprList]
    exact ⟨by rw [h1, g1], g2⟩
theorem canonKwList_rename (ρ : Renaming) (hn : Function.Injective ρ.n)
    (ha : Function.Injective ρ.a) (hc : Function.Injective ρ.c)
    (hp : ∀ x, NotAttrKey x → NotAttrKey (ρ.n x)) :
    ∀ (ks : KwList) (s1 s2 : CState), Aligned ρ s1 s2 → validKwList ks = true →
    (canonKwList (renameKwList ρ ks) s2).1 = (canonKwList ks s1).1 ∧
    Aligned ρ (canonKwList ks s1).2 (canonKwList (renameKwList ρ ks) s2).2
  | .nil, s1, s2, hal, hv => by
    simp only [renameKwList, canonKwList]
    exact ⟨trivial, hal⟩
  | .cons a v ks, s1, s2, hal, hv => by
    rw [validKwList] at hv
    simp only [Bool.and_eq_true] at hv
    obtain ⟨h1, h2⟩ := canonExpr_rename ρ hn ha hc hp v s1 s2 hal hv.1
    obtain ⟨g1, g2⟩ := canonKwList_rename ρ hn ha hc hp ks _ _ h2 hv.2
    simp only [renameKwList, canonKwList]
    exact ⟨by rw [h1, g1], g2⟩
end

theorem canonOptExpr_rename (ρ : Renaming) (hn : Function.Injective ρ.n)
    (ha : Function.Injective ρ.a) (hc : Function.Injective ρ.c)
    (hp : ∀ x, NotAttrKey x → NotAttrKey (ρ.n x)) :
    ∀ (e : Option Expr) (s1 s2 : CState), Aligned ρ s1 s2 → validOptExpr e = true →
    (canonOptExpr (renameOptExpr ρ e) s2).1 = (canonOptExpr e s1).1 ∧
    Aligned ρ (canonOptExpr e s1).2 (canonOptExpr (renameOptExpr ρ e) s2).2
  | Option.none, s1, s2, hal, hv => by
    simp only [renameOptExpr, canonOptExpr]
    exact ⟨trivial, hal⟩
  | some e, s1, s2, hal, hv => by
    rw [validOptExpr] at hv
    obtain ⟨h1, h2⟩ := canonExpr_rename ρ hn ha hc hp e s1 s2 hal hv
    simp only [renameOptExpr, canonOptExpr]
    exact ⟨by rw [h1], h2⟩

theorem canonArgs_rename (ρ : Renaming) (hn : Function.Injective ρ.n)
    (hp : ∀ x, NotAttrKey x → NotAttrKey (ρ.n x)) :
    ∀ (args : List String) (s1 s2 : CState), Aligned ρ s1 s2 →
      args.all okName = true →
    (canonArgs (args.map ρ.n) s2).1 = (canonArgs args s1).1 ∧
    Aligned ρ (canonArgs args s1).2 (canonArgs (args.map ρ.n) s2).2
  | [], s1, s2, hal, hv => by
    simp only [List.map_nil, canonArgs]
    exact ⟨trivial, hal⟩
  | a :: as, s1, s2, hal, hv => by
    rw [List.all_cons] at hv
    simp only [Bool.and_eq_true] at hv
    have hk := okName_notAttrKey hv.1
    obtain ⟨h1, h2⟩ := aligned_map_name hal hn hk (hp a hk)
    obtain ⟨g1, g2⟩ := canonArgs_rename ρ hn hp as _ _ h2 hv.2
    simp only [List.map_cons, canonArgs]
    exact ⟨by rw [h1, g1], g2⟩

mutual
theorem canonStmt_rename (ρ : Renaming) (hn : Function.Injective ρ.n)
    (ha : Function.Injective ρ.a) (hc : Function.Injective ρ.c)
    (hp : ∀ x, NotAttrKey x → NotAttrKey (ρ.n x)) :
    ∀ (s : Stmt) (s1 s2 : CState), Aligned ρ s1 s2 → validStmt s = true →
    (canonStmt (renameStmt ρ s) s2).1 = (canonStmt s s1).1 ∧
    Aligned ρ (canonStmt s s1).2 (canonStmt (renameStmt ρ s) s2).2
  | .mk l e k, s1, s2, hal, hv => by
    rw [validStmt] at hv
    obtain ⟨h1, h2⟩ := canonSKind_rename ρ hn ha hc hp k s1 s2 hal hv
    simp only [renameStmt, canonStmt]
    exact ⟨by rw [h1], h2⟩
theorem canonSKind_rename (ρ : Renaming) (hn : Function.Injective ρ.n)
    (ha : Function.Injective ρ.a) (hc : Function.Injective ρ.c)
    (hp : ∀ x, NotAttrKey x → NotAttrKey (ρ.n x)) :
    ∀ (k : SKind) (s1 s2 : CState), Aligned ρ s1 s2 → validSKind k = true →
    (canonSKind (renameSKind ρ k) s2).1 = (canonSKind k s1).1 ∧
    Aligned ρ (canonSKind k s1).2 (canonSKind (renameSKind ρ k) s2).2
  | .assign t v, s1, s2, hal, hv => by
    rw [validSKind] at hv
    simp only [Bool.and_eq_true] at hv
    obtain ⟨h1, h2⟩ := canonExpr_rename ρ hn ha hc hp t s1 s2 hal hv.1
    obtain ⟨g1, g2⟩ := canonExpr_rename ρ hn ha hc hp v _ _ h2 hv.2
    simp only [renameSKind, canonSKind]
    exact ⟨by rw [h1, g1], g2⟩
  | .augAssign t op v, s1, s2, hal, hv => by
    rw [validSKind] at hv
    simp only [Bool.and_eq_true] at hv
    obtain ⟨h1, h2⟩ := canonExpr_rename ρ hn ha hc hp t s1 s2 hal hv.1
    obtain ⟨g1, g2⟩ := canonExpr_rename ρ hn ha hc hp v _ _ h2 hv.2
    simp only [renameSKind, canonSKind]
    exact ⟨by rw [h1, g1], g2⟩
  | .exprStmt v, s1, s2, hal, hv => by
    rw [validSKind] at hv
    obtain ⟨h1, h2⟩ := canonExpr_rename ρ hn ha hc hp v s1 s2 hal hv
    simp only [renameSKind, canonSKind]
    exact ⟨by rw [h1], h2⟩
  | .ret v, s1, s2, hal, hv => by
    rw [validSKind] at hv
    obtain ⟨h1, h2⟩ := canonOptExpr_rename ρ hn ha hc hp v s1 s2 hal hv
    simp only [renameSKind, canonSKind]
    exact ⟨by rw [h1], h2⟩
  | .ifS t b o, s1, s2, hal, hv => by
    rw [validSKind] at hv
    simp only [Bool.and_eq_true] at hv
    obtain ⟨⟨hvt, hvb⟩, hvo⟩ := hv
    obtain ⟨h1, h2⟩ := canonExpr_rename ρ hn ha hc hp t s1 s2 hal hvt
    obtain ⟨g1, g2⟩ := canonStmtList_rename ρ hn ha hc hp b _ _ h2 hvb
    obtain ⟨k1, k2⟩ := canonStmtList_rename ρ hn ha hc hp o _ _ g2 hvo
    simp only [renameSKind, canonSKind]
    exact ⟨by rw [h1, g1, k1], k2⟩
  | .whileS t b o, s1, s2, hal, hv => by
    rw [validSKind] at hv
    simp only [Bool.and_eq_true] at hv
    obtain ⟨⟨hvt, hvb⟩, hvo⟩ := hv
    obtain ⟨h1, h2⟩ := canonExpr_rename ρ hn ha hc hp t s1 s2 hal hvt
    obtain ⟨g1, g2⟩ := canonStmtList_rename ρ hn ha hc hp b _ _ h2 hvb
    obtain ⟨k1, k2⟩ := canonStmtList_rename ρ hn ha hc hp o _ _ g2 hvo
    simp only [renameSKind, canonSKind]
    exact ⟨by rw [h1, g1, k1], k2⟩
  | .forS t it b o, s1, s2, hal, hv => by
    rw [validSKind] at hv
    simp only [Bool.and_eq_true] at hv
    obtain ⟨⟨⟨hvt, hvi⟩, hvb⟩, hvo⟩ := hv
    obtain ⟨h1, h2⟩ := canonExpr_rename ρ hn ha hc hp t s1 s2 hal hvt
    obtain ⟨i1, i2⟩ := canonExpr_rename ρ hn ha hc hp it _ _ h2 hvi
    obtain ⟨g1, g2⟩ := canonStmtList_rename ρ hn ha hc hp b _ _ i2 hvb
    obtain ⟨k1, k2⟩ := canonStmtList_rename ρ hn ha hc hp o _ _ g2 hvo
    simp only [renameSKind, canonSKind]
    exact ⟨by rw [h1, i1, g1, k1], k2⟩
  | .withS item b, s1, s2, hal, hv => by
    rw [validSKind] at hv
    simp only [Bool.and_eq_true] at hv
    obtain ⟨h1, h2⟩ := canonExpr_rename ρ hn ha hc hp item s1 s2 hal hv.1
    obtain ⟨g1, g2⟩ := canonStmtList_rename ρ hn ha hc hp b _ _ h2 hv.2
    simp only [renameSKind, canonSKind]
    exact ⟨by rw [h1, g1], g2⟩
  | .funcDef nm args b d r, s1, s2, hal, hv => by
    rw [validSKind] at hv
    simp only [Bool.and_eq_true] at hv
    obtain ⟨⟨⟨hva, hvb⟩, hvd⟩, hvr⟩ := hv
    obtain ⟨a1, a2⟩ := canonArgs_rename ρ hn hp args s1 s2 hal hva
    obtain ⟨b1, b2⟩ := canonStmtList_rename ρ hn ha hc hp b _ _ a2 hvb
    obtain ⟨d1, d2⟩ := canonExprList_rename ρ hn ha hc hp d _ _ b2 hvd
    obtain ⟨r1, r2⟩ := canonOptExpr_rename ρ hn ha hc hp r _ _ d2 hvr
    simp only [renameSKind, canonSKind]
    exact ⟨by rw [a1, b1], r2⟩
  | .asyncFuncDef nm args b d r, s1, s2, hal, hv => by
    rw [validSKind] at hv
    simp only [Bool.and_eq_true] at hv
    obtain ⟨⟨⟨hva, hvb⟩, hvd⟩, hvr⟩ := hv
    obtain ⟨a1, a2⟩ := canonArgs_rename ρ hn hp args s1 s2 hal hva
    obtain ⟨b1, b2⟩ := canonStmtList_rename ρ hn ha hc hp b _ _ a2 hvb
    obtain ⟨d1, d2⟩ := canonExprList_rename ρ hn ha hc hp d _ _ b2 hvd
    obtain ⟨r1, r2⟩ := canonOptExpr_rename ρ hn ha hc hp r _ _ d2 hvr
    simp only [renameSKind, canonSKind]
    exact ⟨by rw [a1, b1, d1, r1], r2⟩
  | .classDef nm bases b d, s1, s2, hal, hv => by
    rw [validSKind] at hv
    simp only [Bool.and_eq_true] at hv
    obtain ⟨⟨hvbs, hvb⟩, hvd⟩ := hv
    obtain ⟨s1', s2'⟩ := canonExprList_rename ρ hn ha hc hp bases s1 s2 hal hvbs
    obtain ⟨b1, b2⟩ := canonStmtList_rename ρ hn ha hc hp b _ _ s2' hvb
    obtain ⟨d1, d2⟩ := canonExprList_rename ρ hn ha hc hp d _ _ b2 hvd
    simp only [renameSKind, canonSKind]
    exact ⟨by rw [b1], d2⟩
  | .tryS b hs o f, s1, s2, hal, hv => by
    rw [validSKind] at hv
    simp only [Bool.and_eq_true] at hv
    obtain ⟨⟨⟨hvb, hvh⟩, hvo⟩, hvf⟩ := hv
    obtain ⟨b1, b2⟩ := canonStmtList_rename ρ hn ha hc hp b s1 s2 hal hvb
    obtain ⟨h1, h2⟩ := canonHandlers_rename ρ hn ha hc hp hs _ _ b2 hvh
    obtain ⟨o1, o2⟩ := canonStmtList_rename ρ hn ha hc hp o _ _ h2 hvo
    obtain ⟨f1, f2⟩ := canonStmtList_rename ρ hn ha hc hp f _ _ o2 hvf
    simp only [renameSKind, canonSKind]
    exact ⟨by rw [b1, h1, o1, f1], f2⟩
  | .pass, s1, s2, hal, hv => by
    simp only [renameSKind, canonSKind]
    exact ⟨trivial, hal⟩
  | .breakS, s1, s2, hal, hv => by
    simp only [renameSKind, canonSKind]
    exact ⟨trivial, hal⟩
  | .continueS, s1, s2, hal, hv => by
    simp only [renameSKind, canonSKind]
    exact ⟨trivial, hal⟩
theorem canonStmtList_rename (ρ : Renaming) (hn : Function.Injective ρ.n)
    (ha : Function.Injective ρ.a) (hc : Function.Injective ρ.c)
    (hp : ∀ x, NotAttrKey x → NotAttrKey (ρ.n x)) :
    ∀ (ss : StmtList) (s1 s2 : CState), Aligned ρ s1 s2 → validStmtList ss = true →
    (canonStmtList (renameStmtList ρ ss) s2).1 = (canonStmtList ss s1).1 ∧
    Aligned ρ (canonStmtList ss s1).2 (canonStmtList (renameStmtList ρ ss) s2).2
  | .nil, s1, s2, hal, hv => by
    simp only [renameStmtList, canonStmtList]
    exact ⟨trivial, hal⟩
  | .cons s ss, s1, s2, hal, hv => by
    rw [validStmtList] at hv
    simp only [Bool.and_eq_true] at hv
    obtain ⟨h1, h2⟩ := canonStmt_rename ρ hn ha hc hp s s1 s2 hal hv.1
    obtain ⟨g1, g2⟩ := canonStmtList_rename ρ hn ha hc hp ss _ _ h2 hv.2
    simp only [renameStmtList, canonStmtList]
    exact ⟨by rw [h1, g1], g2⟩
theorem canonHandlers_rename (ρ : Renaming) (hn : Function.Injective ρ.n)
    (ha : Function.Injective ρ.a) (hc : Function.Injective ρ.c)
    (hp : ∀ x, NotAttrKey x → NotAttrKey (ρ.n x)) :
    ∀ (hs : HandlerList) (s1 s2 : CState), Aligned ρ s1 s2 → validHandlers hs = true →
    (canonHandlers (renameHandlers ρ hs) s2).1 = (canonHandlers hs s1).1 ∧
    Aligned ρ (canonHandlers hs s1).2 (canonHandlers (renameHandlers ρ hs) s2).2
  | .nil, s1, s2, hal, hv => by
    simp only [renameHandlers, canonHandlers]
    exact ⟨trivial, hal⟩
  | .cons b hs, s1, s2, hal, hv => by
    rw [validHandlers] at hv
    simp only [Bool.and_eq_true] at hv
    obtain ⟨h1, h2⟩ := canonStmtList_rename ρ hn ha hc hp b s1 s2 hal hv.1
    obtain ⟨g1, g2⟩ := canonHandlers_rename ρ hn ha hc hp hs _ _ h2 hv.2
    simp only [renameHandlers, canonHandlers]
    exact ⟨by rw [h1, g1], g2⟩
end

theorem aligned_init (ρ : Renaming) : Aligned ρ initState initState :=
  ⟨rfl, rfl, fun _ _ _ => rfl, fun _ => rfl, fun _ => rfl⟩

theorem ofList_map_rename (ρ : Renaming) : ∀ (l : List Stmt),
    StmtList.ofList (l.map (renameStmt ρ)) = renameStmtList ρ (StmtList.ofList l)
  | [] => rfl
  | s :: ss => by
    simp only [List.map_cons, StmtList.ofList, renameStmtList, ofList_map_rename ρ ss]

/-- Witness for C10: the two-assignment body emits windows under a plain
`def` but none under `async def`. -/
theorem C10_witness :
    visitSKind 2 6 (.asyncFuncDef "f" [] (StmtList.ofList [sC4a, sC4b]) .nil Option.none)
      [] = .ok [] ∧
    visitSKind 2 6 (.funcDef "f" [] (StmtList.ofList [sC4a, sC4b]) .nil Option.none)
      [] = walk_body 2 6 (StmtList.ofList [sC4a, sC4b]).toList [] :=
  ⟨C10_theorem.2.2.1 2 6 "f" [] (StmtList.ofList [sC4a, sC4b]) .nil Option.none []
      (by decide),
   C10_theorem.2.2.2.1 2 6 "f" [] (StmtList.ofList [sC4a, sC4b]) .nil Option.none []
      (by decide)⟩

theorem vNotAttr (x a : String) : "v" ++ x ≠ "attr::" ++ a := by
  intro h
  have hd := congrArg String.data h
  rw [String.data_append, String.data_append] at hd
  have hd2 : ('v' : Char) :: x.data = 'a' :: ('t' :: 't' :: 'r' :: ':' :: ':' :: a.data) := hd
  injection hd2 with hh ht
  exact absurd hh (by decide)

/-- C3: two statement sequences that differ only by a consistent renaming
of variable names, parameter names, attribute names and literal constant
values — one injective map per namespace, so the repetition pattern of
identifiers and literals is preserved and value shape is kept — produce
byte-identical `canonical_block_dump` results: the dump strings are equal
and therefore the SHA-256 hashes are equal.  The name map must send legal
identifiers to legal identifiers (nothing of the reserved `attr::` key
shape), which every Python identifier renaming satisfies since identifiers
cannot contain a colon. -/
theorem C3_theorem (ρ : Renaming) (stmts : List Stmt)
    (hn : Function.Injective ρ.n) (ha : Function.Injective ρ.a)
    (hc : Function.Injective ρ.c)
    (hp : ∀ x, NotAttrKey x → NotAttrKey (ρ.n x))
    (hv : validStmtList (StmtList.ofList stmts) = true) :
    canonical_block_dump (stmts.map (renameStmt ρ)) = canonical_block_dump stmts := by
  obtain ⟨h1, h2⟩ := canonStmtList_rename ρ hn ha hc hp (StmtList.ofList stmts)
    initState initState (aligned_init ρ) hv
  simp only [canonical_block_dump]
  rw [ofList_map_rename, h1]

/-- Witness for C3: prefixing every variable name with `v` and every
attribute name with `w` (constants unchanged) leaves the canonical dump
and hash of the block `x = 1; y = 2` unchanged. -/
theorem C3_witness :
    canonical_block_dump (([sC4a, sC4b]).map (renameStmt renC3)) =
      canonical_block_dump [sC4a, sC4b] :=
  C3_theorem renC3 [sC4a, sC4b]
    (fun x y h => strAppLeftCancel h)
    (fun x y h => strAppLeftCancel h)
    (fun x y h => h)
    (fun x hx a hcon => vNotAttr x a hcon)
    (by decide)

end Z202
